import Mathlib

/-!
# Grid pathfinding (`script.js`): Dijkstra and A* on the 20 x 20 grid

A shallow embedding of the search code of `script.js`.

* A coordinate is a record of two integers, as the JavaScript objects `{row, col}` are.
* The DOM grid is read by the search only through
  `grid[r][c].classList.contains('wall')`; it is embedded as a function
  `Walls := Int → Int → Bool`, consulted (like the array) only at in-bounds indices.
* The 20 x 20 arrays `dist`, `gScore`, `fScore` and `prev` are functions on coordinates;
  `Infinity` and `null` are `none`.
* The `while` loops take a fuel argument and return `none` when the fuel runs out, so a
  result `some _` is a result of the real loop.
* `Array.prototype.sort` is stable; it is embedded as insertion sort with `≤` on the
  key, which is a stable sort.
* The animation (`visualizeVisited`, `visualizePath`, `sleep`) only reads `visited` and
  `path`; a search is embedded as the function that returns these two sequences.
-/

namespace Pathfinder

/-! ## Data model -/

/-- Number of rows of the grid (`const ROWS = 20`). -/
def ROWS : Int := 20

/-- Number of columns of the grid (`const COLS = 20`). -/
def COLS : Int := 20

/-- A grid coordinate, the object `{row, col}`. -/
structure Coord where
  row : Int
  col : Int
deriving DecidableEq, Repr

/-- The wall configuration: `w r c` is `grid[r][c].classList.contains('wall')`. -/
abbrev Walls := Int → Int → Bool

/-- The four offsets of `getNeighbors`, in the order of the source. -/
def directions : List (Int × Int) := [(0, 1), (1, 0), (0, -1), (-1, 0)]

/-- The function `getNeighbors(node)`: the loop over `directions` pushes `{row: r, col: c}`
when the bounds test and the wall test pass. -/
def getNeighbors (w : Walls) (node : Coord) : List Coord :=
  directions.foldl
    (fun neighbors d =>
      let r := node.row + d.1
      let c := node.col + d.2
      if r ≥ 0 ∧ r < ROWS ∧ c ≥ 0 ∧ c < COLS ∧ ¬ (w r c = true) then
        neighbors ++ [{ row := r, col := c }]
      else neighbors)
    []

/-- The function `heuristic(a, b)`: `Math.abs(a.row - b.row) + Math.abs(a.col - b.col)`. -/
def heuristic (a b : Coord) : Nat :=
  (a.row - b.row).natAbs + (a.col - b.col).natAbs

/-- The test `alt < dist[..]` on numbers that may be `Infinity` (`none`). -/
def ltInf : Option Nat → Option Nat → Bool
  | some a, some b => decide (a < b)
  | some _, none => true
  | none, _ => false

/-- Assignment `arr[c.row][c.col] = v` on an array embedded as a function. -/
def setAt {α : Type} (arr : Coord → α) (c : Coord) (v : α) : Coord → α :=
  fun x => if x = c then v else arr x

/-- The walk `while (current && prev[..] !== null) { path.push(current); current = prev[..] }`.
Returns the pushed coordinates in push order, or `none` when the fuel runs out. -/
def walkBack (prev : Coord → Option Coord) : Nat → Coord → Option (List Coord)
  | 0, _ => none
  | fuel + 1, current =>
    match prev current with
    | none => some []
    | some p => (walkBack prev fuel p).map (fun rest => current :: rest)

/-- Path reconstruction shared by both searches: the walk from `end`, then
`path.push(start); path.reverse()`. -/
def buildPath (prev : Coord → Option Coord) (fuel : Nat) (start end_ : Coord) :
    Option (List Coord) :=
  (walkBack prev fuel end_).map (fun path => (path ++ [start]).reverse)

/-! ## Dijkstra -/

/-- A frontier entry of `dijkstra`, the object `{...node, cost}`. -/
structure PqEntry where
  row : Int
  col : Int
  cost : Nat
deriving DecidableEq, Repr

/-- The coordinate of a frontier entry. -/
def PqEntry.coord (e : PqEntry) : Coord := { row := e.row, col := e.col }

/-- The local state of `dijkstra`. The array `prev` holds the popped entry `current`; only its
`row` and `col` are ever read (by the predecessor walk), so it is embedded as a coordinate. -/
structure DState where
  visited : List PqEntry
  prev : Coord → Option Coord
  dist : Coord → Option Nat
  pq : List PqEntry

/-- The call `pq.sort((a,b) => a.cost - b.cost)`, a stable sort by `cost`. -/
def sortPq (pq : List PqEntry) : List PqEntry :=
  pq.insertionSort (fun a b => a.cost ≤ b.cost)

/-- One pass of the body of `for (const neighbor of getNeighbors(current))` in `dijkstra`.
`alt` is `dist[current] + 1`; with `dist[current]` infinite the test `alt < ..` is false. -/
def dRelax (current : Coord) (st : DState) (neighbor : Coord) : DState :=
  match st.dist current with
  | none => st
  | some d =>
    let alt := d + 1
    if ltInf (some alt) (st.dist neighbor) = true then
      { st with
        dist := setAt st.dist neighbor (some alt)
        prev := setAt st.prev neighbor (some current)
        pq := st.pq ++ [{ row := neighbor.row, col := neighbor.col, cost := alt }] }
    else st

/-- One iteration of the `while (pq.length)` loop after the sort, for the popped entry
`current` and the rest of the queue; the second component signals `break`. -/
def dStep (w : Walls) (end_ : Coord) (st : DState) (current : PqEntry) (rest : List PqEntry) :
    DState × Bool :=
  let st1 : DState := { st with visited := st.visited ++ [current], pq := rest }
  if current.row = end_.row ∧ current.col = end_.col then (st1, true)
  else ((getNeighbors w current.coord).foldl (dRelax current.coord) st1, false)

/-- The `while (pq.length)` loop of `dijkstra`; `none` when the fuel runs out. -/
def dLoop (w : Walls) (end_ : Coord) : Nat → DState → Option DState
  | 0, _ => none
  | fuel + 1, st =>
    match sortPq st.pq with
    | [] => some st
    | current :: rest =>
      let r := dStep w end_ st current rest
      if r.2 = true then some r.1 else dLoop w end_ fuel r.1

/-- The state of `dijkstra` before its loop. -/
def dInit (start : Coord) : DState :=
  { visited := []
    prev := fun _ => none
    dist := setAt (fun _ => none) start (some 0)
    pq := [{ row := start.row, col := start.col, cost := 0 }] }

/-- The result of a search: the `visited` trace and the reconstructed `path`. -/
structure DResult where
  visited : List PqEntry
  path : List Coord

/-- The function `dijkstra(start, end)` (without the animation calls): `none` when the fuel
does not suffice for one of its two loops. -/
def dijkstra (w : Walls) (fuel : Nat) (start end_ : Coord) : Option DResult :=
  match dLoop w end_ fuel (dInit start) with
  | none => none
  | some st =>
    match buildPath st.prev fuel start end_ with
    | none => none
    | some path => some { visited := st.visited, path := path }

/-! ## A* -/

/-- An open-set entry of `astar`, the object `{...node, f}`. -/
structure OpenEntry where
  row : Int
  col : Int
  f : Nat
deriving DecidableEq, Repr

/-- The coordinate of an open-set entry. -/
def OpenEntry.coord (e : OpenEntry) : Coord := { row := e.row, col := e.col }

/-- The local state of `astar`; `prev` holds coordinates, as in `DState`. -/
structure AState where
  visited : List OpenEntry
  prev : Coord → Option Coord
  gScore : Coord → Option Nat
  fScore : Coord → Option Nat
  openSet : List OpenEntry

/-- The call `openSet.sort((a,b) => a.f - b.f)`, a stable sort by `f`. -/
def sortOpen (openSet : List OpenEntry) : List OpenEntry :=
  openSet.insertionSort (fun a b => a.f ≤ b.f)

/-- The test `openSet.some(n => n.row === neighbor.row && n.col === neighbor.col)`. -/
def inOpen (openSet : List OpenEntry) (neighbor : Coord) : Bool :=
  openSet.any (fun n => decide (n.row = neighbor.row ∧ n.col = neighbor.col))

/-- One pass of the body of `for (const neighbor of getNeighbors(current))` in `astar`.
The pushed `f` is `fScore[neighbor]`, just written as `tentativeG + heuristic(neighbor, end)`. -/
def aRelax (end_ : Coord) (current : Coord) (st : AState) (neighbor : Coord) : AState :=
  match st.gScore current with
  | none => st
  | some g =>
    let tentativeG := g + 1
    if ltInf (some tentativeG) (st.gScore neighbor) = true then
      let fNew := tentativeG + heuristic neighbor end_
      let st1 : AState :=
        { st with
          prev := setAt st.prev neighbor (some current)
          gScore := setAt st.gScore neighbor (some tentativeG)
          fScore := setAt st.fScore neighbor (some fNew) }
      if inOpen st1.openSet neighbor = true then st1
      else { st1 with
             openSet := st1.openSet ++ [{ row := neighbor.row, col := neighbor.col, f := fNew }] }
    else st

/-- One iteration of the `while (openSet.length)` loop after the sort; the second
component signals `break`. -/
def aStep (w : Walls) (end_ : Coord) (st : AState) (current : OpenEntry)
    (rest : List OpenEntry) : AState × Bool :=
  let st1 : AState := { st with visited := st.visited ++ [current], openSet := rest }
  if current.row = end_.row ∧ current.col = end_.col then (st1, true)
  else ((getNeighbors w current.coord).foldl (aRelax end_ current.coord) st1, false)

/-- The `while (openSet.length)` loop of `astar`; `none` when the fuel runs out. -/
def aLoop (w : Walls) (end_ : Coord) : Nat → AState → Option AState
  | 0, _ => none
  | fuel + 1, st =>
    match sortOpen st.openSet with
    | [] => some st
    | current :: rest =>
      let r := aStep w end_ st current rest
      if r.2 = true then some r.1 else aLoop w end_ fuel r.1

/-- The state of `astar` before its loop. -/
def aInit (start end_ : Coord) : AState :=
  { visited := []
    prev := fun _ => none
    gScore := setAt (fun _ => none) start (some 0)
    fScore := setAt (fun _ => none) start (some (heuristic start end_))
    openSet := [{ row := start.row, col := start.col, f := heuristic start end_ }] }

/-- The result of `astar`: the `visited` trace, the reconstructed `path`, and the value of
`gScore[end]` when the loop is left. -/
structure AResult where
  visited : List OpenEntry
  path : List Coord
  gEnd : Option Nat

/-- The function `astar(start, end)` (without the animation calls): `none` when the fuel
does not suffice for one of its two loops. -/
def astar (w : Walls) (fuel : Nat) (start end_ : Coord) : Option AResult :=
  match aLoop w end_ fuel (aInit start end_) with
  | none => none
  | some st =>
    match buildPath st.prev fuel start end_ with
    | none => none
    | some path => some { visited := st.visited, path := path, gEnd := st.gScore end_ }

/-! ## Routes -/

/-- The cell `c` is inside the grid. -/
def InBounds (c : Coord) : Prop :=
  0 ≤ c.row ∧ c.row < ROWS ∧ 0 ≤ c.col ∧ c.col < COLS

/-- The cell `c` is inside the grid and not a wall. -/
def IsOpen (w : Walls) (c : Coord) : Prop :=
  InBounds c ∧ w c.row c.col = false

/-- Orthogonal adjacency: the two cells differ by exactly 1 in exactly one of row/col. -/
def Adjacent (a b : Coord) : Prop :=
  (a.row - b.row).natAbs + (a.col - b.col).natAbs = 1

/-- A route from `s` to `e`: a sequence of in-bounds non-wall cells from `s` to `e`,
each consecutive pair orthogonally adjacent. -/
def IsRoute (w : Walls) (s e : Coord) (p : List Coord) : Prop :=
  p.head? = some s ∧ p.getLast? = some e ∧ p.Chain' Adjacent ∧ ∀ c ∈ p, IsOpen w c

instance (c : Coord) : Decidable (InBounds c) :=
  inferInstanceAs (Decidable (0 ≤ c.row ∧ c.row < ROWS ∧ 0 ≤ c.col ∧ c.col < COLS))

instance (w : Walls) (c : Coord) : Decidable (IsOpen w c) :=
  inferInstanceAs (Decidable (InBounds c ∧ w c.row c.col = false))

instance (a b : Coord) : Decidable (Adjacent a b) :=
  inferInstanceAs (Decidable ((a.row - b.row).natAbs + (a.col - b.col).natAbs = 1))

/-- The grid without walls. -/
def noWalls : Walls := fun _ _ => false

/-- The four candidate cells around `node`, in the order of `directions`. -/
def candidates (node : Coord) : List Coord :=
  [⟨node.row + 0, node.col + 1⟩, ⟨node.row + 1, node.col + 0⟩,
   ⟨node.row + 0, node.col + -1⟩, ⟨node.row + -1, node.col + 0⟩]

/-! ## Invariants and measures used in the proofs -/

/-- The facts about the scores `g` (`dist` or `gScore`), the predecessor array `prev` and the
coordinates `frontier` of the queue that both searches maintain. `pending` is the popped
node whose neighbours are being relaxed, if any. -/
structure SearchInv (w : Walls) (start : Coord) (g : Coord → Option Nat)
    (prev : Coord → Option Coord) (frontier : List Coord) (pending : Option Coord) : Prop where
  g_start : g start = some 0
  isopen : ∀ x, g x ≠ none → IsOpen w x
  frontier_disc : ∀ x ∈ frontier, g x ≠ none
  prev_sound : ∀ x p, prev x = some p →
    ∃ a b, g p = some a ∧ g x = some b ∧ a + 1 ≤ b ∧ x ∈ getNeighbors w p
  prev_none : ∀ x, prev x = none → g x ≠ none → x = start
  closure : ∀ x c, g x = some c → x ∉ frontier → pending ≠ some x →
    ∀ y ∈ getNeighbors w x, ∃ m, g y = some m ∧ m ≤ c + 1

/-- The breadth-first order facts of the `dijkstra` loop: `d` is a lower bound of the costs
in the queue, and every finite distance is at most `d + 1`. -/
structure DOrder (d : Nat) (st : DState) : Prop where
  sorted : st.pq.Sorted (fun a b => a.cost ≤ b.cost)
  cost_lo : ∀ e ∈ st.pq, d ≤ e.cost
  cost_hi : ∀ e ∈ st.pq, e.cost ≤ d + 1
  dist_hi : ∀ x n, st.dist x = some n → n ≤ d + 1
  pq_dist : ∀ e ∈ st.pq, st.dist e.coord = some e.cost
  vis_dist : ∀ e ∈ st.visited, st.dist e.coord = some e.cost
  vis_sorted : st.visited.Sorted (fun a b => a.cost ≤ b.cost)
  vis_le : ∀ e ∈ st.visited, e.cost ≤ d
  nodup : ((st.visited ++ st.pq).map PqEntry.coord).Nodup
  disc : ∀ x, st.dist x ≠ none → x ∈ (st.visited ++ st.pq).map PqEntry.coord

/-- The loop invariant of `dijkstra`. -/
def DInv (w : Walls) (start : Coord) (d : Nat) (pending : Option Coord) (st : DState) : Prop :=
  SearchInv w start st.dist st.prev (st.pq.map PqEntry.coord) pending ∧ DOrder d st

/-- All coordinates of the grid. -/
def allCoords : List Coord :=
  (List.range 400).map (fun i => { row := ((i / 20 : Nat) : Int), col := ((i % 20 : Nat) : Int) })

/-- The state of `dijkstra` when its loop is left: by `break` with `end` popped, or with an
empty queue. -/
def DExit (w : Walls) (start end_ : Coord) (st : DState) : Prop :=
  ∃ d pending, DInv w start d pending st ∧
    ((pending = some end_ ∧ st.dist end_ = some d) ∨ (pending = none ∧ st.pq = []))

/-- The call `dijkstra(start, end)` returns `res`: the embedding yields `res` whenever the
fuel is large enough. -/
def DijkstraReturns (w : Walls) (start end_ : Coord) (res : DResult) : Prop :=
  ∃ n, ∀ fuel, n ≤ fuel → dijkstra w fuel start end_ = some res

/-- Number of grid cells whose score is still `Infinity`. -/
def undiscovered (g : Coord → Option Nat) : Nat :=
  allCoords.countP (fun c => (g c).isNone)

/-- Sum of the finite scores over the grid. -/
def scoreSum (g : Coord → Option Nat) : Nat :=
  (allCoords.map (fun c => (g c).getD 0)).sum

/-- The second component of the termination measure of the `astar` loop. -/
def aWeight (st : AState) : Nat := 2 * scoreSum st.gScore + st.openSet.length

/-- The state `s'` is not larger than `s` in the lexicographic termination order. -/
def ALe (s' s : AState) : Prop :=
  undiscovered s'.gScore < undiscovered s.gScore ∨
    (undiscovered s'.gScore = undiscovered s.gScore ∧ aWeight s' ≤ aWeight s)

/-- The loop invariant of `astar`. -/
def AInv (w : Walls) (start : Coord) (pending : Option Coord) (st : AState) : Prop :=
  SearchInv w start st.gScore st.prev (st.openSet.map OpenEntry.coord) pending

/-- The state of `astar` when its loop is left: by `break` with `end` popped, or with an
empty open set. -/
def AExit (w : Walls) (start end_ : Coord) (st : AState) : Prop :=
  ∃ pending, AInv w start pending st ∧
    ((pending = some end_ ∧ st.gScore end_ ≠ none) ∨ (pending = none ∧ st.openSet = []))

/-- The call `astar(start, end)` returns `res`: the embedding yields `res` whenever the fuel
is large enough. -/
def AstarReturns (w : Walls) (start end_ : Coord) (res : AResult) : Prop :=
  ∃ n, ∀ fuel, n ≤ fuel → astar w fuel start end_ = some res

/-- Executable test that consecutive entries of a list are orthogonally adjacent. -/
def adjacentChain : List Coord → Bool
  | [] => true
  | [_] => true
  | a :: b :: l => decide (Adjacent a b) && adjacentChain (b :: l)

/-- The cell `z` lies on a shortest way from `start` to `end` in the grid without walls. -/
def Rect (start end_ z : Coord) : Prop :=
  heuristic start z + heuristic z end_ = heuristic start end_

/-- Facts about the state of `astar` on the grid without walls that hold between and during
iterations: scores of cells on a shortest way are exact, the entries with the least possible
`f` are exactly those cells, and they sit in the open set in breadth-first order. -/
structure OGBase (start end_ : Coord) (st : AState) : Prop where
  g_rect : ∀ z n, st.gScore z = some n → Rect start end_ z → n = heuristic start z
  open_f : ∀ e ∈ st.openSet, heuristic start end_ ≤ e.f ∧
    (e.f = heuristic start end_ ↔ Rect start end_ e.coord)
  back : ∀ e ∈ st.openSet, e.f = heuristic start end_ → ∀ y, InBounds y →
    Adjacent y e.coord → Rect start end_ y →
    heuristic start y + 1 = heuristic start e.coord → st.gScore y ≠ none
  end_open : st.gScore end_ = none ∨ end_ ∈ st.openSet.map OpenEntry.coord
  sorted : (st.openSet.filter (fun e => decide (e.f = heuristic start end_))).Pairwise
    (fun e1 e2 => heuristic start e1.coord ≤ heuristic start e2.coord)

/-- The invariant of the `astar` loop on the grid without walls. -/
def OGInv (start end_ : Coord) (st : AState) : Prop :=
  OGBase start end_ st ∧
    ∀ e1 ∈ st.openSet, ∀ e2 ∈ st.openSet, e1.f = heuristic start end_ →
      e2.f = heuristic start end_ → heuristic start e2.coord ≤ heuristic start e1.coord + 1

/-- The invariant of the relaxation loop of `astar` on the grid without walls, for the popped
cell `cur` with score `k`. -/
def OGMid (start end_ cur : Coord) (k : Nat) (st : AState) : Prop :=
  OGBase start end_ st ∧
    (∀ e ∈ st.openSet, e.f = heuristic start end_ →
      k ≤ heuristic start e.coord ∧ heuristic start e.coord ≤ k + 1) ∧
    (∀ y, InBounds y → Adjacent y cur → Rect start end_ y → heuristic start y + 1 = k →
      st.gScore y ≠ none) ∧
    Rect start end_ cur ∧ heuristic start cur = k

instance : IsTotal OpenEntry (fun a b => a.f ≤ b.f) := ⟨fun a b => Nat.le_total a.f b.f⟩

instance : IsTrans OpenEntry (fun a b => a.f ≤ b.f) := ⟨fun _ _ _ h1 h2 => Nat.le_trans h1 h2⟩

/-! ## Example grids -/

/-- A wall configuration for the examples: the single wall `(1, 1)`. -/
def wallsOne : Walls := fun r c => decide (r = 1 ∧ c = 1)

/-- A wall configuration that encloses the cell `(19, 19)`. -/
def wallsEnclosed : Walls := fun r c => decide ((r = 18 ∧ c = 19) ∨ (r = 19 ∧ c = 18))

/-- The open cells of the grid `wallsDetour`, row by row. -/
def detourCells : List (Int × Int) :=
  [(0, 0), (0, 1), (0, 2), (0, 3), (0, 4), (1, 4), (2, 4), (3, 2), (3, 3), (3, 4), (4, 2),
   (4, 4), (4, 5), (4, 6), (5, 2), (5, 3), (5, 6), (6, 3), (6, 5), (6, 6), (6, 7), (7, 3),
   (7, 5), (7, 7), (8, 3), (8, 4), (8, 5), (8, 7), (9, 3), (9, 7), (10, 3), (10, 4), (10, 5),
   (10, 6), (10, 7), (11, 4), (12, 4), (13, 4), (13, 5), (14, 5), (15, 5), (15, 6), (16, 6),
   (16, 7), (16, 8), (16, 9), (16, 10), (17, 10), (17, 11), (17, 12), (17, 13), (17, 14),
   (17, 15), (17, 16), (18, 16), (18, 17), (18, 18), (19, 18), (19, 19)]

/-- A grid in which every cell is a wall except the cells of `detourCells`: two ways lead from
`(3, 4)` to `(10, 4)`, a western one of 11 steps and an eastern one of 13 steps, joined by a
cross link. -/
def wallsDetour : Walls := fun r c => !(detourCells.contains (r, c))

/-- A route of 42 steps from `(0, 0)` to `(19, 19)` in `wallsDetour`, through the western way. -/
def detourRoute : List Coord :=
  [⟨0, 0⟩, ⟨0, 1⟩, ⟨0, 2⟩, ⟨0, 3⟩, ⟨0, 4⟩, ⟨1, 4⟩, ⟨2, 4⟩, ⟨3, 4⟩, ⟨3, 3⟩, ⟨3, 2⟩, ⟨4, 2⟩,
   ⟨5, 2⟩, ⟨5, 3⟩, ⟨6, 3⟩, ⟨7, 3⟩, ⟨8, 3⟩, ⟨9, 3⟩, ⟨10, 3⟩, ⟨10, 4⟩, ⟨11, 4⟩, ⟨12, 4⟩,
   ⟨13, 4⟩, ⟨13, 5⟩, ⟨14, 5⟩, ⟨15, 5⟩, ⟨15, 6⟩, ⟨16, 6⟩, ⟨16, 7⟩, ⟨16, 8⟩, ⟨16, 9⟩,
   ⟨16, 10⟩, ⟨17, 10⟩, ⟨17, 11⟩, ⟨17, 12⟩, ⟨17, 13⟩, ⟨17, 14⟩, ⟨17, 15⟩, ⟨17, 16⟩,
   ⟨18, 16⟩, ⟨18, 17⟩, ⟨18, 18⟩, ⟨19, 18⟩, ⟨19, 19⟩]

/-- The open cells of the grid `wallsTwice`, row by row. -/
def twiceCells : List (Int × Int) :=
  [(0, 0), (0, 2), (0, 3), (0, 4), (0, 5), (0, 6), (0, 7), (1, 0), (1, 1), (1, 2), (1, 4),
   (1, 5), (1, 7), (2, 2), (2, 3), (2, 4), (2, 7), (3, 4), (3, 5), (3, 6), (3, 7), (19, 19)]

/-- A grid in which every cell is a wall except the cells of `twiceCells`. -/
def wallsTwice : Walls := fun r c => !(twiceCells.contains (r, c))

/-- The classes of a grid cell that the code tests: `'start'`, `'end'` and `'wall'`. -/
structure Cell where
  start : Bool
  end_ : Bool
  wall : Bool
deriving DecidableEq, Repr

/-- The array `grid` of cells, consulted (like the array) only at in-bounds indices. -/
abbrev Grid := Int → Int → Cell

/-- The global `startCell = {row: 0, col: 0}`. -/
def startCell : Coord := { row := 0, col := 0 }

/-- The global `endCell = {row: ROWS - 1, col: COLS - 1}`. -/
def endCell : Coord := { row := ROWS - 1, col := COLS - 1 }

/-- The function `createGrid()`: every cell is fresh, with class `'start'` at `startCell` and
class `'end'` at `endCell`, and no cell has class `'wall'`. -/
def createGrid : Grid := fun r c =>
  { start := decide (r = startCell.row ∧ c = startCell.col)
    end_ := decide (r = endCell.row ∧ c = endCell.col)
    wall := false }

/-- The function `toggleWall(r, c)`: returns at once on a cell with class `'start'` or `'end'`,
else toggles the class `'wall'` of the cell. `none` stands for the `TypeError` of reading
`grid[r][c].classList` outside the array. -/
def toggleWall (grid : Grid) (r c : Int) : Option Grid :=
  if 0 ≤ r ∧ r < ROWS ∧ 0 ≤ c ∧ c < COLS then
    let cell := grid r c
    if cell.start = true ∨ cell.end_ = true then some grid
    else some (fun r' c' => if r' = r ∧ c' = c then { cell with wall := !cell.wall } else grid r' c')
  else none

/-- The wall configuration that the searches read from a grid. -/
def wallsOf (grid : Grid) : Walls := fun r c => (grid r c).wall

/-- What the page does to the grid: a click on the cell `(r, c)` calls `toggleWall(r, c)`, the
reset button calls `createGrid()`. -/
inductive UiEvent where
  | click (r c : Int)
  | reset
deriving DecidableEq, Repr

/-- A click listener exists only on the cells made by `createGrid`, which are in bounds. -/
def UiEvent.Valid : UiEvent → Prop
  | .click r c => 0 ≤ r ∧ r < 20 ∧ 0 ≤ c ∧ c < 20
  | .reset => True

/-- The grid after a sequence of events. -/
def applyEvents : Grid → List UiEvent → Option Grid
  | grid, [] => some grid
  | grid, .click r c :: es =>
    match toggleWall grid r c with
    | none => none
    | some grid' => applyEvents grid' es
  | _, .reset :: es => applyEvents createGrid es

/-- In every grid the page builds, the classes `'start'` and `'end'` sit exactly on `(0, 0)` and
`(19, 19)`, and a cell with one of them is not a wall. -/
def GridInv (grid : Grid) : Prop :=
  ∀ r c : Int, (grid r c).start = decide (r = 0 ∧ c = 0) ∧
    (grid r c).end_ = decide (r = 19 ∧ c = 19) ∧
    ((grid r c).start = true ∨ (grid r c).end_ = true → (grid r c).wall = false)

/-- The list obtained by applying `offsets` to `node` in order and keeping the results that are
in bounds and not walls. -/
def applyOffsets (offsets : List (Int × Int)) (w : Walls) (node : Coord) : List Coord :=
  (offsets.map (fun d => ({ row := node.row + d.1, col := node.col + d.2 } : Coord))).filter
    (fun c => decide (IsOpen w c))

/-- The order of the offsets as the specification lists them. -/
def specOffsets : List (Int × Int) := [(-1, 0), (1, 0), (0, -1), (0, 1)]

/-- The state of `dijkstra` at the head of the `n`-th further iteration of its `while` loop;
`none` when the loop has been left before. -/
def dIterate (w : Walls) (end_ : Coord) : Nat → DState → Option DState
  | 0, st => some st
  | n + 1, st =>
    match sortPq st.pq with
    | [] => none
    | current :: rest =>
      let r := dStep w end_ st current rest
      if r.2 = true then none else dIterate w end_ n r.1

/-- The state of `astar` at the head of the `n`-th further iteration of its `while` loop;
`none` when the loop has been left before. -/
def aIterate (w : Walls) (end_ : Coord) : Nat → AState → Option AState
  | 0, st => some st
  | n + 1, st =>
    match sortOpen st.openSet with
    | [] => none
    | current :: rest =>
      let r := aStep w end_ st current rest
      if r.2 = true then none else aIterate w end_ n r.1

/-- The wall configuration `w` with the cell `s` opened. -/
def openAt (w : Walls) (s : Coord) : Walls :=
  fun r c => if r = s.row ∧ c = s.col then false else w r c

/-- A grid whose start cell `(0, 0)` is a wall, next to the wall `(0, 1)`. -/
def wallsStart : Walls := fun r c => decide (r = 0 ∧ (c = 0 ∨ c = 1))

/-- Every coordinate held by a state of `dijkstra` is in bounds: the entries of `pq` and
`visited`, the indices at which `dist` and `prev` have been written, and the values of
`prev`. -/
def DBounds (st : DState) : Prop :=
  (∀ e ∈ st.pq, InBounds e.coord) ∧ (∀ e ∈ st.visited, InBounds e.coord) ∧
    (∀ x, st.dist x ≠ none → InBounds x) ∧
    (∀ x p, st.prev x = some p → InBounds x ∧ InBounds p)

/-- Every coordinate held by a state of `astar` is in bounds: the entries of `openSet` and
`visited`, the indices at which `gScore`, `fScore` and `prev` have been written, and the
values of `prev`. -/
def ABounds (st : AState) : Prop :=
  (∀ e ∈ st.openSet, InBounds e.coord) ∧ (∀ e ∈ st.visited, InBounds e.coord) ∧
    (∀ x, st.gScore x ≠ none → InBounds x) ∧ (∀ x, st.fScore x ≠ none → InBounds x) ∧
    (∀ x p, st.prev x = some p → InBounds x ∧ InBounds p)

/-! # Theorems -/

/-! ## Neighbours -/

theorem foldl_push_eq {α β : Type} (p : α → Prop) [DecidablePred p] (f : α → β) (l : List α) :
    ∀ init : List β,
      l.foldl (fun acc d => if p d then acc ++ [f d] else acc) init
        = init ++ (l.filter (fun d => decide (p d))).map f := by
  induction l with
  | nil => intro init; simp
  | cons a l ih =>
    intro init
    simp only [List.foldl_cons, ih, List.filter_cons]
    by_cases h : p a <;> simp [h]

theorem getNeighbors_eq_filter (w : Walls) (node : Coord) :
    getNeighbors w node = (candidates node).filter (fun c => decide (IsOpen w c)) := by
  unfold getNeighbors
  have h := foldl_push_eq
    (fun d : Int × Int => node.row + d.1 ≥ 0 ∧ node.row + d.1 < ROWS ∧ node.col + d.2 ≥ 0 ∧
      node.col + d.2 < COLS ∧ ¬ (w (node.row + d.1) (node.col + d.2) = true))
    (fun d => ({ row := node.row + d.1, col := node.col + d.2 } : Coord)) directions []
  simp only [List.nil_append] at h
  rw [h]
  have hc : candidates node
      = directions.map (fun d => ({ row := node.row + d.1, col := node.col + d.2 } : Coord)) := rfl
  rw [hc, List.filter_map]
  congr 1
  apply List.filter_congr
  intro d _
  simp [IsOpen, InBounds, Bool.and_assoc]

theorem mem_getNeighbors (w : Walls) (node c : Coord) :
    c ∈ getNeighbors w node ↔ IsOpen w c ∧ Adjacent c node := by
  rw [getNeighbors_eq_filter]
  simp only [List.mem_filter, decide_eq_true_eq, candidates, List.mem_cons, List.mem_singleton,
    List.not_mem_nil, or_false]
  constructor
  · rintro ⟨h | h | h | h, ho⟩ <;> subst h <;> refine ⟨ho, ?_⟩ <;> simp [Adjacent]
  · rintro ⟨ho, ha⟩
    refine ⟨?_, ho⟩
    obtain ⟨r, c⟩ := c
    obtain ⟨nr, nc⟩ := node
    simp only [Adjacent] at ha
    simp only [Coord.mk.injEq]
    omega

theorem getNeighbors_nodup (w : Walls) (node : Coord) : (getNeighbors w node).Nodup := by
  rw [getNeighbors_eq_filter]
  apply List.Nodup.filter
  simp [candidates]

/-! ## The invariant shared by both searches -/

theorem ltInf_some_iff (a : Nat) (o : Option Nat) :
    ltInf (some a) o = true ↔ ∀ m, o = some m → a < m := by
  cases o with
  | none => simp [ltInf]
  | some b => simp [ltInf]

theorem setAt_same {α : Type} (arr : Coord → α) (c : Coord) (v : α) : setAt arr c v c = v := by
  simp [setAt]

theorem setAt_other {α : Type} (arr : Coord → α) (c x : Coord) (v : α) (h : x ≠ c) :
    setAt arr c v x = arr x := by
  simp [setAt, h]

theorem SearchInv.init (w : Walls) (start : Coord) (hs : IsOpen w start) :
    SearchInv w start (setAt (fun _ => none) start (some 0)) (fun _ => none) [start] none := by
  refine ⟨setAt_same _ _ _, ?_, ?_, ?_, ?_, ?_⟩
  · intro x hx
    by_cases h : x = start
    · subst h; exact hs
    · simp [setAt, h] at hx
  · intro x hx
    simp only [List.mem_singleton] at hx
    subst hx
    simp [setAt]
  · intro x p h; simp at h
  · intro x _ hx
    by_contra h
    simp [setAt, h] at hx
  · intro x c hx hnf
    exfalso
    by_cases h : x = start
    · exact hnf (by simp [h])
    · simp [setAt, h] at hx

theorem SearchInv.pop {w : Walls} {start : Coord} {g : Coord → Option Nat}
    {prev : Coord → Option Coord} {fr fr' : List Coord} (cur : Coord)
    (h : SearchInv w start g prev fr none)
    (h1 : ∀ x ∈ fr, x = cur ∨ x ∈ fr') (h2 : ∀ x ∈ fr', x ∈ fr) :
    SearchInv w start g prev fr' (some cur) := by
  refine ⟨h.g_start, h.isopen, fun x hx => h.frontier_disc x (h2 x hx), h.prev_sound,
    h.prev_none, ?_⟩
  intro x c hx hnf hp
  apply h.closure x c hx _ (by simp)
  intro hmem
  rcases h1 x hmem with e | e
  · exact hp (by rw [e])
  · exact hnf e

theorem SearchInv.finish {w : Walls} {start : Coord} {g : Coord → Option Nat}
    {prev : Coord → Option Coord} {fr : List Coord} {cur : Coord} {c : Nat}
    (h : SearchInv w start g prev fr (some cur)) (hc : g cur = some c)
    (hn : ∀ y ∈ getNeighbors w cur, ∃ m, g y = some m ∧ m ≤ c + 1) :
    SearchInv w start g prev fr none := by
  refine ⟨h.g_start, h.isopen, h.frontier_disc, h.prev_sound, h.prev_none, ?_⟩
  intro x c' hx hnf _
  by_cases e : x = cur
  · subst e
    rw [hc] at hx
    cases hx
    exact hn
  · exact h.closure x c' hx hnf (by simpa using fun h' => e h'.symm)

theorem SearchInv.relax {w : Walls} {start : Coord} {g : Coord → Option Nat}
    {prev : Coord → Option Coord} {fr fr' : List Coord} {cur y : Coord} {c : Nat}
    (h : SearchInv w start g prev fr (some cur)) (hc : g cur = some c)
    (hy : y ∈ getNeighbors w cur) (hlt : ltInf (some (c + 1)) (g y) = true)
    (hfr : ∀ x, x ∈ fr' ↔ x ∈ fr ∨ x = y) :
    SearchInv w start (setAt g y (some (c + 1))) (setAt prev y (some cur)) fr' (some cur) := by
  rw [ltInf_some_iff] at hlt
  have hycur : y ≠ cur := by
    intro e; subst e
    have := hlt c hc; omega
  have hystart : y ≠ start := by
    intro e; subst e
    have := hlt 0 h.g_start; omega
  refine ⟨?_, ?_, ?_, ?_, ?_, ?_⟩
  · rw [setAt_other _ _ _ _ (Ne.symm hystart)]; exact h.g_start
  · intro x hx
    by_cases e : x = y
    · subst e; exact ((mem_getNeighbors w cur x).1 hy).1
    · rw [setAt_other _ _ _ _ e] at hx; exact h.isopen x hx
  · intro x hx
    by_cases e : x = y
    · subst e; simp [setAt]
    · rw [setAt_other _ _ _ _ e]
      rcases (hfr x).1 hx with h' | h'
      · exact h.frontier_disc x h'
      · exact absurd h' e
  · intro x p hp
    by_cases e : x = y
    · subst e
      rw [setAt_same] at hp
      cases hp
      exact ⟨c, c + 1, by rw [setAt_other _ _ _ _ (Ne.symm hycur)]; exact hc,
        setAt_same _ _ _, le_refl _, hy⟩
    · rw [setAt_other _ _ _ _ e] at hp
      obtain ⟨a, b, ha, hb, hab, hm⟩ := h.prev_sound x p hp
      by_cases e' : p = y
      · subst e'
        exact ⟨c + 1, b, setAt_same _ _ _, by rw [setAt_other _ _ _ _ e]; exact hb,
          by have := hlt a ha; omega, hm⟩
      · exact ⟨a, b, by rw [setAt_other _ _ _ _ e']; exact ha,
          by rw [setAt_other _ _ _ _ e]; exact hb, hab, hm⟩
  · intro x hp hx
    by_cases e : x = y
    · subst e; simp [setAt] at hp
    · rw [setAt_other _ _ _ _ e] at hp hx
      exact h.prev_none x hp hx
  · intro x c' hx hnf hp z hz
    have e : x ≠ y := fun e => hnf ((hfr x).2 (Or.inr e))
    rw [setAt_other _ _ _ _ e] at hx
    obtain ⟨m, hm, hle⟩ := h.closure x c' hx (fun h' => hnf ((hfr x).2 (Or.inl h'))) hp z hz
    by_cases e' : z = y
    · subst e'
      exact ⟨c + 1, setAt_same _ _ _, by have := hlt m hm; omega⟩
    · exact ⟨m, by rw [setAt_other _ _ _ _ e']; exact hm, hle⟩

/-! ## Routes, the predecessor walk and the frontier argument -/

theorem Adjacent.symm {a b : Coord} (h : Adjacent a b) : Adjacent b a := by
  unfold Adjacent at *
  omega

theorem IsRoute.single {w : Walls} {s : Coord} (hs : IsOpen w s) : IsRoute w s s [s] := by
  refine ⟨rfl, rfl, List.chain'_singleton _, ?_⟩
  intro c hc
  simp only [List.mem_singleton] at hc
  subst hc; exact hs

theorem IsRoute.snoc {w : Walls} {s p x : Coord} {r : List Coord} (h : IsRoute w s p r)
    (ha : Adjacent p x) (hx : IsOpen w x) : IsRoute w s x (r ++ [x]) := by
  obtain ⟨hh, hl, hc, ho⟩ := h
  refine ⟨?_, by simp, ?_, ?_⟩
  · cases r with
    | nil => simp at hh
    | cons a r => simpa using hh
  · apply List.Chain'.append hc (List.chain'_singleton _)
    intro a ha' b hb
    simp only [List.head?_cons, Option.mem_def, Option.some.injEq] at hb
    rw [hl] at ha'
    simp only [Option.mem_def, Option.some.injEq] at ha'
    subst ha' hb
    exact ha
  · intro c hc
    rcases List.mem_append.1 hc with h' | h'
    · exact ho c h'
    · simp only [List.mem_singleton] at h'
      subst h'; exact hx

/-- Every route from `s` to `e` has at least `heuristic s e + 1` entries. -/
theorem IsRoute.heuristic_lt_length {w : Walls} {e : Coord} :
    ∀ (p : List Coord) (s : Coord), IsRoute w s e p → heuristic s e + 1 ≤ p.length := by
  intro p
  induction p with
  | nil => intro s h; simp [IsRoute] at h
  | cons a p ih =>
    intro s h
    obtain ⟨hh, hl, hc, ho⟩ := h
    simp only [List.head?_cons, Option.some.injEq] at hh
    subst hh
    cases p with
    | nil =>
      simp only [List.getLast?_singleton, Option.some.injEq] at hl
      subst hl
      simp [heuristic]
    | cons b q =>
      have hr : IsRoute w b e (b :: q) := by
        refine ⟨rfl, ?_, (List.chain'_cons.1 hc).2, fun c hc' => ho c (List.mem_cons_of_mem _ hc')⟩
        simpa [List.getLast?_cons_cons] using hl
      have := ih b hr
      have hab : Adjacent a b := (List.chain'_cons.1 hc).1
      simp only [List.length_cons] at this ⊢
      unfold Adjacent at hab
      unfold heuristic at *
      omega

theorem walkBack_mono (prev : Coord → Option Coord) :
    ∀ (n : Nat) (x : Coord) (l : List Coord), walkBack prev n x = some l →
      ∀ m, n ≤ m → walkBack prev m x = some l := by
  intro n
  induction n with
  | zero => intro x l h; simp [walkBack] at h
  | succ n ih =>
    intro x l h m hm
    obtain ⟨m', rfl⟩ : ∃ m', m = m' + 1 := ⟨m - 1, by omega⟩
    simp only [walkBack] at h ⊢
    cases hp : prev x with
    | none => simpa [hp] using h
    | some p =>
      simp only [hp, Option.map_eq_some'] at h ⊢
      obtain ⟨l', hl', rfl⟩ := h
      exact ⟨l', ih p l' hl' m' (by omega), rfl⟩

/-- The predecessor walk from a discovered node ends, makes at most `g x` steps, and the
path built from it is a route from `start`. -/
theorem SearchInv.walkBack_spec {w : Walls} {start : Coord} {g : Coord → Option Nat}
    {prev : Coord → Option Coord} {fr : List Coord} {pending : Option Coord}
    (h : SearchInv w start g prev fr pending) :
    ∀ (n : Nat) (x : Coord) (b : Nat), g x = some b → b ≤ n →
      ∃ l, walkBack prev (n + 1) x = some l ∧ l.length ≤ b ∧
        IsRoute w start x ((l ++ [start]).reverse) := by
  intro n
  induction n with
  | zero =>
    intro x b hx hb
    have hb0 : b = 0 := by omega
    subst hb0
    have hpn : prev x = none := by
      cases hp : prev x with
      | none => rfl
      | some p =>
        obtain ⟨a, b', _, hb', hab, _⟩ := h.prev_sound x p hp
        rw [hx] at hb'; cases hb'; omega
    have hxs : x = start := h.prev_none x hpn (by simp [hx])
    subst hxs
    refine ⟨[], by simp [walkBack, hpn], by simp, ?_⟩
    simpa using IsRoute.single (h.isopen x (by simp [hx]))
  | succ n ih =>
    intro x b hx hb
    cases hp : prev x with
    | none =>
      have hxs : x = start := h.prev_none x hp (by simp [hx])
      subst hxs
      refine ⟨[], by simp [walkBack, hp], by simp, ?_⟩
      simpa using IsRoute.single (h.isopen x (by simp [hx]))
    | some p =>
      obtain ⟨a, b', ha, hb', hab, hm⟩ := h.prev_sound x p hp
      rw [hx] at hb'; cases hb'
      obtain ⟨l, hl, hlen, hr⟩ := ih p a ha (by omega)
      refine ⟨x :: l, ?_, by simp; omega, ?_⟩
      · rw [walkBack]
        simp [hp, hl]
      · have hxo := (mem_getNeighbors w p x).1 hm
        have := hr.snoc hxo.2.symm hxo.1
        simpa using this

/-- The frontier argument: along a route from a discovered node `x`, either the target is
discovered with a score bounded by the route, or the route meets the frontier (or the pending
node) at a node whose score is bounded by the route. -/
theorem SearchInv.lower_bound {w : Walls} {start e : Coord} {g : Coord → Option Nat}
    {prev : Coord → Option Coord} {fr : List Coord} {pending : Option Coord}
    (h : SearchInv w start g prev fr pending) :
    ∀ (p : List Coord) (x : Coord) (k gx : Nat), IsRoute w x e p → g x = some gx → gx ≤ k →
      (∃ ge, g e = some ge ∧ ge + 1 ≤ k + p.length) ∨
      (∃ z gz, z ∈ p ∧ (z ∈ fr ∨ pending = some z) ∧ g z = some gz ∧
        gz + 1 ≤ k + p.length) := by
  intro p
  induction p with
  | nil => intro x k gx hr; simp [IsRoute] at hr
  | cons a p ih =>
    intro x k gx hr hx hk
    obtain ⟨hh, hl, hc, ho⟩ := hr
    simp only [List.head?_cons, Option.some.injEq] at hh
    subst hh
    cases p with
    | nil =>
      simp only [List.getLast?_singleton, Option.some.injEq] at hl
      subst hl
      exact Or.inl ⟨gx, hx, by simp; omega⟩
    | cons b q =>
      by_cases hf : a ∈ fr ∨ pending = some a
      · exact Or.inr ⟨a, gx, by simp, hf, hx, by simp; omega⟩
      · have hr : IsRoute w b e (b :: q) := by
          refine ⟨rfl, ?_, (List.chain'_cons.1 hc).2,
            fun c hc' => ho c (List.mem_cons_of_mem _ hc')⟩
          simpa [List.getLast?_cons_cons] using hl
        have hab : Adjacent a b := (List.chain'_cons.1 hc).1
        have hb : b ∈ getNeighbors w a :=
          (mem_getNeighbors w a b).2 ⟨ho b (by simp), hab.symm⟩
        obtain ⟨m, hm, hle⟩ := h.closure a gx hx (fun h' => hf (Or.inl h'))
          (fun h' => hf (Or.inr h')) b hb
        rcases ih b (k + 1) m hr hm (by omega) with
          ⟨ge, hge, hle'⟩ | ⟨z, gz, hzp, hz, hgz, hle'⟩
        · exact Or.inl ⟨ge, hge, by simp only [List.length_cons] at hle' ⊢; omega⟩
        · exact Or.inr ⟨z, gz, List.mem_cons_of_mem _ hzp, hz, hgz,
            by simp only [List.length_cons] at hle' ⊢; omega⟩

/-- Invariant reasoning for a `for` loop embedded as `List.foldl`. -/
theorem foldl_invariant {σ α : Type} (f : σ → α → σ) (I : σ → Prop) (D : σ → α → Prop)
    (l : List α)
    (hstep : ∀ s a, a ∈ l → I s → I (f s a) ∧ D (f s a) a)
    (hmono : ∀ s a b, a ∈ l → I s → D s b → D (f s a) b) :
    ∀ s, I s → I (l.foldl f s) ∧ ∀ a ∈ l, D (l.foldl f s) a := by
  induction l with
  | nil => intro s hs; exact ⟨hs, by simp⟩
  | cons a l ih =>
    intro s hs
    have h1 := hstep s a (by simp) hs
    have ih' := ih (fun s b hb => hstep s b (List.mem_cons_of_mem _ hb))
      (fun s b c hb => hmono s b c (List.mem_cons_of_mem _ hb)) (f s a) h1.1
    refine ⟨ih'.1, ?_⟩
    intro b hb
    rcases List.mem_cons.1 hb with e | e
    · subst e
      have key : ∀ (l' : List α) (s' : σ), (∀ c ∈ l', c ∈ b :: l) → I s' → D s' b →
          D (l'.foldl f s') b := by
        intro l'
        induction l' with
        | nil => intro s' _ _ hd; exact hd
        | cons c l' ih2 =>
          intro s' hsub hi hd
          exact ih2 (f s' c) (fun x hx => hsub x (List.mem_cons_of_mem _ hx))
            (hstep s' c (hsub c (by simp)) hi).1 (hmono s' c b (hsub c (by simp)) hi hd)
      exact key l (f s b) (fun c hc => List.mem_cons_of_mem _ hc) h1.1 h1.2
    · exact ih'.2 b e

/-! ## The invariant of `dijkstra` -/

theorem dInit_inv (w : Walls) (start : Coord) (hs : IsOpen w start) :
    DInv w start 0 none (dInit start) := by
  refine ⟨SearchInv.init w start hs, ?_⟩
  refine ⟨by simp [dInit], by simp [dInit], by simp [dInit], ?_, ?_, by simp [dInit],
    by simp [dInit], by simp [dInit], by simp [dInit], ?_⟩
  · intro x n hx
    by_cases h : x = start
    · simp [dInit, setAt, h] at hx; omega
    · simp [dInit, setAt, h] at hx
  · intro e he
    simp only [dInit, List.mem_singleton] at he
    subst he
    simp [dInit, setAt, PqEntry.coord]
  · intro x hx
    by_cases h : x = start
    · simp [dInit, PqEntry.coord, h]
    · simp [dInit, setAt, h] at hx

theorem DOrder.mem_disc {d : Nat} {st : DState} (h : DOrder d st) (x : Coord)
    (hx : x ∈ (st.visited ++ st.pq).map PqEntry.coord) : st.dist x ≠ none := by
  simp only [List.map_append, List.mem_append, List.mem_map] at hx
  rcases hx with ⟨e, he, rfl⟩ | ⟨e, he, rfl⟩
  · simp [h.vis_dist e he]
  · simp [h.pq_dist e he]

theorem dRelax_none {cur y : Coord} {d : Nat} {st : DState} (hc : st.dist cur = some d)
    (hdy : st.dist y = none) :
    dRelax cur st y =
      { visited := st.visited
        prev := setAt st.prev y (some cur)
        dist := setAt st.dist y (some (d + 1))
        pq := st.pq ++ [{ row := y.row, col := y.col, cost := d + 1 }] } := by
  unfold dRelax
  simp [hc, hdy, ltInf]

theorem dRelax_some {cur y : Coord} {d m : Nat} {st : DState} (hc : st.dist cur = some d)
    (hdy : st.dist y = some m) (hm : m ≤ d + 1) : dRelax cur st y = st := by
  unfold dRelax
  have hlt : ltInf (some (d + 1)) (some m) = false := by simp [ltInf]; omega
  simp [hc, hdy, hlt]

theorem dRelax_inv {w : Walls} {start cur y : Coord} {d : Nat} {st : DState}
    (h : DInv w start d (some cur) st) (hc : st.dist cur = some d)
    (hy : y ∈ getNeighbors w cur) :
    DInv w start d (some cur) (dRelax cur st y) ∧ (dRelax cur st y).visited = st.visited ∧
      (∃ m, (dRelax cur st y).dist y = some m ∧ m ≤ d + 1) ∧
      (∀ z m, st.dist z = some m → (dRelax cur st y).dist z = some m) := by
  obtain ⟨hs, ho⟩ := h
  cases hdy : st.dist y with
  | some m =>
    have hm := ho.dist_hi y m hdy
    rw [dRelax_some hc hdy hm]
    exact ⟨⟨hs, ho⟩, rfl, ⟨m, hdy, hm⟩, fun z m h => h⟩
  | none =>
    rw [dRelax_none hc hdy]
    have hlt' : ltInf (some (d + 1)) (st.dist y) = true := by rw [hdy]; rfl
    have hne : ∀ z m, st.dist z = some m → z ≠ y := by
      intro z m hz e; subst e; rw [hdy] at hz; cases hz
    refine ⟨⟨?_, ?_⟩, rfl, ⟨d + 1, setAt_same _ _ _, le_refl _⟩, ?_⟩
    · apply SearchInv.relax hs hc hy hlt'
      intro x
      simp [PqEntry.coord]
    · refine ⟨?_, ?_, ?_, ?_, ?_, ?_, ho.vis_sorted, ho.vis_le, ?_, ?_⟩
      · show List.Pairwise _ _
        refine List.pairwise_append.2 ⟨ho.sorted, List.pairwise_singleton _ _, ?_⟩
        intro a ha b hb
        simp only [List.mem_singleton] at hb
        subst hb
        exact ho.cost_hi a ha
      · intro e he
        rcases List.mem_append.1 he with h' | h'
        · exact ho.cost_lo e h'
        · simp only [List.mem_singleton] at h'; subst h'; simp
      · intro e he
        rcases List.mem_append.1 he with h' | h'
        · exact ho.cost_hi e h'
        · simp only [List.mem_singleton] at h'; subst h'; simp
      · intro x n hx
        dsimp only at hx
        by_cases e : x = y
        · subst e; rw [setAt_same] at hx; cases hx; exact le_refl _
        · rw [setAt_other _ _ _ _ e] at hx; exact ho.dist_hi x n hx
      · intro e he
        dsimp only
        rcases List.mem_append.1 he with h' | h'
        · rw [setAt_other _ _ _ _ (hne _ _ (ho.pq_dist e h'))]; exact ho.pq_dist e h'
        · simp only [List.mem_singleton] at h'; subst h'
          exact setAt_same _ _ _
      · intro e he
        dsimp only
        rw [setAt_other _ _ _ _ (hne _ _ (ho.vis_dist e he))]; exact ho.vis_dist e he
      · have hny : y ∉ (st.visited ++ st.pq).map PqEntry.coord :=
          fun hm => ho.mem_disc y hm hdy
        have := ho.nodup
        dsimp only
        rw [← List.append_assoc, List.map_append, List.nodup_append]
        refine ⟨this, by simp, ?_⟩
        intro a ha hb
        simp only [List.map_cons, List.map_nil, List.mem_singleton] at hb
        subst hb
        exact hny ha
      · intro x hx
        dsimp only at hx ⊢
        by_cases e : x = y
        · subst e; simp [PqEntry.coord]
        · rw [setAt_other _ _ _ _ e] at hx
          have := ho.disc x hx
          simp only [List.map_append, List.mem_append] at this ⊢
          rcases this with h' | h'
          · exact Or.inl h'
          · exact Or.inr (Or.inl h')
    · intro z m hz
      dsimp only
      rw [setAt_other _ _ _ _ (hne z m hz)]; exact hz

theorem mem_allCoords {c : Coord} (h : InBounds c) : c ∈ allCoords := by
  obtain ⟨r, k⟩ := c
  simp only [InBounds, ROWS, COLS] at h
  simp only [allCoords, List.mem_map, List.mem_range, Coord.mk.injEq]
  refine ⟨(r * 20 + k).toNat, by omega, by omega, by omega⟩

theorem length_le_of_inBounds (l : List Coord) (hn : l.Nodup) (hb : ∀ c ∈ l, InBounds c) :
    l.length ≤ 400 := by
  have hsub : l ⊆ allCoords := fun c hc => mem_allCoords (hb c hc)
  have := (List.subperm_of_subset hn hsub).length_le
  simpa [allCoords] using this

theorem dFold_inv {w : Walls} {start cur : Coord} {d : Nat} {st : DState}
    (h : DInv w start d (some cur) st) (hc : st.dist cur = some d) :
    DInv w start d none ((getNeighbors w cur).foldl (dRelax cur) st) ∧
      ((getNeighbors w cur).foldl (dRelax cur) st).visited = st.visited := by
  have key := foldl_invariant (dRelax cur)
    (fun s => DInv w start d (some cur) s ∧ s.dist cur = some d ∧ s.visited = st.visited)
    (fun s y => ∃ m, s.dist y = some m ∧ m ≤ d + 1) (getNeighbors w cur)
    (by
      intro s y hy ⟨hi, hcs, hv⟩
      obtain ⟨h1, h2, h3, h4⟩ := dRelax_inv hi hcs hy
      exact ⟨⟨h1, h4 cur d hcs, h2.trans hv⟩, h3⟩)
    (by
      intro s y z hy ⟨hi, hcs, _⟩ ⟨m, hm, hle⟩
      obtain ⟨_, _, _, h4⟩ := dRelax_inv hi hcs hy
      exact ⟨m, h4 z m hm, hle⟩)
    st ⟨h, hc, rfl⟩
  obtain ⟨⟨hi, hcs, hv⟩, hd⟩ := key
  exact ⟨⟨hi.1.finish hcs hd, hi.2⟩, hv⟩

theorem pqEntry_coord_eq_iff (e : PqEntry) (c : Coord) :
    (e.row = c.row ∧ e.col = c.col) ↔ e.coord = c := by
  obtain ⟨r, k⟩ := c
  simp [PqEntry.coord]

theorem dPop_inv {w : Walls} {start : Coord} {d : Nat} {st : DState} {cur : PqEntry}
    {rest : List PqEntry} (h : DInv w start d none st) (hpq : st.pq = cur :: rest) :
    DInv w start cur.cost (some cur.coord)
        { st with visited := st.visited ++ [cur], pq := rest } ∧
      st.dist cur.coord = some cur.cost := by
  obtain ⟨hs, ho⟩ := h
  have hcur : cur ∈ st.pq := by rw [hpq]; simp
  have hrest : ∀ e ∈ rest, e ∈ st.pq := fun e he => by rw [hpq]; simp [he]
  have hsorted := ho.sorted
  rw [hpq] at hsorted
  have hsc := List.sorted_cons.1 hsorted
  have hdc := ho.cost_lo cur hcur
  refine ⟨⟨?_, ?_⟩, ho.pq_dist cur hcur⟩
  · apply SearchInv.pop cur.coord hs
    · intro x hx
      rw [hpq] at hx
      simp only [List.map_cons, List.mem_cons] at hx
      exact hx
    · intro x hx
      rw [hpq]
      simp only [List.map_cons, List.mem_cons]
      exact Or.inr hx
  · refine ⟨hsc.2, hsc.1, ?_, ?_, fun e he => ho.pq_dist e (hrest e he), ?_, ?_, ?_, ?_, ?_⟩
    · intro e he
      have := ho.cost_hi e (hrest e he); omega
    · intro x n hx
      have := ho.dist_hi x n hx; omega
    · intro e he
      rcases List.mem_append.1 he with h' | h'
      · exact ho.vis_dist e h'
      · simp only [List.mem_singleton] at h'; subst h'; exact ho.pq_dist e hcur
    · show List.Pairwise _ _
      refine List.pairwise_append.2 ⟨ho.vis_sorted, List.pairwise_singleton _ _, ?_⟩
      intro a ha b hb
      simp only [List.mem_singleton] at hb
      subst hb
      have := ho.vis_le a ha; omega
    · intro e he
      rcases List.mem_append.1 he with h' | h'
      · have := ho.vis_le e h'; omega
      · simp only [List.mem_singleton] at h'; subst h'; exact le_refl _
    · have := ho.nodup
      rw [hpq] at this
      simpa using this
    · intro x hx
      have := ho.disc x hx
      rw [hpq] at this
      simpa using this

theorem DInv.visited_length_le {w : Walls} {start : Coord} {d : Nat} {pending : Option Coord}
    {st : DState} (h : DInv w start d pending st) : st.visited.length ≤ 400 := by
  have hn : (st.visited.map PqEntry.coord).Nodup := by
    have := h.2.nodup
    rw [List.map_append] at this
    exact (List.nodup_append.1 this).1
  have := length_le_of_inBounds _ hn (by
    intro c hc
    obtain ⟨e, he, rfl⟩ := List.mem_map.1 hc
    exact (h.1.isopen e.coord (by simp [h.2.vis_dist e he])).1)
  simpa using this

theorem dLoop_spec {w : Walls} {start : Coord} (end_ : Coord) :
    ∀ (fuel : Nat) (st : DState) (d : Nat), DInv w start d none st →
      401 ≤ fuel + st.visited.length →
      ∃ st', dLoop w end_ fuel st = some st' ∧ DExit w start end_ st' := by
  intro fuel
  induction fuel with
  | zero =>
    intro st d h hf
    have := h.visited_length_le
    omega
  | succ fuel ih =>
    intro st d h hf
    have hsort : sortPq st.pq = st.pq := List.Sorted.insertionSort_eq h.2.sorted
    rw [dLoop, hsort]
    cases hpq : st.pq with
    | nil => exact ⟨st, rfl, d, none, h, Or.inr ⟨rfl, hpq⟩⟩
    | cons cur rest =>
      obtain ⟨hpop, hdc⟩ := dPop_inv h hpq
      simp only [dStep]
      by_cases he : cur.row = end_.row ∧ cur.col = end_.col
      · simp only [he, and_self, if_true]
        have hce := (pqEntry_coord_eq_iff cur end_).1 he
        rw [hce] at hpop hdc
        exact ⟨_, rfl, cur.cost, some end_, hpop, Or.inl ⟨rfl, hdc⟩⟩
      · simp only [he, if_false, Bool.false_eq_true]
        obtain ⟨hfold, hvis⟩ := dFold_inv hpop hdc
        apply ih _ cur.cost hfold
        rw [hvis]
        simp only [List.length_append, List.length_singleton]
        omega

theorem dLoop_mono (w : Walls) (end_ : Coord) :
    ∀ (n : Nat) (st st' : DState), dLoop w end_ n st = some st' →
      ∀ m, n ≤ m → dLoop w end_ m st = some st' := by
  intro n
  induction n with
  | zero => intro st st' h; simp [dLoop] at h
  | succ n ih =>
    intro st st' h m hm
    obtain ⟨m', rfl⟩ : ∃ m', m = m' + 1 := ⟨m - 1, by omega⟩
    rw [dLoop] at h ⊢
    cases hs : sortPq st.pq with
    | nil => simpa [hs] using h
    | cons cur rest =>
      simp only [hs] at h ⊢
      by_cases hb : (dStep w end_ st cur rest).2 = true
      · simpa [hb] using h
      · simp only [hb, if_false] at h ⊢
        exact ih _ _ h m' (by omega)

/-! ## The run of `dijkstra` -/

/-- The predecessor walk from any node ends; from a discovered node it yields a route. -/
theorem SearchInv.walkBack_total {w : Walls} {start : Coord} {g : Coord → Option Nat}
    {prev : Coord → Option Coord} {fr : List Coord} {pending : Option Coord}
    (h : SearchInv w start g prev fr pending) (x : Coord) :
    ∃ n l, walkBack prev n x = some l ∧ (prev x = none → l = []) ∧
      (g x = none → l = []) ∧
      ∀ b, g x = some b → l.length ≤ b ∧ IsRoute w start x ((l ++ [start]).reverse) := by
  cases hg : g x with
  | none =>
    have hp : prev x = none := by
      cases hp : prev x with
      | none => rfl
      | some p =>
        obtain ⟨a, b, _, hb, _⟩ := h.prev_sound x p hp
        rw [hg] at hb; cases hb
    exact ⟨1, [], by simp [walkBack, hp], fun _ => rfl, fun _ => rfl, by simp⟩
  | some b =>
    obtain ⟨l, hl, hlen, hr⟩ := h.walkBack_spec b x b hg (le_refl _)
    refine ⟨b + 1, l, hl, ?_, by simp, ?_⟩
    · intro hp
      rw [walkBack, hp] at hl
      simpa using hl.symm
    · intro b' hb'
      cases hb'
      exact ⟨hlen, hr⟩

/-- The run of `dijkstra`: both loops end, the loop is left in a state satisfying `DExit`, and
the result is the trace of that state and the path built from the predecessor walk. -/
theorem dijkstra_run (w : Walls) (start end_ : Coord) (hs : IsOpen w start) :
    ∃ st l, DExit w start end_ st ∧
      DijkstraReturns w start end_ { visited := st.visited, path := (l ++ [start]).reverse } ∧
      (st.prev end_ = none → l = []) ∧
      ∀ b, st.dist end_ = some b →
        l.length ≤ b ∧ IsRoute w start end_ ((l ++ [start]).reverse) := by
  obtain ⟨st, hloop, hexit⟩ :=
    dLoop_spec end_ 401 (dInit start) 0 (dInit_inv w start hs) (by simp)
  obtain ⟨d, pending, hinv, _⟩ := id hexit
  obtain ⟨n, l, hl, hnone, _, hsome⟩ := hinv.1.walkBack_total end_
  refine ⟨st, l, hexit, ⟨401 + n, ?_⟩, hnone, hsome⟩
  intro fuel hf
  have h1 := dLoop_mono w end_ 401 _ _ hloop fuel (by omega)
  have h2 := walkBack_mono st.prev n end_ l hl fuel (by omega)
  simp [dijkstra, h1, buildPath, h2]

/-- When the loop of `dijkstra` is left and a route exists, `dist[end]` is finite and bounds
every route from below. -/
theorem DExit.dist_end_le {w : Walls} {start end_ : Coord} {st : DState}
    (h : DExit w start end_ st) (hex : ∃ p, IsRoute w start end_ p) :
    ∃ ge, st.dist end_ = some ge ∧ ∀ p, IsRoute w start end_ p → ge + 1 ≤ p.length := by
  obtain ⟨d, pending, hinv, hcase⟩ := h
  rcases hcase with ⟨hp, hd⟩ | ⟨hp, hpq⟩
  · refine ⟨d, hd, ?_⟩
    intro p hr
    rcases hinv.1.lower_bound p start 0 0 hr hinv.1.g_start (le_refl _) with
      ⟨ge, hge, hle⟩ | ⟨z, gz, _, hz, hgz, hle⟩
    · rw [hd] at hge; cases hge; omega
    · rcases hz with hz | hz
      · obtain ⟨e, he, rfl⟩ := List.mem_map.1 hz
        have h1 := hinv.2.pq_dist e he
        have h2 := hinv.2.cost_lo e he
        rw [hgz] at h1; cases h1; omega
      · rw [hp] at hz; cases hz
        rw [hd] at hgz; cases hgz; omega
  · have key : ∀ p, IsRoute w start end_ p → ∃ ge, st.dist end_ = some ge ∧ ge + 1 ≤ p.length := by
      intro p hr
      rcases hinv.1.lower_bound p start 0 0 hr hinv.1.g_start (le_refl _) with
        ⟨ge, hge, hle⟩ | ⟨z, gz, _, hz, hgz, hle⟩
      · exact ⟨ge, hge, by omega⟩
      · rw [hpq, hp] at hz
        simp at hz
    obtain ⟨p0, hp0⟩ := hex
    obtain ⟨ge, hge, _⟩ := key p0 hp0
    refine ⟨ge, hge, ?_⟩
    intro p hr
    obtain ⟨ge', hge', hle⟩ := key p hr
    rw [hge] at hge'; cases hge'; exact hle

theorem DExit.visited_nodup {w : Walls} {start end_ : Coord} {st : DState}
    (h : DExit w start end_ st) : (st.visited.map PqEntry.coord).Nodup := by
  obtain ⟨d, pending, hinv, _⟩ := h
  have := hinv.2.nodup
  rw [List.map_append] at this
  exact (List.nodup_append.1 this).1

/-- With no route from `start` to `end`, `end` has no predecessor when the loop is left. -/
theorem SearchInv.prev_none_of_no_route {w : Walls} {start end_ : Coord}
    {g : Coord → Option Nat} {prev : Coord → Option Coord} {fr : List Coord}
    {pending : Option Coord} (h : SearchInv w start g prev fr pending)
    (hno : ¬ ∃ p, IsRoute w start end_ p) : prev end_ = none := by
  cases hp : prev end_ with
  | none => rfl
  | some p =>
    exfalso
    obtain ⟨a, b, _, hb, _⟩ := h.prev_sound end_ p hp
    obtain ⟨l, _, _, hr⟩ := h.walkBack_spec b end_ b hb (le_refl _)
    exact hno ⟨_, hr⟩

/-! ## The invariant and the termination of `astar` -/

theorem ALe.refl (s : AState) : ALe s s := Or.inr ⟨rfl, le_refl _⟩

theorem ALe.trans {a b c : AState} (h1 : ALe a b) (h2 : ALe b c) : ALe a c := by
  unfold ALe at *
  omega

theorem countP_lt_of_imp {α : Type} {p q : α → Bool} :
    ∀ (l : List α), (∀ x ∈ l, p x = true → q x = true) →
      ∀ y ∈ l, q y = true → p y = false → l.countP p < l.countP q := by
  intro l
  induction l with
  | nil => intro _ y hy; simp at hy
  | cons a l ih =>
    intro himp y hy hq hp
    have hle : l.countP p ≤ l.countP q :=
      List.countP_mono_left (fun x hx => himp x (List.mem_cons_of_mem _ hx))
    rcases List.mem_cons.1 hy with e | e
    · subst e
      rw [List.countP_cons, List.countP_cons]
      simp [hq, hp]
      omega
    · have := ih (fun x hx => himp x (List.mem_cons_of_mem _ hx)) y e hq hp
      rw [List.countP_cons, List.countP_cons]
      by_cases hpa : p a = true
      · simp only [hpa, himp a (by simp) hpa, if_true]; omega
      · by_cases hqa : q a = true
        · simp only [Bool.not_eq_true] at hpa
          simp only [hpa, hqa, if_true, Bool.false_eq_true, if_false]; omega
        · simp only [Bool.not_eq_true] at hpa hqa
          simp only [hpa, hqa, Bool.false_eq_true, if_false]; omega

theorem undiscovered_setAt_lt {g : Coord → Option Nat} {y : Coord} (v : Nat)
    (hy : InBounds y) (hg : g y = none) :
    undiscovered (setAt g y (some v)) < undiscovered g := by
  unfold undiscovered
  apply countP_lt_of_imp allCoords _ y (mem_allCoords hy)
  · simp [hg]
  · simp [setAt]
  · intro x _ hx
    by_cases e : x = y
    · subst e; simp [setAt] at hx
    · simpa [setAt, e] using hx

theorem undiscovered_setAt_eq {g : Coord → Option Nat} {y : Coord} (v m : Nat)
    (hg : g y = some m) : undiscovered (setAt g y (some v)) = undiscovered g := by
  unfold undiscovered
  congr 1
  funext x
  by_cases e : x = y
  · subst e; simp [setAt, hg]
  · simp [setAt, e]

theorem scoreSum_setAt_lt {g : Coord → Option Nat} {y : Coord} (v m : Nat)
    (hy : InBounds y) (hg : g y = some m) (hv : v < m) :
    scoreSum (setAt g y (some v)) < scoreSum g := by
  unfold scoreSum
  apply List.sum_lt_sum
  · intro x _
    by_cases e : x = y
    · subst e; simp [setAt, hg]; omega
    · simp [setAt, e]
  · exact ⟨y, mem_allCoords hy, by simp [setAt, hg, hv]⟩

theorem openEntry_coord_eq_iff (e : OpenEntry) (c : Coord) :
    (e.row = c.row ∧ e.col = c.col) ↔ e.coord = c := by
  obtain ⟨r, k⟩ := c
  simp [OpenEntry.coord]

theorem inOpen_iff (os : List OpenEntry) (y : Coord) :
    inOpen os y = true ↔ y ∈ os.map OpenEntry.coord := by
  simp only [inOpen, List.any_eq_true, decide_eq_true_eq, List.mem_map, openEntry_coord_eq_iff]

theorem aRelax_skip {end_ cur y : Coord} {c : Nat} {st : AState}
    (hc : st.gScore cur = some c) (hlt : ltInf (some (c + 1)) (st.gScore y) = false) :
    aRelax end_ cur st y = st := by
  unfold aRelax
  simp [hc, hlt]

theorem aRelax_update {end_ cur y : Coord} {c : Nat} {st : AState}
    (hc : st.gScore cur = some c) (hlt : ltInf (some (c + 1)) (st.gScore y) = true) :
    aRelax end_ cur st y =
      { visited := st.visited
        prev := setAt st.prev y (some cur)
        gScore := setAt st.gScore y (some (c + 1))
        fScore := setAt st.fScore y (some (c + 1 + heuristic y end_))
        openSet := if inOpen st.openSet y = true then st.openSet
          else st.openSet ++ [{ row := y.row, col := y.col, f := c + 1 + heuristic y end_ }] } := by
  unfold aRelax
  simp only [hc, hlt, if_true]
  by_cases h : inOpen st.openSet y = true <;> simp [h]

theorem aRelax_inv {w : Walls} {start : Coord} (end_ : Coord) {cur y : Coord} {c : Nat}
    {st : AState}
    (h : AInv w start (some cur) st) (hc : st.gScore cur = some c)
    (hy : y ∈ getNeighbors w cur) :
    AInv w start (some cur) (aRelax end_ cur st y) ∧
      (aRelax end_ cur st y).visited = st.visited ∧
      (∃ m, (aRelax end_ cur st y).gScore y = some m ∧ m ≤ c + 1) ∧
      (∀ z m, st.gScore z = some m → ∃ m', (aRelax end_ cur st y).gScore z = some m' ∧ m' ≤ m) ∧
      ALe (aRelax end_ cur st y) st := by
  cases hlt : ltInf (some (c + 1)) (st.gScore y) with
  | false =>
    rw [aRelax_skip hc hlt]
    refine ⟨h, rfl, ?_, fun z m hz => ⟨m, hz, le_refl _⟩, ALe.refl _⟩
    cases hg : st.gScore y with
    | none => rw [hg] at hlt; simp [ltInf] at hlt
    | some m =>
      rw [hg] at hlt
      simp only [ltInf, decide_eq_false_iff_not] at hlt
      exact ⟨m, rfl, by omega⟩
  | true =>
    rw [aRelax_update hc hlt]
    have hyo : IsOpen w y := ((mem_getNeighbors w cur y).1 hy).1
    refine ⟨?_, rfl, ⟨c + 1, setAt_same _ _ _, le_refl _⟩, ?_, ?_⟩
    · apply SearchInv.relax h hc hy hlt
      intro x
      dsimp only
      by_cases hin : inOpen st.openSet y = true
      · simp only [hin, if_true]
        have := (inOpen_iff _ _).1 hin
        constructor
        · exact fun hx => Or.inl hx
        · rintro (hx | hx)
          · exact hx
          · subst hx; exact this
      · simp only [hin, if_false]
        simp [OpenEntry.coord]
    · intro z m hz
      dsimp only
      by_cases e : z = y
      · subst e
        refine ⟨c + 1, setAt_same _ _ _, ?_⟩
        have := (ltInf_some_iff _ _).1 hlt m hz
        omega
      · exact ⟨m, by rw [setAt_other _ _ _ _ e]; exact hz, le_refl _⟩
    · cases hg : st.gScore y with
      | none => exact Or.inl (undiscovered_setAt_lt _ hyo.1 hg)
      | some m =>
        have hm := (ltInf_some_iff _ _).1 hlt m hg
        refine Or.inr ⟨undiscovered_setAt_eq _ m hg, ?_⟩
        have hsum := scoreSum_setAt_lt (c + 1) m hyo.1 hg hm
        unfold aWeight
        dsimp only
        by_cases hin : inOpen st.openSet y = true
        · rw [if_pos hin]; omega
        · rw [if_neg hin]
          simp only [List.length_append, List.length_singleton]; omega

theorem aFold_inv {w : Walls} {start : Coord} (end_ : Coord) {cur : Coord} {c : Nat}
    {st : AState}
    (h : AInv w start (some cur) st) (hc : st.gScore cur = some c) :
    AInv w start none ((getNeighbors w cur).foldl (aRelax end_ cur) st) ∧
      ((getNeighbors w cur).foldl (aRelax end_ cur) st).visited = st.visited ∧
      ALe ((getNeighbors w cur).foldl (aRelax end_ cur) st) st := by
  have hcur : ∀ s : AState, AInv w start (some cur) s → ∀ c', s.gScore cur = some c' →
      ∀ y ∈ getNeighbors w cur, (aRelax end_ cur s y).gScore cur = some c' := by
    intro s hi c' hc' y hy
    by_cases hlt : ltInf (some (c' + 1)) (s.gScore y) = true
    · rw [aRelax_update hc' hlt]
      dsimp only
      have : cur ≠ y := by
        intro e; subst e
        have := (ltInf_some_iff _ _).1 hlt c' hc'
        omega
      rw [setAt_other _ _ _ _ this]; exact hc'
    · rw [aRelax_skip hc' (by simpa using hlt)]; exact hc'
  have key := foldl_invariant (aRelax end_ cur)
    (fun s => AInv w start (some cur) s ∧ s.gScore cur = some c ∧ s.visited = st.visited ∧
      ALe s st)
    (fun s y => ∃ m, s.gScore y = some m ∧ m ≤ c + 1) (getNeighbors w cur)
    (by
      intro s y hy ⟨hi, hcs, hv, hle⟩
      obtain ⟨h1, h2, h3, _, h5⟩ := aRelax_inv end_ hi hcs hy
      exact ⟨⟨h1, hcur s hi c hcs y hy, h2.trans hv, h5.trans hle⟩, h3⟩)
    (by
      intro s y z hy ⟨hi, hcs, _⟩ ⟨m, hm, hle⟩
      obtain ⟨_, _, _, h4, _⟩ := aRelax_inv end_ hi hcs hy
      obtain ⟨m', hm', hle'⟩ := h4 z m hm
      exact ⟨m', hm', by omega⟩)
    st ⟨h, hc, rfl, ALe.refl _⟩
  obtain ⟨⟨hi, hcs, hv, hle⟩, hd⟩ := key
  exact ⟨SearchInv.finish hi hcs hd, hv, hle⟩

theorem aPop_inv {w : Walls} {start : Coord} {st : AState} {cur : OpenEntry}
    {rest : List OpenEntry} (h : AInv w start none st)
    (hsort : sortOpen st.openSet = cur :: rest) :
    AInv w start (some cur.coord) { st with visited := st.visited ++ [cur], openSet := rest } ∧
      (∃ c, st.gScore cur.coord = some c) ∧ rest.length + 1 = st.openSet.length := by
  have hperm : (cur :: rest).Perm st.openSet := by
    rw [← hsort]; exact List.perm_insertionSort _ _
  have hcur : cur ∈ st.openSet := hperm.subset (by simp)
  refine ⟨?_, ?_, by simpa using hperm.length_eq⟩
  · apply SearchInv.pop cur.coord h
    · intro x hx
      obtain ⟨e, he, rfl⟩ := List.mem_map.1 hx
      have := hperm.symm.subset he
      rcases List.mem_cons.1 this with h' | h'
      · exact Or.inl (by rw [h'])
      · exact Or.inr (List.mem_map.2 ⟨e, h', rfl⟩)
    · intro x hx
      obtain ⟨e, he, rfl⟩ := List.mem_map.1 hx
      exact List.mem_map.2 ⟨e, hperm.subset (List.mem_cons_of_mem _ he), rfl⟩
  · have := h.frontier_disc cur.coord (List.mem_map.2 ⟨cur, hcur, rfl⟩)
    cases hg : st.gScore cur.coord with
    | none => exact absurd hg this
    | some c => exact ⟨c, rfl⟩

/-- The loop of `astar` ends: each iteration decreases the pair (number of undiscovered
cells, twice the sum of the scores plus the size of the open set) lexicographically. -/
theorem aLoop_terminates {w : Walls} {start : Coord} (end_ : Coord) :
    ∀ (a b : Nat) (st : AState), undiscovered st.gScore ≤ a → aWeight st ≤ b →
      AInv w start none st →
      ∃ fuel st', aLoop w end_ fuel st = some st' ∧ AExit w start end_ st' := by
  intro a
  induction a using Nat.strong_induction_on with
  | _ a iha =>
    intro b
    induction b using Nat.strong_induction_on with
    | _ b ihb =>
      intro st ha hb h
      cases hsort : sortOpen st.openSet with
      | nil =>
        have hnil : st.openSet = [] := by
          have := List.perm_insertionSort (fun a b : OpenEntry => a.f ≤ b.f) st.openSet
          unfold sortOpen at hsort
          rw [hsort] at this
          exact List.Perm.nil_eq this |>.symm
        exact ⟨1, st, by simp [aLoop, hsort], none, h, Or.inr ⟨rfl, hnil⟩⟩
      | cons cur rest =>
        obtain ⟨hpop, ⟨c, hc⟩, hlen⟩ := aPop_inv h hsort
        by_cases he : cur.row = end_.row ∧ cur.col = end_.col
        · have hce := (openEntry_coord_eq_iff cur end_).1 he
          refine ⟨1, { st with visited := st.visited ++ [cur], openSet := rest },
            by simp [aLoop, hsort, aStep, he], some end_, ?_, Or.inl ⟨rfl, ?_⟩⟩
          · rw [← hce]; exact hpop
          · rw [← hce]; simp [hc]
        · obtain ⟨hfold, _, hle⟩ := aFold_inv end_ hpop hc
          have hstep : ∀ fuel, aLoop w end_ (fuel + 1) st
              = aLoop w end_ fuel ((getNeighbors w cur.coord).foldl (aRelax end_ cur.coord)
                  { st with visited := st.visited ++ [cur], openSet := rest }) := by
            intro fuel
            simp [aLoop, hsort, aStep, he]
          have hw : aWeight { st with visited := st.visited ++ [cur], openSet := rest } + 1
              = aWeight st := by
            unfold aWeight; dsimp only; omega
          rcases hle with hlt | ⟨heq, hwle⟩
          · dsimp only at hlt
            obtain ⟨fuel, st', hl, hx⟩ := iha _ (by omega) _ _ (le_refl _) (le_refl _) hfold
            exact ⟨fuel + 1, st', by rw [hstep]; exact hl, hx⟩
          · dsimp only at heq
            obtain ⟨fuel, st', hl, hx⟩ := ihb _ (by omega) _ (by omega) (le_refl _) hfold
            exact ⟨fuel + 1, st', by rw [hstep]; exact hl, hx⟩

theorem aLoop_mono (w : Walls) (end_ : Coord) :
    ∀ (n : Nat) (st st' : AState), aLoop w end_ n st = some st' →
      ∀ m, n ≤ m → aLoop w end_ m st = some st' := by
  intro n
  induction n with
  | zero => intro st st' h; simp [aLoop] at h
  | succ n ih =>
    intro st st' h m hm
    obtain ⟨m', rfl⟩ : ∃ m', m = m' + 1 := ⟨m - 1, by omega⟩
    rw [aLoop] at h ⊢
    cases hs : sortOpen st.openSet with
    | nil => simpa [hs] using h
    | cons cur rest =>
      simp only [hs] at h ⊢
      by_cases hb : (aStep w end_ st cur rest).2 = true
      · simpa [hb] using h
      · simp only [hb, if_false] at h ⊢
        exact ih _ _ h m' (by omega)

theorem aInit_inv (w : Walls) (start end_ : Coord) (hs : IsOpen w start) :
    AInv w start none (aInit start end_) := by
  have := SearchInv.init w start hs
  simpa [AInv, aInit, OpenEntry.coord] using this

/-- The run of `astar`: both loops end, the loop is left in a state satisfying `AExit`, and
the result is read off that state and the predecessor walk. -/
theorem astar_run (w : Walls) (start end_ : Coord) (hs : IsOpen w start) :
    ∃ st l, AExit w start end_ st ∧
      (∃ n, aLoop w end_ n (aInit start end_) = some st) ∧
      AstarReturns w start end_
        { visited := st.visited, path := (l ++ [start]).reverse, gEnd := st.gScore end_ } ∧
      (st.prev end_ = none → l = []) ∧
      ∀ b, st.gScore end_ = some b →
        l.length ≤ b ∧ IsRoute w start end_ ((l ++ [start]).reverse) := by
  obtain ⟨n1, st, hloop, hexit⟩ :=
    aLoop_terminates end_ _ _ (aInit start end_) (le_refl _) (le_refl _)
      (aInit_inv w start end_ hs)
  obtain ⟨pending, hinv, _⟩ := id hexit
  obtain ⟨n, l, hl, hnone, _, hsome⟩ := SearchInv.walkBack_total hinv end_
  refine ⟨st, l, hexit, ⟨n1, hloop⟩, ⟨n1 + n, ?_⟩, hnone, hsome⟩
  intro fuel hf
  have h1 := aLoop_mono w end_ n1 _ _ hloop fuel (by omega)
  have h2 := walkBack_mono st.prev n end_ l hl fuel (by omega)
  simp [astar, h1, buildPath, h2]

/-- When the loop of `astar` is left and a route exists, `gScore[end]` is finite. -/
theorem AExit.gScore_end {w : Walls} {start end_ : Coord} {st : AState}
    (h : AExit w start end_ st) (hex : ∃ p, IsRoute w start end_ p) :
    ∃ ge, st.gScore end_ = some ge := by
  obtain ⟨pending, hinv, hcase⟩ := h
  rcases hcase with ⟨_, hd⟩ | ⟨hp, hos⟩
  · cases hg : st.gScore end_ with
    | none => exact absurd hg hd
    | some ge => exact ⟨ge, rfl⟩
  · obtain ⟨p, hr⟩ := hex
    rcases SearchInv.lower_bound hinv p start 0 0 hr hinv.g_start (le_refl _) with
      ⟨ge, hge, _⟩ | ⟨z, gz, _, hz, _, _⟩
    · exact ⟨ge, hge⟩
    · rw [hos, hp] at hz
      simp at hz

/-! ## Results do not depend on the fuel -/

theorem dijkstra_mono (w : Walls) (start end_ : Coord) (n : Nat) (res : DResult)
    (h : dijkstra w n start end_ = some res) : DijkstraReturns w start end_ res := by
  refine ⟨n, ?_⟩
  intro m hm
  unfold dijkstra at h ⊢
  cases hl : dLoop w end_ n (dInit start) with
  | none => simp [hl] at h
  | some st =>
    rw [hl] at h
    rw [dLoop_mono w end_ n _ _ hl m hm]
    simp only [buildPath] at h ⊢
    cases hw : walkBack st.prev n end_ with
    | none => simp [hw] at h
    | some l =>
      rw [hw] at h
      rw [walkBack_mono st.prev n end_ l hw m hm]
      exact h

theorem astar_mono (w : Walls) (start end_ : Coord) (n : Nat) (res : AResult)
    (h : astar w n start end_ = some res) : AstarReturns w start end_ res := by
  refine ⟨n, ?_⟩
  intro m hm
  unfold astar at h ⊢
  cases hl : aLoop w end_ n (aInit start end_) with
  | none => simp [hl] at h
  | some st =>
    rw [hl] at h
    rw [aLoop_mono w end_ n _ _ hl m hm]
    simp only [buildPath] at h ⊢
    cases hw : walkBack st.prev n end_ with
    | none => simp [hw] at h
    | some l =>
      rw [hw] at h
      rw [walkBack_mono st.prev n end_ l hw m hm]
      exact h

/-- The results of `dijkstra` for two amounts of fuel agree. -/
theorem dijkstraReturns_unique {w : Walls} {start end_ : Coord} {r1 r2 : DResult}
    (h1 : DijkstraReturns w start end_ r1) (h2 : DijkstraReturns w start end_ r2) : r1 = r2 := by
  obtain ⟨n1, h1⟩ := h1
  obtain ⟨n2, h2⟩ := h2
  have a := h1 (n1 + n2) (by omega)
  have b := h2 (n1 + n2) (by omega)
  rw [a] at b
  exact Option.some.inj b

/-- The results of `astar` for two amounts of fuel agree. -/
theorem astarReturns_unique {w : Walls} {start end_ : Coord} {r1 r2 : AResult}
    (h1 : AstarReturns w start end_ r1) (h2 : AstarReturns w start end_ r2) : r1 = r2 := by
  obtain ⟨n1, h1⟩ := h1
  obtain ⟨n2, h2⟩ := h2
  have a := h1 (n1 + n2) (by omega)
  have b := h2 (n1 + n2) (by omega)
  rw [a] at b
  exact Option.some.inj b

theorem adjacentChain_iff : ∀ l : List Coord, adjacentChain l = true ↔ l.Chain' Adjacent
  | [] => by simp [adjacentChain]
  | [_] => by simp [adjacentChain]
  | a :: b :: l => by
    simp only [adjacentChain, Bool.and_eq_true, decide_eq_true_eq, List.chain'_cons]
    rw [adjacentChain_iff (b :: l)]

/-! ## The grid without walls -/

theorem isOpen_noWalls {c : Coord} (h : InBounds c) : IsOpen noWalls c := ⟨h, rfl⟩

theorem IsRoute.cons {w : Walls} {s s' e : Coord} {p : List Coord} (h : IsRoute w s' e p)
    (ha : Adjacent s s') (hs : IsOpen w s) : IsRoute w s e (s :: p) := by
  obtain ⟨hh, hl, hc, ho⟩ := h
  cases p with
  | nil => simp at hh
  | cons b q =>
    simp only [List.head?_cons, Option.some.injEq] at hh
    subst hh
    refine ⟨rfl, by simpa [List.getLast?_cons_cons] using hl, List.chain'_cons.2 ⟨ha, hc⟩, ?_⟩
    intro c hc'
    rcases List.mem_cons.1 hc' with e' | e'
    · subst e'; exact hs
    · exact ho c e'

theorem exists_closer {s e : Coord} (hs : InBounds s) (he : InBounds e) (hne : s ≠ e) :
    ∃ s', Adjacent s s' ∧ InBounds s' ∧ heuristic s' e + 1 = heuristic s e := by
  obtain ⟨sr, sc⟩ := s
  obtain ⟨er, ec⟩ := e
  simp only [InBounds, ROWS, COLS] at hs he
  simp only [ne_eq, Coord.mk.injEq] at hne
  by_cases h1 : sr < er
  · exact ⟨⟨sr + 1, sc⟩, by simp only [Adjacent]; omega, by simp only [InBounds, ROWS, COLS]; omega,
      by simp only [heuristic]; omega⟩
  by_cases h2 : er < sr
  · exact ⟨⟨sr - 1, sc⟩, by simp only [Adjacent]; omega, by simp only [InBounds, ROWS, COLS]; omega,
      by simp only [heuristic]; omega⟩
  by_cases h3 : sc < ec
  · exact ⟨⟨sr, sc + 1⟩, by simp only [Adjacent]; omega, by simp only [InBounds, ROWS, COLS]; omega,
      by simp only [heuristic]; omega⟩
  · exact ⟨⟨sr, sc - 1⟩, by simp only [Adjacent]; omega, by simp only [InBounds, ROWS, COLS]; omega,
      by simp only [heuristic]; omega⟩

theorem heuristic_triangle (a b c : Coord) : heuristic a c ≤ heuristic a b + heuristic b c := by
  simp only [heuristic]; omega

theorem heuristic_adjacent {a b : Coord} (h : Adjacent a b) (c : Coord) :
    heuristic c a = heuristic c b + 1 ∨ heuristic c a + 1 = heuristic c b := by
  simp only [heuristic, Adjacent] at *; omega

/-- In the grid without walls there is a route of `heuristic s e` steps from `s` to `e`, all of
whose cells lie on a shortest way. -/
theorem exists_monotone_route :
    ∀ (n : Nat) (s e : Coord), heuristic s e = n → InBounds s → InBounds e →
      ∃ p, IsRoute noWalls s e p ∧ p.length = n + 1 ∧ ∀ z ∈ p, Rect s e z := by
  intro n
  induction n with
  | zero =>
    intro s e h hs _
    have hse : s = e := by
      obtain ⟨sr, sc⟩ := s
      obtain ⟨er, ec⟩ := e
      simp only [heuristic] at h
      simp only [Coord.mk.injEq]
      omega
    subst hse
    refine ⟨[s], IsRoute.single (isOpen_noWalls hs), rfl, ?_⟩
    intro z hz
    simp only [List.mem_singleton] at hz
    subst hz
    simp [Rect, heuristic]
  | succ n ih =>
    intro s e h hs he
    have hne : s ≠ e := by
      intro hse; subst hse; simp [heuristic] at h
    obtain ⟨s', ha, hs', hh⟩ := exists_closer hs he hne
    obtain ⟨p, hp, hlen, hrect⟩ := ih s' e (by omega) hs' he
    refine ⟨s :: p, hp.cons ha (isOpen_noWalls hs), by simp [hlen], ?_⟩
    intro z hz
    rcases List.mem_cons.1 hz with e' | e'
    · subst e'; simp [Rect, heuristic]
    · have h1 := hrect z e'
      have h2 := heuristic_triangle s z e
      have h3 := heuristic_triangle s s' z
      have h4 : heuristic s s' = 1 := ha
      unfold Rect at h1 ⊢
      omega

/-- Stability of the sort: the entries with a given key keep their order. -/
theorem filter_sortOpen (k : Nat) (l : List OpenEntry) :
    (sortOpen l).filter (fun e => decide (e.f = k)) = l.filter (fun e => decide (e.f = k)) := by
  have hins : ∀ (a : OpenEntry) (L : List OpenEntry),
      (L.orderedInsert (fun a b => a.f ≤ b.f) a).filter (fun e => decide (e.f = k))
        = (a :: L).filter (fun e => decide (e.f = k)) := by
    intro a L
    induction L with
    | nil => simp
    | cons b L ih =>
      by_cases hab : a.f ≤ b.f
      · simp [List.orderedInsert, hab]
      · rw [List.orderedInsert, if_neg hab, List.filter_cons, ih]
        by_cases ha : a.f = k
        · have hb : ¬ b.f = k := by omega
          simp [List.filter_cons, ha, hb]
        · by_cases hb : b.f = k <;> simp [List.filter_cons, ha, hb]
  unfold sortOpen
  induction l with
  | nil => simp
  | cons a l ih =>
    rw [List.insertionSort, hins, List.filter_cons, List.filter_cons, ih]

theorem adjacent_cases {a b : Coord} (h : Adjacent a b) :
    (a.row = b.row + 1 ∧ a.col = b.col) ∨ (a.row = b.row - 1 ∧ a.col = b.col) ∨
      (a.row = b.row ∧ a.col = b.col + 1) ∨ (a.row = b.row ∧ a.col = b.col - 1) := by
  simp only [Adjacent] at h; omega

theorem rect_iff (s e z : Coord) :
    Rect s e z ↔
      ((s.row ≤ z.row ∧ z.row ≤ e.row) ∨ (e.row ≤ z.row ∧ z.row ≤ s.row)) ∧
      ((s.col ≤ z.col ∧ z.col ≤ e.col) ∨ (e.col ≤ z.col ∧ z.col ≤ s.col)) := by
  simp only [Rect, heuristic]; omega

/-- The fourth corner of a unit square: two distinct cells `x` and `y'` one step before `y`
have a common neighbour two steps before `y`. -/
theorem exists_fourth_corner {s e x y y' : Coord} (hx : Rect s e x)
    (hy' : Rect s e y') (hxin : InBounds x) (hy'in : InBounds y')
    (hxy : Adjacent y x) (hyy' : Adjacent y' y) (hne : y' ≠ x)
    (hax : heuristic s x + 1 = heuristic s y) (hay' : heuristic s y' + 1 = heuristic s y) :
    ∃ z, InBounds z ∧ Adjacent z x ∧ Adjacent y' z ∧ Rect s e z ∧
      heuristic s z + 1 = heuristic s x := by
  have c1 := adjacent_cases hxy
  have c2 := adjacent_cases hyy'
  refine ⟨⟨x.row + y'.row - y.row, x.col + y'.col - y.col⟩, ?_⟩
  rw [rect_iff] at hx hy' ⊢
  clear hxy hyy'
  obtain ⟨sr, sc⟩ := s
  obtain ⟨er, ec⟩ := e
  obtain ⟨xr, xc⟩ := x
  obtain ⟨yr, yc⟩ := y
  obtain ⟨pr, pc⟩ := y'
  simp only [InBounds, ROWS, COLS, heuristic, ne_eq, Coord.mk.injEq, Adjacent] at *
  rcases c1 with ⟨h1, h2⟩ | ⟨h1, h2⟩ | ⟨h1, h2⟩ | ⟨h1, h2⟩ <;>
    rcases c2 with ⟨h3, h4⟩ | ⟨h3, h4⟩ | ⟨h3, h4⟩ | ⟨h3, h4⟩ <;>
    subst h1 h2 <;> subst h3 h4 <;>
    first
    | (exfalso; clear hx hy' hxin hy'in hax hay'; omega)
    | (exfalso; clear hx hy' hxin hy'in hne; omega)
    | exact ⟨by clear hx hy' hax hay' hne; omega, by clear hx hy' hax hay' hne hxin hy'in; omega,
        by clear hx hy' hax hay' hne hxin hy'in; omega,
        by clear hax hay' hne hxin hy'in; omega,
        by clear hx hy' hne hxin hy'in; omega⟩

/-! ## `astar` on the grid without walls -/

theorem rect_start (start end_ : Coord) : Rect start end_ start := by
  simp [Rect, heuristic]

theorem rect_end (start end_ : Coord) : Rect start end_ end_ := by
  simp [Rect, heuristic]

theorem ogInit (start end_ : Coord) : OGInv start end_ (aInit start end_) := by
  refine ⟨⟨?_, ?_, ?_, ?_, ?_⟩, ?_⟩
  · intro z n hz _
    by_cases e : z = start
    · subst e
      simp only [aInit, setAt_same, Option.some.injEq] at hz
      subst hz
      simp [heuristic]
    · simp [aInit, setAt, e] at hz
  · intro e he
    simp only [aInit, List.mem_singleton] at he
    subst he
    exact ⟨le_refl _, by simp [OpenEntry.coord, rect_start]⟩
  · intro e he _ y _ _ _ hy
    simp only [aInit, List.mem_singleton] at he
    subst he
    simp [OpenEntry.coord, heuristic] at hy
  · by_cases e : end_ = start
    · right; simp [aInit, OpenEntry.coord, e]
    · left; simp [aInit, setAt, e]
  · simp [aInit]
  · intro e1 he1 e2 he2 _ _
    simp only [aInit, List.mem_singleton] at he1 he2
    subst he1 he2
    omega

/-- On the grid without walls the open set holds an entry with the least possible `f` as long
as `end` has not been popped. -/
theorem og_exists_F {start end_ : Coord} {st : AState} (hs : InBounds start)
    (he : InBounds end_) (hinv : AInv noWalls start none st) (hog : OGInv start end_ st) :
    ∃ e ∈ st.openSet, e.f = heuristic start end_ := by
  obtain ⟨p, hp, _, hrect⟩ := exists_monotone_route _ start end_ rfl hs he
  have key : ∀ z, Rect start end_ z → z ∈ st.openSet.map OpenEntry.coord →
      ∃ e ∈ st.openSet, e.f = heuristic start end_ := by
    intro z hz hmem
    obtain ⟨e, hemem, rfl⟩ := List.mem_map.1 hmem
    exact ⟨e, hemem, ((hog.1.open_f e hemem).2).2 hz⟩
  rcases SearchInv.lower_bound hinv p start 0 0 hp hinv.g_start (le_refl _) with
    ⟨ge, hge, _⟩ | ⟨z, gz, hzp, hz, _, _⟩
  · rcases hog.1.end_open with h | h
    · rw [hge] at h; cases h
    · exact key end_ (rect_end _ _) h
  · rcases hz with hz | hz
    · exact key z (hrect z hzp) hz
    · cases hz

theorem ogPop {start end_ : Coord} {st : AState} {cur : OpenEntry} {rest : List OpenEntry}
    {k : Nat} (hs : InBounds start) (he : InBounds end_)
    (hinv : AInv noWalls start none st) (hog : OGInv start end_ st)
    (hsort : sortOpen st.openSet = cur :: rest) (hk : st.gScore cur.coord = some k)
    (hne : cur.coord ≠ end_) :
    OGMid start end_ cur.coord k { st with visited := st.visited ++ [cur], openSet := rest } := by
  have hperm : (cur :: rest).Perm st.openSet := by
    rw [← hsort]; exact List.perm_insertionSort _ _
  have hcur : cur ∈ st.openSet := hperm.subset (by simp)
  have hrest : ∀ e ∈ rest, e ∈ st.openSet := fun e h => hperm.subset (List.mem_cons_of_mem _ h)
  have hsorted : (cur :: rest).Sorted (fun a b => a.f ≤ b.f) := by
    rw [← hsort]; exact List.sorted_insertionSort _ _
  obtain ⟨e0, he0, hf0⟩ := og_exists_F hs he hinv hog
  have hcurF : cur.f = heuristic start end_ := by
    have h1 := (hog.1.open_f cur hcur).1
    have h2 : cur.f ≤ e0.f := by
      rcases List.mem_cons.1 (hperm.symm.subset he0) with h | h
      · rw [h]
      · exact (List.sorted_cons.1 hsorted).1 e0 h
    omega
  have hcurR : Rect start end_ cur.coord := (hog.1.open_f cur hcur).2.1 hcurF
  have hka : k = heuristic start cur.coord := hog.1.g_rect _ _ hk hcurR
  have hfilter : st.openSet.filter (fun e => decide (e.f = heuristic start end_))
      = cur :: rest.filter (fun e => decide (e.f = heuristic start end_)) := by
    rw [← filter_sortOpen, hsort, List.filter_cons]
    simp [hcurF]
  have hpw := hog.1.sorted
  rw [hfilter] at hpw
  have hpw' := List.pairwise_cons.1 hpw
  refine ⟨⟨hog.1.g_rect, fun e h => hog.1.open_f e (hrest e h),
    fun e h => hog.1.back e (hrest e h), ?_, hpw'.2⟩, ?_, ?_, hcurR, hka.symm⟩
  · rcases hog.1.end_open with h | h
    · exact Or.inl h
    · right
      obtain ⟨e, hemem, hec⟩ := List.mem_map.1 h
      rcases List.mem_cons.1 (hperm.symm.subset hemem) with h' | h'
      · subst h'; exact absurd hec hne
      · exact List.mem_map.2 ⟨e, h', hec⟩
  · intro e hemem hef
    have h1 := hpw'.1 e (List.mem_filter.2 ⟨hemem, by simp [hef]⟩)
    have h2 := hog.2 cur hcur e (hrest e hemem) hcurF hef
    omega
  · intro y hy hadj hrect hay
    exact hog.1.back cur hcur hcurF y hy hadj hrect (by omega)

theorem ogRelax {start end_ cur y : Coord} {k : Nat} {st : AState}
    (hinv : AInv noWalls start (some cur) st) (hk : st.gScore cur = some k)
    (hog : OGMid start end_ cur k st) (hy : y ∈ getNeighbors noWalls cur) :
    OGMid start end_ cur k (aRelax end_ cur st y) := by
  cases hlt : ltInf (some (k + 1)) (st.gScore y) with
  | false => rw [aRelax_skip hk hlt]; exact hog
  | true =>
    obtain ⟨hb, hlohi, hcb, hcR, hca⟩ := hog
    have hlt' := (ltInf_some_iff _ _).1 hlt
    obtain ⟨hyo, hadj⟩ := (mem_getNeighbors noWalls cur y).1 hy
    have hcurin : InBounds cur := (hinv.isopen cur (by simp [hk])).1
    have hay := heuristic_adjacent hadj start
    -- a cell on a shortest way that is improved is one step further than `cur`
    have hkey : Rect start end_ y → heuristic start y = k + 1 := by
      intro hR
      rcases hay with h | h
      · omega
      · exfalso
        have hd := hcb y hyo.1 hadj hR (by omega)
        cases hg : st.gScore y with
        | none => exact hd hg
        | some n =>
          have := hb.g_rect y n hg hR
          have := hlt' n hg
          omega
    have htri := heuristic_triangle start y end_
    rw [aRelax_update hk hlt]
    have hmem : ∀ e, e ∈ (if inOpen st.openSet y = true then st.openSet
        else st.openSet ++ [{ row := y.row, col := y.col, f := k + 1 + heuristic y end_ }]) →
        e ∈ st.openSet ∨
          e = { row := y.row, col := y.col, f := k + 1 + heuristic y end_ } := by
      intro e he
      by_cases hin : inOpen st.openSet y = true
      · rw [if_pos hin] at he; exact Or.inl he
      · rw [if_neg hin] at he
        rcases List.mem_append.1 he with h | h
        · exact Or.inl h
        · exact Or.inr (by simpa using h)
    have hsub : ∀ e, e ∈ st.openSet →
        e ∈ (if inOpen st.openSet y = true then st.openSet
        else st.openSet ++ [{ row := y.row, col := y.col, f := k + 1 + heuristic y end_ }]) := by
      intro e he
      by_cases hin : inOpen st.openSet y = true
      · rw [if_pos hin]; exact he
      · rw [if_neg hin]; exact List.mem_append_left _ he
    have hnewF : k + 1 + heuristic y end_ = heuristic start end_ → Rect start end_ y := by
      intro h; unfold Rect; omega
    have hg' : ∀ z, st.gScore z ≠ none → setAt st.gScore y (some (k + 1)) z ≠ none := by
      intro z hz
      by_cases e : z = y
      · subst e; simp [setAt]
      · rw [setAt_other _ _ _ _ e]; exact hz
    refine ⟨⟨?_, ?_, ?_, ?_, ?_⟩, ?_, ?_, hcR, hca⟩
    · -- g_rect
      intro z n hz hR
      dsimp only at hz
      by_cases e : z = y
      · subst e
        rw [setAt_same] at hz
        cases hz
        exact (hkey hR).symm
      · rw [setAt_other _ _ _ _ e] at hz
        exact hb.g_rect z n hz hR
    · -- open_f
      intro e he
      rcases hmem e he with h | h
      · exact hb.open_f e h
      · subst h
        refine ⟨by dsimp only; omega, ?_⟩
        constructor
        · intro h; exact hnewF h
        · intro hR
          have hR' : Rect start end_ y := hR
          have := hkey hR'
          unfold Rect at hR'
          dsimp only
          omega
    · -- back
      intro e he hef y2 hy2 hadj2 hR2 ha2
      dsimp only
      rcases hmem e he with h | h
      · exact hg' y2 (hb.back e h hef y2 hy2 hadj2 hR2 ha2)
      · subst h
        have hRy : Rect start end_ y := hnewF hef
        have hyk := hkey hRy
        have hadj2' : Adjacent y2 y := hadj2
        have ha2' : heuristic start y2 + 1 = heuristic start y := ha2
        by_cases e2 : y2 = cur
        · subst e2; exact hg' _ (by simp [hk])
        · obtain ⟨z, hzin, hzadj, hy2z, hRz, haz⟩ :=
            exists_fourth_corner hcR hR2 hcurin hy2 hadj hadj2' e2 (by omega) ha2'
          have hgz := hcb z hzin hzadj hRz (by omega)
          cases hgzv : st.gScore z with
          | none => exact absurd hgzv hgz
          | some n =>
            have hn := hb.g_rect z n hgzv hRz
            have hznot : z ∉ st.openSet.map OpenEntry.coord := by
              intro hm
              obtain ⟨ez, hez, hezc⟩ := List.mem_map.1 hm
              have hezF := ((hb.open_f ez hez).2).2 (by rw [hezc]; exact hRz)
              have := (hlohi ez hez hezF).1
              rw [hezc] at this
              omega
            have hzcur : (some cur : Option Coord) ≠ some z := by
              intro h
              cases h
              omega
            obtain ⟨m, hm, _⟩ := hinv.closure z n hgzv hznot hzcur y2
              ((mem_getNeighbors noWalls z y2).2 ⟨isOpen_noWalls hy2, hy2z⟩)
            exact hg' y2 (by simp [hm])
    · -- end_open
      dsimp only
      by_cases e : end_ = y
      · right
        subst e
        by_cases hin : inOpen st.openSet end_ = true
        · rw [if_pos hin]; exact (inOpen_iff _ _).1 hin
        · rw [if_neg hin]; simp [OpenEntry.coord]
      · rcases hb.end_open with h | h
        · left; rw [setAt_other _ _ _ _ e]; exact h
        · right
          obtain ⟨e', he', hc'⟩ := List.mem_map.1 h
          exact List.mem_map.2 ⟨e', hsub e' he', hc'⟩
    · -- sorted
      dsimp only
      by_cases hin : inOpen st.openSet y = true
      · rw [if_pos hin]; exact hb.sorted
      · rw [if_neg hin, List.filter_append]
        by_cases hF : k + 1 + heuristic y end_ = heuristic start end_
        · have hyk := hkey (hnewF hF)
          simp only [List.filter_cons, hF, decide_True, if_true, List.filter_nil]
          refine List.pairwise_append.2 ⟨hb.sorted, List.pairwise_singleton _ _, ?_⟩
          intro a ha b hb'
          simp only [List.mem_singleton] at hb'
          subst hb'
          obtain ⟨ha1, ha2⟩ := List.mem_filter.1 ha
          have := (hlohi a ha1 (by simpa using ha2)).2
          show heuristic start a.coord ≤ heuristic start y
          omega
        · simp only [List.filter_cons, hF, decide_False, Bool.false_eq_true, if_false,
            List.filter_nil, List.append_nil]
          exact hb.sorted
    · -- lo_hi
      intro e he hef
      rcases hmem e he with h | h
      · exact hlohi e h hef
      · subst h
        have hyk := hkey (hnewF hef)
        show k ≤ heuristic start y ∧ heuristic start y ≤ k + 1
        omega
    · -- cur_back
      intro y2 hy2 hadj2 hR2 ha2
      exact hg' y2 (hcb y2 hy2 hadj2 hR2 ha2)

theorem aRelax_gScore_cur (end_ cur y : Coord) (c : Nat) (st : AState)
    (hc : st.gScore cur = some c) : (aRelax end_ cur st y).gScore cur = some c := by
  by_cases hlt : ltInf (some (c + 1)) (st.gScore y) = true
  · rw [aRelax_update hc hlt]
    dsimp only
    have : cur ≠ y := by
      intro e; subst e
      have := (ltInf_some_iff _ _).1 hlt c hc
      omega
    rw [setAt_other _ _ _ _ this]; exact hc
  · rw [aRelax_skip hc (by simpa using hlt)]; exact hc

theorem ogFold {start end_ cur : Coord} {k : Nat} {st : AState}
    (hinv : AInv noWalls start (some cur) st) (hk : st.gScore cur = some k)
    (hog : OGMid start end_ cur k st) :
    OGInv start end_ ((getNeighbors noWalls cur).foldl (aRelax end_ cur) st) := by
  have key := foldl_invariant (aRelax end_ cur)
    (fun s => AInv noWalls start (some cur) s ∧ s.gScore cur = some k ∧
      OGMid start end_ cur k s)
    (fun _ _ => True) (getNeighbors noWalls cur)
    (by
      intro s y hy ⟨hi, hks, ho⟩
      exact ⟨⟨(aRelax_inv end_ hi hks hy).1, aRelax_gScore_cur end_ cur y k s hks,
        ogRelax hi hks ho hy⟩, trivial⟩)
    (by intro _ _ _ _ _ _; trivial)
    st ⟨hinv, hk, hog⟩
  obtain ⟨⟨_, _, hb, hlohi, _⟩, _⟩ := key
  refine ⟨hb, ?_⟩
  intro e1 he1 e2 he2 hf1 hf2
  have h1 := hlohi e1 he1 hf1
  have h2 := hlohi e2 he2 hf2
  omega

/-- On the grid without walls, `astar` leaves its loop with `gScore[end]` equal to
`heuristic(start, end)`. -/
theorem ogLoop {start end_ : Coord} (hs : InBounds start) (he : InBounds end_) :
    ∀ (fuel : Nat) (st st' : AState), AInv noWalls start none st → OGInv start end_ st →
      aLoop noWalls end_ fuel st = some st' →
      st'.gScore end_ = some (heuristic start end_) := by
  intro fuel
  induction fuel with
  | zero => intro st st' _ _ h; simp [aLoop] at h
  | succ fuel ih =>
    intro st st' hinv hog hl
    rw [aLoop] at hl
    cases hsort : sortOpen st.openSet with
    | nil =>
      exfalso
      obtain ⟨e, hemem, _⟩ := og_exists_F hs he hinv hog
      have hperm := List.perm_insertionSort (fun a b : OpenEntry => a.f ≤ b.f) st.openSet
      unfold sortOpen at hsort
      rw [hsort] at hperm
      have := hperm.symm.subset hemem
      simp at this
    | cons cur rest =>
      obtain ⟨hpop, ⟨k, hk⟩, _⟩ := aPop_inv hinv hsort
      simp only [hsort, aStep] at hl
      by_cases hce : cur.row = end_.row ∧ cur.col = end_.col
      · simp only [hce, and_self, if_true, Option.some.injEq] at hl
        subst hl
        have hc := (openEntry_coord_eq_iff cur end_).1 hce
        rw [hc] at hk
        show st.gScore end_ = _
        rw [hk, hog.1.g_rect end_ k hk (rect_end _ _)]
      · simp only [hce, if_false, Bool.false_eq_true] at hl
        have hne : cur.coord ≠ end_ := fun h => hce ((openEntry_coord_eq_iff cur end_).2 h)
        have hmid := ogPop hs he hinv hog hsort hk hne
        have hfold := aFold_inv end_ hpop hk
        exact ih _ _ hfold.1 (ogFold hpop hk hmid) hl

/-! ## Claims -/

/-- A route between distinct cells enters `e` from one of its neighbours. -/
theorem IsRoute.exists_neighbor {w : Walls} {e : Coord} :
    ∀ (p : List Coord) (s : Coord), IsRoute w s e p → s ≠ e → ∃ x, x ∈ getNeighbors w e := by
  intro p
  induction p with
  | nil => intro s h; simp [IsRoute] at h
  | cons a p ih =>
    intro s h hne
    obtain ⟨hh, hl, hc, ho⟩ := h
    simp only [List.head?_cons, Option.some.injEq] at hh
    subst hh
    cases p with
    | nil =>
      simp only [List.getLast?_singleton, Option.some.injEq] at hl
      exact absurd hl hne
    | cons b q =>
      have hab : Adjacent a b := (List.chain'_cons.1 hc).1
      by_cases hbe : b = e
      · subst hbe
        exact ⟨a, (mem_getNeighbors w b a).2 ⟨ho a (by simp), hab⟩⟩
      · have hr : IsRoute w b e (b :: q) := by
          refine ⟨rfl, ?_, (List.chain'_cons.1 hc).2,
            fun c hc' => ho c (List.mem_cons_of_mem _ hc')⟩
          simpa [List.getLast?_cons_cons] using hl
        exact ih b hr hbe

/-- A route in `wallsOne` that walks around the wall. -/
theorem wallsOne_route :
    IsRoute wallsOne ⟨0, 0⟩ ⟨2, 1⟩ [⟨0, 0⟩, ⟨1, 0⟩, ⟨2, 0⟩, ⟨2, 1⟩] :=
  ⟨rfl, rfl, by simp [Adjacent], by decide⟩

/-- C1: when a route exists, the path built by `dijkstra(start, end)` has exactly `d + 1`
entries, where `d` is the minimum number of steps over all routes from `start` to `end`. -/
theorem dijkstra_path_length_minimal (w : Walls) (start end_ : Coord)
    (hs : IsOpen w start) (_he : IsOpen w end_) (d : Nat)
    (hroute : ∃ p, IsRoute w start end_ p ∧ p.length = d + 1)
    (hmin : ∀ p, IsRoute w start end_ p → d + 1 ≤ p.length) :
    ∃ res, DijkstraReturns w start end_ res ∧ res.path.length = d + 1 := by
  obtain ⟨st, l, hexit, hret, _, hsome⟩ := dijkstra_run w start end_ hs
  obtain ⟨p0, hp0, hlen0⟩ := hroute
  obtain ⟨ge, hge, hle⟩ := hexit.dist_end_le ⟨p0, hp0⟩
  obtain ⟨hl, hr⟩ := hsome ge hge
  refine ⟨_, hret, ?_⟩
  have h1 := hmin _ hr
  have h2 := hle p0 hp0
  simp only [List.length_reverse, List.length_append, List.length_singleton] at h1 ⊢
  omega

theorem dijkstra_path_length_minimal_witness :
    IsOpen wallsOne ⟨0, 0⟩ ∧ IsOpen wallsOne ⟨2, 1⟩ ∧
      (∃ p, IsRoute wallsOne ⟨0, 0⟩ ⟨2, 1⟩ p ∧ p.length = 3 + 1) ∧
      (∀ p, IsRoute wallsOne ⟨0, 0⟩ ⟨2, 1⟩ p → 3 + 1 ≤ p.length) ∧
      ∃ res, DijkstraReturns wallsOne ⟨0, 0⟩ ⟨2, 1⟩ res ∧ res.path.length = 3 + 1 :=
  have h1 : IsOpen wallsOne ⟨0, 0⟩ := by decide
  have h2 : IsOpen wallsOne ⟨2, 1⟩ := by decide
  have h3 : ∃ p, IsRoute wallsOne ⟨0, 0⟩ ⟨2, 1⟩ p ∧ p.length = 3 + 1 :=
    ⟨_, wallsOne_route, rfl⟩
  have h4 : ∀ p, IsRoute wallsOne ⟨0, 0⟩ ⟨2, 1⟩ p → 3 + 1 ≤ p.length :=
    fun p hp => hp.heuristic_lt_length
  ⟨h1, h2, h3, h4, dijkstra_path_length_minimal wallsOne ⟨0, 0⟩ ⟨2, 1⟩ h1 h2 3 h3 h4⟩

/-- C4: when a route exists, the path built by `dijkstra(start, end)` is itself a route: it
starts at `start`, ends at `end`, consecutive entries are orthogonally adjacent, and every
entry is in bounds and not a wall. -/
theorem dijkstra_path_is_route (w : Walls) (start end_ : Coord)
    (hs : IsOpen w start) (_he : IsOpen w end_) (hroute : ∃ p, IsRoute w start end_ p) :
    ∃ res, DijkstraReturns w start end_ res ∧
      res.path.head? = some start ∧ res.path.getLast? = some end_ ∧
      res.path.Chain' (fun a b => (a.row - b.row).natAbs + (a.col - b.col).natAbs = 1) ∧
      ∀ c ∈ res.path, (0 ≤ c.row ∧ c.row < 20 ∧ 0 ≤ c.col ∧ c.col < 20) ∧
        w c.row c.col = false := by
  obtain ⟨st, l, hexit, hret, _, hsome⟩ := dijkstra_run w start end_ hs
  obtain ⟨ge, hge, _⟩ := hexit.dist_end_le hroute
  obtain ⟨_, hr⟩ := hsome ge hge
  exact ⟨_, hret, hr⟩

theorem dijkstra_path_is_route_witness :
    IsOpen wallsOne ⟨0, 0⟩ ∧ IsOpen wallsOne ⟨2, 1⟩ ∧
      (∃ p, IsRoute wallsOne ⟨0, 0⟩ ⟨2, 1⟩ p) ∧
      ∃ res, DijkstraReturns wallsOne ⟨0, 0⟩ ⟨2, 1⟩ res ∧
        res.path.head? = some ⟨0, 0⟩ ∧ res.path.getLast? = some ⟨2, 1⟩ ∧
        res.path.Chain' (fun a b => (a.row - b.row).natAbs + (a.col - b.col).natAbs = 1) ∧
        ∀ c ∈ res.path, (0 ≤ c.row ∧ c.row < 20 ∧ 0 ≤ c.col ∧ c.col < 20) ∧
          wallsOne c.row c.col = false :=
  have h1 : IsOpen wallsOne ⟨0, 0⟩ := by decide
  have h2 : IsOpen wallsOne ⟨2, 1⟩ := by decide
  have h3 : ∃ p, IsRoute wallsOne ⟨0, 0⟩ ⟨2, 1⟩ p :=
    ⟨_, wallsOne_route⟩
  ⟨h1, h2, h3, dijkstra_path_is_route wallsOne ⟨0, 0⟩ ⟨2, 1⟩ h1 h2 h3⟩

/-- C5: when a route exists, the path built by `astar(start, end)` is itself a route: it
starts at `start`, ends at `end`, consecutive entries are orthogonally adjacent, and every
entry is in bounds and not a wall. -/
theorem astar_path_is_route (w : Walls) (start end_ : Coord)
    (hs : IsOpen w start) (_he : IsOpen w end_) (hroute : ∃ p, IsRoute w start end_ p) :
    ∃ res, AstarReturns w start end_ res ∧
      res.path.head? = some start ∧ res.path.getLast? = some end_ ∧
      res.path.Chain' (fun a b => (a.row - b.row).natAbs + (a.col - b.col).natAbs = 1) ∧
      ∀ c ∈ res.path, (0 ≤ c.row ∧ c.row < 20 ∧ 0 ≤ c.col ∧ c.col < 20) ∧
        w c.row c.col = false := by
  obtain ⟨st, l, hexit, _, hret, _, hsome⟩ := astar_run w start end_ hs
  obtain ⟨ge, hge⟩ := hexit.gScore_end hroute
  obtain ⟨_, hr⟩ := hsome ge hge
  exact ⟨_, hret, hr⟩

theorem astar_path_is_route_witness :
    IsOpen wallsOne ⟨0, 0⟩ ∧ IsOpen wallsOne ⟨2, 1⟩ ∧
      (∃ p, IsRoute wallsOne ⟨0, 0⟩ ⟨2, 1⟩ p) ∧
      ∃ res, AstarReturns wallsOne ⟨0, 0⟩ ⟨2, 1⟩ res ∧
        res.path.head? = some ⟨0, 0⟩ ∧ res.path.getLast? = some ⟨2, 1⟩ ∧
        res.path.Chain' (fun a b => (a.row - b.row).natAbs + (a.col - b.col).natAbs = 1) ∧
        ∀ c ∈ res.path, (0 ≤ c.row ∧ c.row < 20 ∧ 0 ≤ c.col ∧ c.col < 20) ∧
          wallsOne c.row c.col = false :=
  have h1 : IsOpen wallsOne ⟨0, 0⟩ := by decide
  have h2 : IsOpen wallsOne ⟨2, 1⟩ := by decide
  have h3 : ∃ p, IsRoute wallsOne ⟨0, 0⟩ ⟨2, 1⟩ p :=
    ⟨_, wallsOne_route⟩
  ⟨h1, h2, h3, astar_path_is_route wallsOne ⟨0, 0⟩ ⟨2, 1⟩ h1 h2 h3⟩

/-- C6: the `visited` sequence produced by `dijkstra(start, end)` contains no coordinate
`(row, col)` more than once. -/
theorem dijkstra_visited_nodup (w : Walls) (start end_ : Coord)
    (hs : IsOpen w start) (_he : IsOpen w end_) :
    ∃ res, DijkstraReturns w start end_ res ∧
      (res.visited.map (fun e => (e.row, e.col))).Nodup := by
  obtain ⟨st, l, hexit, hret, _, _⟩ := dijkstra_run w start end_ hs
  refine ⟨_, hret, ?_⟩
  have h := hexit.visited_nodup
  have hmap : st.visited.map (fun e => (e.row, e.col))
      = (st.visited.map PqEntry.coord).map (fun c => (c.row, c.col)) := by
    simp [PqEntry.coord]
  show (st.visited.map (fun e => (e.row, e.col))).Nodup
  rw [hmap]
  apply h.map
  intro a b hab
  obtain ⟨ar, ac⟩ := a
  obtain ⟨br, bc⟩ := b
  simpa using hab

theorem dijkstra_visited_nodup_witness :
    IsOpen wallsOne ⟨0, 0⟩ ∧ IsOpen wallsOne ⟨2, 1⟩ ∧
      ∃ res, DijkstraReturns wallsOne ⟨0, 0⟩ ⟨2, 1⟩ res ∧
        (res.visited.map (fun e => (e.row, e.col))).Nodup :=
  have h1 : IsOpen wallsOne ⟨0, 0⟩ := by decide
  have h2 : IsOpen wallsOne ⟨2, 1⟩ := by decide
  ⟨h1, h2, dijkstra_visited_nodup wallsOne ⟨0, 0⟩ ⟨2, 1⟩ h1 h2⟩

/-- C8: with `start` different from `end` and no route between them (in particular when
`getNeighbors(end)` is empty: all four neighbours of `end` are walls or out of bounds), the
paths built by `dijkstra` and by `astar` are both exactly `[start]`, and `end` does not occur
in them. -/
theorem unreachable_path_is_start (w : Walls) (start end_ : Coord)
    (hs : IsOpen w start) (_he : IsOpen w end_) (hne : start ≠ end_) :
    (getNeighbors w end_ = [] → ¬ ∃ p, IsRoute w start end_ p) ∧
    ((¬ ∃ p, IsRoute w start end_ p) →
      ∃ rd ra, DijkstraReturns w start end_ rd ∧ AstarReturns w start end_ ra ∧
        rd.path = [start] ∧ ra.path = [start] ∧ end_ ∉ rd.path ∧ end_ ∉ ra.path) := by
  constructor
  · rintro hnil ⟨p, hp⟩
    obtain ⟨x, hx⟩ := hp.exists_neighbor p start hne
    rw [hnil] at hx
    simp at hx
  · intro hno
    obtain ⟨st, l, ⟨d, pd, hinv, _⟩, hret, hnone, _⟩ := dijkstra_run w start end_ hs
    obtain ⟨st', l', ⟨pa, hinv', _⟩, _, hret', hnone', _⟩ := astar_run w start end_ hs
    have hl : l = [] := hnone (hinv.1.prev_none_of_no_route hno)
    have hl' : l' = [] := hnone' (SearchInv.prev_none_of_no_route hinv' hno)
    subst hl hl'
    refine ⟨_, _, hret, hret', by simp, by simp, ?_, ?_⟩ <;>
      simpa using fun h => hne h.symm

theorem unreachable_path_is_start_witness :
    IsOpen wallsEnclosed ⟨0, 0⟩ ∧ IsOpen wallsEnclosed ⟨19, 19⟩ ∧
      (⟨0, 0⟩ : Coord) ≠ ⟨19, 19⟩ ∧ getNeighbors wallsEnclosed ⟨19, 19⟩ = [] ∧
      ∃ rd ra, DijkstraReturns wallsEnclosed ⟨0, 0⟩ ⟨19, 19⟩ rd ∧
        AstarReturns wallsEnclosed ⟨0, 0⟩ ⟨19, 19⟩ ra ∧
        rd.path = [⟨0, 0⟩] ∧ ra.path = [⟨0, 0⟩] ∧
        (⟨19, 19⟩ : Coord) ∉ rd.path ∧ (⟨19, 19⟩ : Coord) ∉ ra.path :=
  have h1 : IsOpen wallsEnclosed ⟨0, 0⟩ := by decide
  have h2 : IsOpen wallsEnclosed ⟨19, 19⟩ := by decide
  have h3 : (⟨0, 0⟩ : Coord) ≠ ⟨19, 19⟩ := by decide
  have h4 : getNeighbors wallsEnclosed ⟨19, 19⟩ = [] := by decide
  have h := unreachable_path_is_start wallsEnclosed ⟨0, 0⟩ ⟨19, 19⟩ h1 h2 h3
  ⟨h1, h2, h3, h4, h.2 (h.1 h4)⟩

/-- C9: a coordinate `(r, c)` occurs in `getNeighbors(node)` exactly when it is in bounds,
not a wall, and at distance `|r - row| + |c - col| = 1` from `node`; the result has no
repeated coordinate and at most 4 entries. -/
theorem getNeighbors_spec (w : Walls) (node : Coord) :
    (∀ r c : Int, ({ row := r, col := c } : Coord) ∈ getNeighbors w node ↔
      (0 ≤ r ∧ r < 20 ∧ 0 ≤ c ∧ c < 20 ∧ w r c = false ∧
        (r - node.row).natAbs + (c - node.col).natAbs = 1)) ∧
    (getNeighbors w node).Nodup ∧ (getNeighbors w node).length ≤ 4 := by
  refine ⟨?_, getNeighbors_nodup w node, ?_⟩
  · intro r c
    rw [mem_getNeighbors]
    simp only [IsOpen, InBounds, Adjacent, ROWS, COLS]
    tauto
  · rw [getNeighbors_eq_filter]
    exact (List.length_filter_le _ _).trans (by simp [candidates])

theorem isRoute_of_check {w : Walls} {s e : Coord} {p : List Coord}
    (h1 : p.head? = some s) (h2 : p.getLast? = some e) (h3 : adjacentChain p = true)
    (h4 : ∀ c ∈ p, IsOpen w c) : IsRoute w s e p :=
  ⟨h1, h2, (adjacentChain_iff p).1 h3, h4⟩

theorem detourRoute_isRoute : IsRoute wallsDetour ⟨0, 0⟩ ⟨19, 19⟩ detourRoute :=
  isRoute_of_check (by decide) (by decide) (by decide) (by decide)

set_option maxRecDepth 1000000 in
theorem astar_detour_eval :
    (astar wallsDetour 100 ⟨0, 0⟩ ⟨19, 19⟩).map
        (fun r => (r.gEnd, r.path.length, r.visited.getLast?.map OpenEntry.coord))
      = some (some 44, 45, some ⟨19, 19⟩) := by
  decide

set_option maxRecDepth 1000000 in
theorem dijkstra_detour_eval :
    (dijkstra wallsDetour 100 ⟨0, 0⟩ ⟨19, 19⟩).map (fun r => r.path.length) = some 43 := by
  decide

set_option maxRecDepth 1000000 in
theorem astar_twice_eval :
    (astar wallsTwice 100 ⟨0, 0⟩ ⟨19, 19⟩).map
        (fun r => r.visited.map (fun e => (e.row, e.col)))
      = some [(0, 0), (1, 0), (1, 1), (1, 2), (2, 2), (2, 3), (2, 4), (3, 4), (3, 5), (3, 6),
          (3, 7), (0, 2), (1, 4), (2, 7), (0, 3), (1, 5), (0, 4), (1, 7), (0, 5), (0, 6),
          (0, 7), (1, 7)] := by
  decide

/-- C2 (defect of the code): on the grid `wallsDetour`, `astar((0,0), (19,19))` pops `end` and
leaves its loop with `gScore[end] = 44`, although a route of only 42 steps exists. -/
theorem astar_gScore_end_not_minimal :
    ∃ res, AstarReturns wallsDetour ⟨0, 0⟩ ⟨19, 19⟩ res ∧ res.gEnd = some 44 ∧
      res.visited.getLast?.map OpenEntry.coord = some ⟨19, 19⟩ ∧
      ∃ p, IsRoute wallsDetour ⟨0, 0⟩ ⟨19, 19⟩ p ∧ p.length = 42 + 1 := by
  have h := astar_detour_eval
  cases hr : astar wallsDetour 100 ⟨0, 0⟩ ⟨19, 19⟩ with
  | none => rw [hr] at h; simp at h
  | some res =>
    rw [hr] at h
    simp only [Option.map_some', Option.some.injEq, Prod.mk.injEq] at h
    exact ⟨res, astar_mono _ _ _ _ _ hr, h.1, h.2.2, detourRoute, detourRoute_isRoute, rfl⟩

/-- C3 (defect of the code): on the grid `wallsDetour` the path built by
`dijkstra((0,0), (19,19))` has 43 entries and the path built by `astar((0,0), (19,19))` has
45 entries. -/
theorem dijkstra_astar_path_lengths_differ :
    ∃ rd ra, DijkstraReturns wallsDetour ⟨0, 0⟩ ⟨19, 19⟩ rd ∧
      AstarReturns wallsDetour ⟨0, 0⟩ ⟨19, 19⟩ ra ∧
      rd.path.length = 43 ∧ ra.path.length = 45 := by
  have h := astar_detour_eval
  have h' := dijkstra_detour_eval
  cases hr : astar wallsDetour 100 ⟨0, 0⟩ ⟨19, 19⟩ with
  | none => rw [hr] at h; simp at h
  | some ra =>
    cases hd : dijkstra wallsDetour 100 ⟨0, 0⟩ ⟨19, 19⟩ with
    | none => rw [hd] at h'; simp at h'
    | some rd =>
      rw [hr] at h
      rw [hd] at h'
      simp only [Option.map_some', Option.some.injEq, Prod.mk.injEq] at h h'
      exact ⟨rd, ra, dijkstra_mono _ _ _ _ _ hd, astar_mono _ _ _ _ _ hr, h', h.2.1⟩

/-- C7 (defect of the code): on the grid `wallsTwice`, with `start = (0, 0)` and
`end = (19, 19)` both in bounds and not walls, the `visited` sequence produced by `astar`
contains the coordinate `(1, 7)` twice. -/
theorem astar_visited_repeats :
    IsOpen wallsTwice ⟨0, 0⟩ ∧ IsOpen wallsTwice ⟨19, 19⟩ ∧
      ∃ res, AstarReturns wallsTwice ⟨0, 0⟩ ⟨19, 19⟩ res ∧
        (res.visited.map (fun e => (e.row, e.col))).count (1, 7) = 2 ∧
        ¬ (res.visited.map (fun e => (e.row, e.col))).Nodup := by
  have h := astar_twice_eval
  refine ⟨by decide, by decide, ?_⟩
  cases hr : astar wallsTwice 100 ⟨0, 0⟩ ⟨19, 19⟩ with
  | none => rw [hr] at h; simp at h
  | some res =>
    rw [hr] at h
    simp only [Option.map_some', Option.some.injEq] at h
    refine ⟨res, astar_mono _ _ _ _ _ hr, ?_, ?_⟩
    · rw [h]; decide
    · rw [h]; decide

/-- C10: in the grid without walls, for distinct in-bounds `start` and `end`, the paths built
by `dijkstra(start, end)` and by `astar(start, end)` each have exactly
`heuristic(start, end) + 1` entries, that is `|start.row - end.row| + |start.col - end.col| + 1`. -/
theorem noWalls_path_length (start end_ : Coord) (hs : InBounds start) (he : InBounds end_)
    (_hne : start ≠ end_) :
    ∃ rd ra, DijkstraReturns noWalls start end_ rd ∧ AstarReturns noWalls start end_ ra ∧
      rd.path.length = heuristic start end_ + 1 ∧ ra.path.length = heuristic start end_ + 1 ∧
      heuristic start end_ = (start.row - end_.row).natAbs + (start.col - end_.col).natAbs := by
  obtain ⟨p, hp, hlen, _⟩ := exists_monotone_route _ start end_ rfl hs he
  obtain ⟨st, l, hexit, hret, _, hsome⟩ := dijkstra_run noWalls start end_ (isOpen_noWalls hs)
  obtain ⟨ge, hge, hle⟩ := hexit.dist_end_le ⟨p, hp⟩
  obtain ⟨hl, hr⟩ := hsome ge hge
  obtain ⟨st', l', _, ⟨n, hloop⟩, hret', _, hsome'⟩ :=
    astar_run noWalls start end_ (isOpen_noWalls hs)
  have hg := ogLoop hs he n _ st' (aInit_inv noWalls start end_ (isOpen_noWalls hs))
    (ogInit start end_) hloop
  obtain ⟨hl', hr'⟩ := hsome' _ hg
  refine ⟨_, _, hret, hret', ?_, ?_, rfl⟩
  · have h1 := hr.heuristic_lt_length
    have h2 := hle p hp
    simp only [List.length_reverse, List.length_append, List.length_singleton] at h1 ⊢
    omega
  · have h1 := hr'.heuristic_lt_length
    simp only [List.length_reverse, List.length_append, List.length_singleton] at h1 ⊢
    omega

theorem noWalls_path_length_witness :
    InBounds ⟨0, 0⟩ ∧ InBounds ⟨19, 19⟩ ∧ (⟨0, 0⟩ : Coord) ≠ ⟨19, 19⟩ ∧
      ∃ rd ra, DijkstraReturns noWalls ⟨0, 0⟩ ⟨19, 19⟩ rd ∧
        AstarReturns noWalls ⟨0, 0⟩ ⟨19, 19⟩ ra ∧
        rd.path.length = heuristic ⟨0, 0⟩ ⟨19, 19⟩ + 1 ∧
        ra.path.length = heuristic ⟨0, 0⟩ ⟨19, 19⟩ + 1 ∧
        heuristic ⟨0, 0⟩ ⟨19, 19⟩
          = ((0 : Int) - 19).natAbs + ((0 : Int) - 19).natAbs :=
  have h1 : InBounds ⟨0, 0⟩ := by decide
  have h2 : InBounds ⟨19, 19⟩ := by decide
  have h3 : (⟨0, 0⟩ : Coord) ≠ ⟨19, 19⟩ := by decide
  ⟨h1, h2, h3, noWalls_path_length ⟨0, 0⟩ ⟨19, 19⟩ h1 h2 h3⟩

/-! ## The grid: `createGrid` and `toggleWall` -/

theorem createGrid_inv : GridInv createGrid := by
  intro r c
  simp [createGrid, startCell, endCell, ROWS, COLS]

theorem toggleWall_some (grid : Grid) (r c : Int) (h : 0 ≤ r ∧ r < 20 ∧ 0 ≤ c ∧ c < 20) :
    toggleWall grid r c =
      if (grid r c).start = true ∨ (grid r c).end_ = true then some grid
      else some (fun r' c' =>
        if r' = r ∧ c' = c then { grid r c with wall := !(grid r c).wall } else grid r' c') := by
  unfold toggleWall
  simp only [ROWS, COLS]
  rw [if_pos h]

theorem toggleWall_inv {grid grid' : Grid} {r c : Int} (hg : GridInv grid)
    (h : toggleWall grid r c = some grid') : GridInv grid' := by
  by_cases hb : 0 ≤ r ∧ r < 20 ∧ 0 ≤ c ∧ c < 20
  · rw [toggleWall_some grid r c hb] at h
    by_cases hc : (grid r c).start = true ∨ (grid r c).end_ = true
    · rw [if_pos hc] at h
      cases h; exact hg
    · rw [if_neg hc] at h
      simp only [Option.some.injEq] at h
      subst h
      intro r' c'
      by_cases e : r' = r ∧ c' = c
      · obtain ⟨e1, e2⟩ := e
        subst e1 e2
        have := hg r' c'
        simp only [and_self, if_true]
        exact ⟨this.1, this.2.1, fun h' => absurd h' hc⟩
      · simp only [e, if_false]
        exact hg r' c'
  · unfold toggleWall at h
    simp only [ROWS, COLS] at h
    rw [if_neg hb] at h
    cases h

theorem applyEvents_inv :
    ∀ (es : List UiEvent) (grid : Grid), GridInv grid → (∀ e ∈ es, e.Valid) →
      ∃ grid', applyEvents grid es = some grid' ∧ GridInv grid' := by
  intro es
  induction es with
  | nil => intro grid hg _; exact ⟨grid, rfl, hg⟩
  | cons e es ih =>
    intro grid hg hv
    have hv' : ∀ e' ∈ es, e'.Valid := fun e' he' => hv e' (List.mem_cons_of_mem _ he')
    cases e with
    | reset =>
      simp only [applyEvents]
      exact ih createGrid createGrid_inv hv'
    | click r c =>
      have hrc : 0 ≤ r ∧ r < 20 ∧ 0 ≤ c ∧ c < 20 := hv (.click r c) (by simp)
      simp only [applyEvents]
      have hsome := toggleWall_some grid r c hrc
      by_cases hc : (grid r c).start = true ∨ (grid r c).end_ = true
      · rw [if_pos hc] at hsome
        rw [hsome]
        exact ih grid hg hv'
      · rw [if_neg hc] at hsome
        rw [hsome]
        exact ih _ (toggleWall_inv hg hsome) hv'

/-- C11: `heuristic(a, b) = |a.row - b.row| + |a.col - b.col|` is consistent and admissible:
`heuristic(n, end) <= 1 + heuristic(m, end)` for every `m` in `getNeighbors(n)`,
`heuristic(end, end) = 0`, and `heuristic(n, end)` is at most the number of steps of every
route from `n` to `end`. -/
theorem heuristic_consistent_admissible (w : Walls) (end_ : Coord) :
    (∀ a b : Coord, heuristic a b = (a.row - b.row).natAbs + (a.col - b.col).natAbs) ∧
    (∀ n m : Coord, m ∈ getNeighbors w n → heuristic n end_ ≤ 1 + heuristic m end_) ∧
    heuristic end_ end_ = 0 ∧
    (∀ (n : Coord) (p : List Coord), IsRoute w n end_ p → heuristic n end_ ≤ p.length - 1) := by
  refine ⟨fun _ _ => rfl, ?_, by simp [heuristic], ?_⟩
  · intro n m hm
    have hadj := ((mem_getNeighbors w n m).1 hm).2
    have h1 := heuristic_triangle n m end_
    have h2 : heuristic n m = 1 := hadj.symm
    omega
  · intro n p hp
    have := hp.heuristic_lt_length
    omega

/-- C15: in every grid state reached from `createGrid()` by clicks on in-bounds cells (calls of
`toggleWall`) and resets (calls of `createGrid`), the start cell `(0, 0)` and the end cell
`(19, 19)` are not walls. -/
theorem start_end_never_walls (es : List UiEvent) (hv : ∀ e ∈ es, e.Valid) :
    ∃ grid, applyEvents createGrid es = some grid ∧
      (grid 0 0).wall = false ∧ (grid 19 19).wall = false ∧
      IsOpen (wallsOf grid) startCell ∧ IsOpen (wallsOf grid) endCell := by
  obtain ⟨grid, hgrid, hinv⟩ := applyEvents_inv es createGrid createGrid_inv hv
  have h0 := hinv 0 0
  have h19 := hinv 19 19
  have w0 : (grid 0 0).wall = false := h0.2.2 (Or.inl (by rw [h0.1]; decide))
  have w19 : (grid 19 19).wall = false := h19.2.2 (Or.inr (by rw [h19.2.1]; decide))
  exact ⟨grid, hgrid, w0, w19, ⟨by decide, w0⟩, ⟨by decide, w19⟩⟩

theorem start_end_never_walls_witness :
    (∀ e ∈ [UiEvent.click 0 0, .click 19 19, .click 3 4, .reset, .click 19 19, .click 18 19],
        e.Valid) ∧
      ∃ grid, applyEvents createGrid
          [UiEvent.click 0 0, .click 19 19, .click 3 4, .reset, .click 19 19, .click 18 19]
            = some grid ∧
        (grid 0 0).wall = false ∧ (grid 19 19).wall = false ∧
        IsOpen (wallsOf grid) startCell ∧ IsOpen (wallsOf grid) endCell :=
  have h : ∀ e ∈ [UiEvent.click 0 0, .click 19 19, .click 3 4, .reset, .click 19 19,
      .click 18 19], e.Valid := by
    intro e he
    simp only [List.mem_cons, List.mem_singleton, List.not_mem_nil, or_false] at he
    rcases he with h | h | h | h | h | h <;> subst h <;> simp [UiEvent.Valid]
  ⟨h, start_end_never_walls _ h⟩

theorem perm_rotate4 {α : Type} (a b c d : α) : [a, b, c, d].Perm [d, b, c, a] := by
  have h1 : ([a] ++ [b, c, d]).Perm ([b, c, d] ++ [a]) := List.perm_append_comm
  have h2 : ([b, c] ++ [d]).Perm ([d] ++ [b, c]) := List.perm_append_comm
  exact h1.trans (h2.append_right [a])

/-- C17, as stated, fails: at `(5, 5)` in the grid without walls `getNeighbors` returns
`(5,6), (6,5), (5,4), (4,5)`, not the list for the offsets `(-1,0), (1,0), (0,-1), (0,1)`. -/
theorem getNeighbors_not_specOffsets :
    getNeighbors noWalls ⟨5, 5⟩ = [⟨5, 6⟩, ⟨6, 5⟩, ⟨5, 4⟩, ⟨4, 5⟩] ∧
      applyOffsets specOffsets noWalls ⟨5, 5⟩ = [⟨4, 5⟩, ⟨6, 5⟩, ⟨5, 4⟩, ⟨5, 6⟩] ∧
      getNeighbors noWalls ⟨5, 5⟩ ≠ applyOffsets specOffsets noWalls ⟨5, 5⟩ := by
  decide

/-- C17 (amended): `getNeighbors(node)` equals, as an ordered sequence, the list obtained by
applying the offsets `(0,1), (1,0), (0,-1), (-1,0)` to `node` in that order and keeping the
results that are in bounds and not walls; it has the same entries as the list for the offsets
`(-1,0), (1,0), (0,-1), (0,1)`, in another order. -/
theorem getNeighbors_eq_applyOffsets (w : Walls) (node : Coord) :
    getNeighbors w node = applyOffsets [(0, 1), (1, 0), (0, -1), (-1, 0)] w node ∧
      (getNeighbors w node).Perm (applyOffsets specOffsets w node) := by
  have h : getNeighbors w node = applyOffsets [(0, 1), (1, 0), (0, -1), (-1, 0)] w node := by
    rw [getNeighbors_eq_filter]; rfl
  refine ⟨h, ?_⟩
  rw [h]
  apply List.Perm.filter
  simp only [specOffsets, List.map_cons, List.map_nil]
  exact perm_rotate4 _ _ _ _

/-- C19: for every grid state and in-bounds `(r, c)`, two calls of `toggleWall(r, c)` in
succession restore the grid; one call changes the wall state of no other cell, and changes
that of `(r, c)` exactly when the cell has neither class `'start'` nor `'end'`, which in the
grids the page builds means that `(r, c)` is neither `(0, 0)` nor `(19, 19)`. -/
theorem toggleWall_twice (grid : Grid) (r c : Int) (hrc : 0 ≤ r ∧ r < 20 ∧ 0 ≤ c ∧ c < 20) :
    ∃ g1, toggleWall grid r c = some g1 ∧ toggleWall g1 r c = some grid ∧
      (∀ r' c' : Int, ¬ (r' = r ∧ c' = c) → (g1 r' c').wall = (grid r' c').wall) ∧
      ((g1 r c).wall ≠ (grid r c).wall ↔
        ((grid r c).start = false ∧ (grid r c).end_ = false)) ∧
      (∀ es : List UiEvent, (∀ e ∈ es, e.Valid) → applyEvents createGrid es = some grid →
        ((g1 r c).wall ≠ (grid r c).wall ↔ ¬ (r = 0 ∧ c = 0) ∧ ¬ (r = 19 ∧ c = 19))) := by
  by_cases hc : (grid r c).start = true ∨ (grid r c).end_ = true
  · have h1 : toggleWall grid r c = some grid := by
      rw [toggleWall_some grid r c hrc, if_pos hc]
    refine ⟨grid, h1, h1, fun _ _ _ => rfl, ?_, ?_⟩
    · constructor
      · intro h; exact absurd rfl h
      · rintro ⟨h1', h2'⟩
        rcases hc with h | h
        · rw [h1'] at h; cases h
        · rw [h2'] at h; cases h
    · intro es hv hg
      obtain ⟨grid', hg', hinv⟩ := applyEvents_inv es createGrid createGrid_inv hv
      rw [hg] at hg'
      cases hg'
      have := hinv r c
      constructor
      · intro h; exact absurd rfl h
      · rintro ⟨h1', h2'⟩
        rcases hc with h | h
        · rw [this.1] at h; simp at h; exact (h1' h).elim
        · rw [this.2.1] at h; simp at h; exact (h2' h).elim
  · have h1 := toggleWall_some grid r c hrc
    rw [if_neg hc] at h1
    have hs : (grid r c).start = false := by
      cases h : (grid r c).start
      · rfl
      · exact absurd (Or.inl h) hc
    have he : (grid r c).end_ = false := by
      cases h : (grid r c).end_
      · rfl
      · exact absurd (Or.inr h) hc
    refine ⟨_, h1, ?_, ?_, ?_, ?_⟩
    · rw [toggleWall_some _ r c hrc]
      have hcell : (if r = r ∧ c = c then ({ grid r c with wall := !(grid r c).wall } : Cell)
          else grid r c) = { grid r c with wall := !(grid r c).wall } := by simp
      rw [hcell, if_neg (by simpa using hc)]
      simp only [Option.some.injEq]
      funext r' c'
      by_cases e : r' = r ∧ c' = c
      · obtain ⟨e1, e2⟩ := e
        subst e1 e2
        simp only [and_self, if_true, Bool.not_not]
      · simp only [e, if_false]
    · intro r' c' e
      simp only [e, if_false]
    · simp only [and_self, if_true]
      constructor
      · intro _; exact ⟨hs, he⟩
      · intro _
        cases (grid r c).wall <;> simp
    · intro es hv hg
      obtain ⟨grid', hg', hinv⟩ := applyEvents_inv es createGrid createGrid_inv hv
      rw [hg] at hg'
      cases hg'
      have := hinv r c
      simp only [and_self, if_true]
      constructor
      · intro _
        constructor
        · intro h
          rw [this.1] at hs
          simp [h] at hs
        · intro h
          rw [this.2.1] at he
          simp [h] at he
      · intro _
        cases (grid r c).wall <;> simp

theorem toggleWall_twice_witness :
    ((0 : Int) ≤ 3 ∧ (3 : Int) < 20 ∧ (0 : Int) ≤ 4 ∧ (4 : Int) < 20) ∧
      ∃ g1, toggleWall createGrid 3 4 = some g1 ∧ toggleWall g1 3 4 = some createGrid ∧
        (∀ r' c' : Int, ¬ (r' = 3 ∧ c' = 4) → (g1 r' c').wall = (createGrid r' c').wall) ∧
        ((g1 3 4).wall ≠ (createGrid 3 4).wall ↔
          ((createGrid 3 4).start = false ∧ (createGrid 3 4).end_ = false)) ∧
        (∀ es : List UiEvent, (∀ e ∈ es, e.Valid) →
          applyEvents createGrid es = some createGrid →
          ((g1 3 4).wall ≠ (createGrid 3 4).wall ↔
            ¬ ((3 : Int) = 0 ∧ (4 : Int) = 0) ∧ ¬ ((3 : Int) = 19 ∧ (4 : Int) = 19))) :=
  have h : (0 : Int) ≤ 3 ∧ (3 : Int) < 20 ∧ (0 : Int) ≤ 4 ∧ (4 : Int) < 20 := by decide
  ⟨h, toggleWall_twice createGrid 3 4 h⟩

/-! ## Iterations of the loops -/

/-- The loop of `dijkstra` returns the state reached at the head of some iteration, when the
queue is empty there, or the state after the `break` of that iteration. -/
theorem dLoop_iterate (w : Walls) (end_ : Coord) :
    ∀ (fuel : Nat) (st st' : DState), dLoop w end_ fuel st = some st' →
      ∃ n stn, dIterate w end_ n st = some stn ∧
        ((sortPq stn.pq = [] ∧ st' = stn) ∨
          ∃ cur rest, sortPq stn.pq = cur :: rest ∧ dStep w end_ stn cur rest = (st', true)) := by
  intro fuel
  induction fuel with
  | zero => intro st st' h; simp [dLoop] at h
  | succ fuel ih =>
    intro st st' h
    rw [dLoop] at h
    cases hs : sortPq st.pq with
    | nil =>
      simp only [hs, Option.some.injEq] at h
      exact ⟨0, st, rfl, Or.inl ⟨hs, h.symm⟩⟩
    | cons cur rest =>
      simp only [hs] at h
      by_cases hb : (dStep w end_ st cur rest).2 = true
      · simp only [hb, if_true, Option.some.injEq] at h
        exact ⟨0, st, rfl, Or.inr ⟨cur, rest, hs, by rw [← h, ← hb]⟩⟩
      · simp only [hb, if_false] at h
        obtain ⟨n, stn, hn, hfin⟩ := ih _ _ h
        refine ⟨n + 1, stn, ?_, hfin⟩
        rw [dIterate]
        simp only [hs, hb, if_false]
        exact hn

/-- The loop of `astar` returns the state reached at the head of some iteration, when the open
set is empty there, or the state after the `break` of that iteration. -/
theorem aLoop_iterate (w : Walls) (end_ : Coord) :
    ∀ (fuel : Nat) (st st' : AState), aLoop w end_ fuel st = some st' →
      ∃ n stn, aIterate w end_ n st = some stn ∧
        ((sortOpen stn.openSet = [] ∧ st' = stn) ∨
          ∃ cur rest, sortOpen stn.openSet = cur :: rest ∧
            aStep w end_ stn cur rest = (st', true)) := by
  intro fuel
  induction fuel with
  | zero => intro st st' h; simp [aLoop] at h
  | succ fuel ih =>
    intro st st' h
    rw [aLoop] at h
    cases hs : sortOpen st.openSet with
    | nil =>
      simp only [hs, Option.some.injEq] at h
      exact ⟨0, st, rfl, Or.inl ⟨hs, h.symm⟩⟩
    | cons cur rest =>
      simp only [hs] at h
      by_cases hb : (aStep w end_ st cur rest).2 = true
      · simp only [hb, if_true, Option.some.injEq] at h
        exact ⟨0, st, rfl, Or.inr ⟨cur, rest, hs, by rw [← h, ← hb]⟩⟩
      · simp only [hb, if_false] at h
        obtain ⟨n, stn, hn, hfin⟩ := ih _ _ h
        refine ⟨n + 1, stn, ?_, hfin⟩
        rw [aIterate]
        simp only [hs, hb, if_false]
        exact hn

/-- A loop invariant holds at the head of every iteration of the `dijkstra` loop. -/
theorem dIterate_invariant (w : Walls) (end_ : Coord) (P : DState → Prop)
    (hstep : ∀ st cur rest, P st → sortPq st.pq = cur :: rest →
      P (dStep w end_ st cur rest).1) :
    ∀ (n : Nat) (st stn : DState), P st → dIterate w end_ n st = some stn → P stn := by
  intro n
  induction n with
  | zero => intro st stn hp h; simp only [dIterate, Option.some.injEq] at h; rw [← h]; exact hp
  | succ n ih =>
    intro st stn hp h
    rw [dIterate] at h
    cases hs : sortPq st.pq with
    | nil => simp [hs] at h
    | cons cur rest =>
      simp only [hs] at h
      by_cases hb : (dStep w end_ st cur rest).2 = true
      · simp [hb] at h
      · simp only [hb, if_false] at h
        exact ih _ _ (hstep st cur rest hp hs) h

/-- A loop invariant holds at the head of every iteration of the `astar` loop. -/
theorem aIterate_invariant (w : Walls) (end_ : Coord) (P : AState → Prop)
    (hstep : ∀ st cur rest, P st → sortOpen st.openSet = cur :: rest →
      P (aStep w end_ st cur rest).1) :
    ∀ (n : Nat) (st stn : AState), P st → aIterate w end_ n st = some stn → P stn := by
  intro n
  induction n with
  | zero => intro st stn hp h; simp only [aIterate, Option.some.injEq] at h; rw [← h]; exact hp
  | succ n ih =>
    intro st stn hp h
    rw [aIterate] at h
    cases hs : sortOpen st.openSet with
    | nil => simp [hs] at h
    | cons cur rest =>
      simp only [hs] at h
      by_cases hb : (aStep w end_ st cur rest).2 = true
      · simp [hb] at h
      · simp only [hb, if_false] at h
        exact ih _ _ (hstep st cur rest hp hs) h

theorem dijkstra_some {w : Walls} {start end_ : Coord} {n : Nat} {res : DResult}
    (h : dijkstra w n start end_ = some res) :
    ∃ st l, dLoop w end_ n (dInit start) = some st ∧ walkBack st.prev n end_ = some l ∧
      res.visited = st.visited ∧ res.path = (l ++ [start]).reverse := by
  unfold dijkstra at h
  cases hl : dLoop w end_ n (dInit start) with
  | none => simp [hl] at h
  | some st =>
    simp only [hl, buildPath] at h
    cases hw : walkBack st.prev n end_ with
    | none => simp [hw] at h
    | some l =>
      simp only [hw, Option.map_some', Option.some.injEq] at h
      exact ⟨st, l, rfl, hw, by rw [← h], by rw [← h]⟩

theorem astar_some {w : Walls} {start end_ : Coord} {n : Nat} {res : AResult}
    (h : astar w n start end_ = some res) :
    ∃ st l, aLoop w end_ n (aInit start end_) = some st ∧ walkBack st.prev n end_ = some l ∧
      res.visited = st.visited ∧ res.path = (l ++ [start]).reverse ∧
      res.gEnd = st.gScore end_ := by
  unfold astar at h
  cases hl : aLoop w end_ n (aInit start end_) with
  | none => simp [hl] at h
  | some st =>
    simp only [hl, buildPath] at h
    cases hw : walkBack st.prev n end_ with
    | none => simp [hw] at h
    | some l =>
      simp only [hw, Option.map_some', Option.some.injEq] at h
      exact ⟨st, l, rfl, hw, by rw [← h], by rw [← h], by rw [← h]⟩

theorem dRelax_visited (cur : Coord) (st : DState) (y : Coord) :
    (dRelax cur st y).visited = st.visited := by
  unfold dRelax
  cases st.dist cur with
  | none => rfl
  | some d =>
    dsimp only
    split_ifs <;> rfl

theorem dFold_visited (cur : Coord) (l : List Coord) :
    ∀ st : DState, (l.foldl (dRelax cur) st).visited = st.visited := by
  induction l with
  | nil => intro st; rfl
  | cons y l ih => intro st; rw [List.foldl_cons, ih, dRelax_visited]

theorem dStep_visited (w : Walls) (end_ : Coord) (st : DState) (cur : PqEntry)
    (rest : List PqEntry) : (dStep w end_ st cur rest).1.visited = st.visited ++ [cur] := by
  unfold dStep
  dsimp only
  split_ifs
  · rfl
  · exact dFold_visited _ _ _

theorem dLoop_visited_prefix (w : Walls) (end_ : Coord) :
    ∀ (fuel : Nat) (st st' : DState), dLoop w end_ fuel st = some st' →
      ∃ t, st'.visited = st.visited ++ t := by
  intro fuel
  induction fuel with
  | zero => intro st st' h; simp [dLoop] at h
  | succ fuel ih =>
    intro st st' h
    rw [dLoop] at h
    cases hs : sortPq st.pq with
    | nil =>
      simp only [hs, Option.some.injEq] at h
      exact ⟨[], by rw [← h]; simp⟩
    | cons cur rest =>
      simp only [hs] at h
      have hv := dStep_visited w end_ st cur rest
      by_cases hb : (dStep w end_ st cur rest).2 = true
      · simp only [hb, if_true, Option.some.injEq] at h
        exact ⟨[cur], by rw [← h, hv]⟩
      · simp only [hb, if_false] at h
        obtain ⟨t, ht⟩ := ih _ _ h
        exact ⟨cur :: t, by rw [ht, hv]; simp⟩

/-- The first entry of the `visited` sequence of `dijkstra` is `start` with cost 0. -/
theorem dijkstraReturns_visited_head {w : Walls} {start end_ : Coord} {res : DResult}
    (h : DijkstraReturns w start end_ res) :
    res.visited.head? = some { row := start.row, col := start.col, cost := 0 } := by
  obtain ⟨n, hn⟩ := h
  obtain ⟨st, l, hl, _, hv, _⟩ := dijkstra_some (hn (n + 1) (by omega))
  rw [hv]
  rw [dLoop] at hl
  have hs : sortPq (dInit start).pq = [{ row := start.row, col := start.col, cost := 0 }] := by
    simp [sortPq, dInit]
  simp only [hs] at hl
  have hv1 := dStep_visited w end_ (dInit start) { row := start.row, col := start.col, cost := 0 } []
  by_cases hb : (dStep w end_ (dInit start)
      { row := start.row, col := start.col, cost := 0 } []).2 = true
  · simp only [hb, if_true, Option.some.injEq] at hl
    rw [← hl, hv1]
    simp [dInit]
  · simp only [hb, if_false] at hl
    obtain ⟨t, ht⟩ := dLoop_visited_prefix w end_ _ _ _ hl
    rw [ht, hv1]
    simp [dInit]

/-- C12: the cost fields of the entries of the `visited` sequence produced by
`dijkstra(start, end)` are non-decreasing from first to last entry, the first entry being
`start` with cost 0. -/
theorem dijkstra_visited_costs_sorted (w : Walls) (start end_ : Coord)
    (hs : IsOpen w start) (_he : IsOpen w end_) :
    ∃ res, DijkstraReturns w start end_ res ∧
      res.visited.head? = some { row := start.row, col := start.col, cost := 0 } ∧
      res.visited.Chain' (fun a b => a.cost ≤ b.cost) ∧
      res.visited.Pairwise (fun a b => a.cost ≤ b.cost) := by
  obtain ⟨st, l, ⟨d, pending, hinv, _⟩, hret, _, _⟩ := dijkstra_run w start end_ hs
  refine ⟨_, hret, dijkstraReturns_visited_head hret, ?_, hinv.2.vis_sorted⟩
  exact List.Pairwise.chain' hinv.2.vis_sorted

theorem dijkstra_visited_costs_sorted_witness :
    IsOpen wallsOne ⟨0, 0⟩ ∧ IsOpen wallsOne ⟨2, 1⟩ ∧
      ∃ res, DijkstraReturns wallsOne ⟨0, 0⟩ ⟨2, 1⟩ res ∧
        res.visited.head? = some { row := 0, col := 0, cost := 0 } ∧
        res.visited.Chain' (fun a b => a.cost ≤ b.cost) ∧
        res.visited.Pairwise (fun a b => a.cost ≤ b.cost) :=
  have h1 : IsOpen wallsOne ⟨0, 0⟩ := by decide
  have h2 : IsOpen wallsOne ⟨2, 1⟩ := by decide
  ⟨h1, h2, dijkstra_visited_costs_sorted wallsOne ⟨0, 0⟩ ⟨2, 1⟩ h1 h2⟩

theorem aRelax_open_nodup (end_ cur : Coord) (st : AState) (y : Coord)
    (h : (st.openSet.map OpenEntry.coord).Nodup) :
    ((aRelax end_ cur st y).openSet.map OpenEntry.coord).Nodup := by
  unfold aRelax
  cases st.gScore cur with
  | none => exact h
  | some g =>
    dsimp only
    by_cases hlt : ltInf (some (g + 1)) (st.gScore y) = true
    · rw [if_pos hlt]
      by_cases hin : inOpen st.openSet y = true
      · rw [if_pos hin]; exact h
      · rw [if_neg hin]
        have hy : y ∉ st.openSet.map OpenEntry.coord := fun hm => hin ((inOpen_iff _ _).2 hm)
        rw [List.map_append, List.nodup_append]
        refine ⟨h, by simp, ?_⟩
        intro a ha hb
        simp only [List.map_cons, List.map_nil, List.mem_singleton] at hb
        subst hb
        exact hy ha
    · rw [if_neg hlt]; exact h

theorem aFold_open_nodup (end_ cur : Coord) (l : List Coord) :
    ∀ st : AState, (st.openSet.map OpenEntry.coord).Nodup →
      ((l.foldl (aRelax end_ cur) st).openSet.map OpenEntry.coord).Nodup := by
  induction l with
  | nil => intro st h; exact h
  | cons y l ih =>
    intro st h
    rw [List.foldl_cons]
    exact ih _ (aRelax_open_nodup end_ cur st y h)

theorem sortOpen_tail_nodup {os : List OpenEntry} {cur : OpenEntry} {rest : List OpenEntry}
    (h : (os.map OpenEntry.coord).Nodup) (hs : sortOpen os = cur :: rest) :
    (rest.map OpenEntry.coord).Nodup := by
  have hperm : (cur :: rest).Perm os := by
    rw [← hs]; exact List.perm_insertionSort _ _
  have := (hperm.map OpenEntry.coord).nodup_iff.2 h
  rw [List.map_cons] at this
  exact (List.nodup_cons.1 this).2

theorem aStep_open_nodup (w : Walls) (end_ : Coord) (st : AState) (cur : OpenEntry)
    (rest : List OpenEntry) (h : (st.openSet.map OpenEntry.coord).Nodup)
    (hs : sortOpen st.openSet = cur :: rest) :
    ((aStep w end_ st cur rest).1.openSet.map OpenEntry.coord).Nodup := by
  have hr := sortOpen_tail_nodup h hs
  unfold aStep
  dsimp only
  split_ifs
  · exact hr
  · exact aFold_open_nodup _ _ _ _ hr

/-- C16: at every iteration of the loop of `astar` the open set holds at most one entry for
any coordinate: at the head of the iteration, and after the `shift` and each pass of the
`for` loop over the neighbours. -/
theorem astar_openSet_nodup (w : Walls) (start end_ : Coord) (_hs : InBounds start)
    (_he : InBounds end_) (n : Nat) (st : AState)
    (h : aIterate w end_ n (aInit start end_) = some st) :
    (st.openSet.map (fun e => (e.row, e.col))).Nodup ∧
      ∀ cur rest, sortOpen st.openSet = cur :: rest → ∀ k : Nat,
        ((((getNeighbors w cur.coord).take k).foldl (aRelax end_ cur.coord)
          { st with visited := st.visited ++ [cur], openSet := rest }).openSet.map
            (fun e => (e.row, e.col))).Nodup := by
  have hpair : ∀ os : List OpenEntry, (os.map OpenEntry.coord).Nodup →
      (os.map (fun e => (e.row, e.col))).Nodup := by
    intro os hn
    have hmap : os.map (fun e => (e.row, e.col))
        = (os.map OpenEntry.coord).map (fun c => (c.row, c.col)) := by
      simp [OpenEntry.coord]
    rw [hmap]
    apply hn.map
    intro a b hab
    obtain ⟨ar, ac⟩ := a
    obtain ⟨br, bc⟩ := b
    simpa using hab
  have hst : (st.openSet.map OpenEntry.coord).Nodup :=
    aIterate_invariant w end_ (fun s => (s.openSet.map OpenEntry.coord).Nodup)
      (fun s cur rest hp hs => aStep_open_nodup w end_ s cur rest hp hs) n _ st
      (by simp [aInit]) h
  refine ⟨hpair _ hst, ?_⟩
  intro cur rest hs k
  exact hpair _ (aFold_open_nodup _ _ _ _ (sortOpen_tail_nodup hst hs))

theorem astar_openSet_nodup_witness :
    InBounds ⟨0, 0⟩ ∧ InBounds ⟨2, 1⟩ ∧
      ∃ st, aIterate wallsOne ⟨2, 1⟩ 2 (aInit ⟨0, 0⟩ ⟨2, 1⟩) = some st ∧
        (st.openSet.map (fun e => (e.row, e.col))).Nodup ∧
        ∀ cur rest, sortOpen st.openSet = cur :: rest → ∀ k : Nat,
          ((((getNeighbors wallsOne cur.coord).take k).foldl (aRelax ⟨2, 1⟩ cur.coord)
            { st with visited := st.visited ++ [cur], openSet := rest }).openSet.map
              (fun e => (e.row, e.col))).Nodup :=
  have h1 : InBounds ⟨0, 0⟩ := by decide
  have h2 : InBounds ⟨2, 1⟩ := by decide
  have h3 : (aIterate wallsOne ⟨2, 1⟩ 2 (aInit ⟨0, 0⟩ ⟨2, 1⟩)).isSome = true := by decide
  ⟨h1, h2, (Option.isSome_iff_exists.1 h3).elim
    (fun st hst => ⟨st, hst, astar_openSet_nodup wallsOne ⟨0, 0⟩ ⟨2, 1⟩ h1 h2 2 st hst⟩)⟩

/-! ## A search does not depend on whether `start` is a wall -/

theorem isOpen_openAt (w : Walls) {s : Coord} (hs : InBounds s) (c : Coord) :
    IsOpen (openAt w s) c ↔ IsOpen w c ∨ c = s := by
  obtain ⟨cr, cc⟩ := c
  obtain ⟨sr, sc⟩ := s
  simp only [IsOpen, openAt, Coord.mk.injEq]
  by_cases e : cr = sr ∧ cc = sc
  · obtain ⟨e1, e2⟩ := e
    subst e1 e2
    simp [hs]
  · simp [e]

/-- Folding over a list filtered by `q` or by the stronger `p` gives the same state when the
additional entries leave every state satisfying `J` unchanged. -/
theorem foldl_filter_noop {σ α : Type} (f : σ → α → σ) (J : σ → Prop) (p q : α → Bool)
    (hnoop : ∀ s a, J s → q a = true → p a = false → f s a = s)
    (hJ : ∀ s a, J s → J (f s a)) (hpq : ∀ a, p a = true → q a = true) (l : List α) :
    ∀ s, J s → (l.filter q).foldl f s = (l.filter p).foldl f s := by
  induction l with
  | nil => intro s _; rfl
  | cons a l ih =>
    intro s hs
    by_cases hp : p a = true
    · have hq := hpq a hp
      simp only [List.filter_cons, hp, hq, if_true, List.foldl_cons]
      exact ih _ (hJ s a hs)
    · have hp' : p a = false := by simpa using hp
      by_cases hq : q a = true
      · simp only [List.filter_cons, hp', hq, if_true, Bool.false_eq_true, if_false,
          List.foldl_cons]
        rw [hnoop s a hs hq hp']
        exact ih s hs
      · have hq' : q a = false := by simpa using hq
        simp only [List.filter_cons, hp', hq', Bool.false_eq_true, if_false]
        exact ih s hs

theorem dRelax_dist_start (cur start : Coord) (st : DState) (y : Coord)
    (h : st.dist start = some 0) : (dRelax cur st y).dist start = some 0 := by
  unfold dRelax
  cases st.dist cur with
  | none => exact h
  | some d =>
    dsimp only
    by_cases hlt : ltInf (some (d + 1)) (st.dist y) = true
    · rw [if_pos hlt]
      dsimp only
      have : start ≠ y := by
        intro e; subst e
        have := (ltInf_some_iff _ _).1 hlt 0 h
        omega
      rw [setAt_other _ _ _ _ this]; exact h
    · rw [if_neg hlt]; exact h

theorem dRelax_start_noop (cur start : Coord) (st : DState) (h : st.dist start = some 0) :
    dRelax cur st start = st := by
  unfold dRelax
  cases st.dist cur with
  | none => rfl
  | some d =>
    dsimp only
    rw [h]
    simp [ltInf]

theorem aRelax_gScore_start (end_ cur start : Coord) (st : AState) (y : Coord)
    (h : st.gScore start = some 0) : (aRelax end_ cur st y).gScore start = some 0 := by
  cases hc : st.gScore cur with
  | none => unfold aRelax; rw [hc]; exact h
  | some c =>
    by_cases hlt : ltInf (some (c + 1)) (st.gScore y) = true
    · rw [aRelax_update hc hlt]
      dsimp only
      have : start ≠ y := by
        intro e; subst e
        have := (ltInf_some_iff _ _).1 hlt 0 h
        omega
      rw [setAt_other _ _ _ _ this]; exact h
    · rw [aRelax_skip hc (by simpa using hlt)]; exact h

theorem aRelax_start_noop (end_ cur start : Coord) (st : AState)
    (h : st.gScore start = some 0) : aRelax end_ cur st start = st := by
  cases hc : st.gScore cur with
  | none => unfold aRelax; rw [hc]
  | some c => exact aRelax_skip hc (by rw [h]; simp [ltInf])

theorem getNeighbors_openAt_foldl {σ : Type} (w : Walls) {start : Coord} (hs : InBounds start)
    (f : σ → Coord → σ) (J : σ → Prop)
    (hnoop : ∀ s, J s → f s start = s) (hJ : ∀ s a, J s → J (f s a)) (node : Coord) :
    ∀ s, J s → (getNeighbors (openAt w start) node).foldl f s = (getNeighbors w node).foldl f s := by
  intro s hj
  rw [getNeighbors_eq_filter, getNeighbors_eq_filter]
  apply foldl_filter_noop f J _ _ _ hJ _ _ s hj
  · intro s a hj hq hp
    have hq' : IsOpen (openAt w start) a := by simpa using hq
    have hp' : ¬ IsOpen w a := by simpa using hp
    rcases (isOpen_openAt w hs a).1 hq' with h | h
    · exact absurd h hp'
    · rw [h]; exact hnoop s hj
  · intro a hp
    have hp' : IsOpen w a := by simpa using hp
    simpa using (isOpen_openAt w hs a).2 (Or.inl hp')

theorem dStep_openAt (w : Walls) {start : Coord} (hs : InBounds start) (end_ : Coord)
    (st : DState) (cur : PqEntry) (rest : List PqEntry) (h : st.dist start = some 0) :
    dStep (openAt w start) end_ st cur rest = dStep w end_ st cur rest ∧
      (dStep w end_ st cur rest).1.dist start = some 0 := by
  have hfold := getNeighbors_openAt_foldl w hs (dRelax cur.coord)
    (fun s => s.dist start = some 0)
    (fun s hj => dRelax_start_noop _ _ s hj)
    (fun s a hj => dRelax_dist_start _ _ s a hj) cur.coord
  have hJ : ∀ (l : List Coord) (s : DState), s.dist start = some 0 →
      (l.foldl (dRelax cur.coord) s).dist start = some 0 := by
    intro l
    induction l with
    | nil => intro s h; exact h
    | cons a l ih => intro s h; exact ih _ (dRelax_dist_start _ _ s a h)
  unfold dStep
  dsimp only
  split_ifs
  · exact ⟨rfl, h⟩
  · refine ⟨?_, hJ _ _ h⟩
    exact congrArg (fun s => (s, false))
      (hfold { st with visited := st.visited ++ [cur], pq := rest } h)

theorem dLoop_openAt (w : Walls) {start : Coord} (hs : InBounds start) (end_ : Coord) :
    ∀ (fuel : Nat) (st : DState), st.dist start = some 0 →
      dLoop (openAt w start) end_ fuel st = dLoop w end_ fuel st := by
  intro fuel
  induction fuel with
  | zero => intro st _; rfl
  | succ fuel ih =>
    intro st h
    rw [dLoop, dLoop]
    cases hsort : sortPq st.pq with
    | nil => rfl
    | cons cur rest =>
      dsimp only
      obtain ⟨h1, h2⟩ := dStep_openAt w hs end_ st cur rest h
      rw [h1]
      split_ifs
      · rfl
      · exact ih _ h2

theorem aStep_openAt (w : Walls) {start : Coord} (hs : InBounds start) (end_ : Coord)
    (st : AState) (cur : OpenEntry) (rest : List OpenEntry) (h : st.gScore start = some 0) :
    aStep (openAt w start) end_ st cur rest = aStep w end_ st cur rest ∧
      (aStep w end_ st cur rest).1.gScore start = some 0 := by
  have hfold := getNeighbors_openAt_foldl w hs (aRelax end_ cur.coord)
    (fun s => s.gScore start = some 0)
    (fun s hj => aRelax_start_noop _ _ _ s hj)
    (fun s a hj => aRelax_gScore_start _ _ _ s a hj) cur.coord
  have hJ : ∀ (l : List Coord) (s : AState), s.gScore start = some 0 →
      (l.foldl (aRelax end_ cur.coord) s).gScore start = some 0 := by
    intro l
    induction l with
    | nil => intro s h; exact h
    | cons a l ih => intro s h; exact ih _ (aRelax_gScore_start _ _ _ s a h)
  unfold aStep
  dsimp only
  split_ifs
  · exact ⟨rfl, h⟩
  · refine ⟨?_, hJ _ _ h⟩
    exact congrArg (fun s => (s, false))
      (hfold { st with visited := st.visited ++ [cur], openSet := rest } h)

theorem aLoop_openAt (w : Walls) {start : Coord} (hs : InBounds start) (end_ : Coord) :
    ∀ (fuel : Nat) (st : AState), st.gScore start = some 0 →
      aLoop (openAt w start) end_ fuel st = aLoop w end_ fuel st := by
  intro fuel
  induction fuel with
  | zero => intro st _; rfl
  | succ fuel ih =>
    intro st h
    rw [aLoop, aLoop]
    cases hsort : sortOpen st.openSet with
    | nil => rfl
    | cons cur rest =>
      dsimp only
      obtain ⟨h1, h2⟩ := aStep_openAt w hs end_ st cur rest h
      rw [h1]
      split_ifs
      · rfl
      · exact ih _ h2

/-- C13: for in-bounds `start` and `end`, `dijkstra(start, end)` and `astar(start, end)`
terminate: the frontier loop is left after finitely many iterations (at most 400 for
`dijkstra`), the predecessor walk ends from every cell (the predecessor links contain no
cycle), and the function returns. -/
theorem searches_terminate (w : Walls) (start end_ : Coord) (hs : InBounds start)
    (_he : InBounds end_) :
    (∃ st, dLoop w end_ 401 (dInit start) = some st ∧
      (∀ x, ∃ m l, walkBack st.prev m x = some l) ∧
      ∃ res, DijkstraReturns w start end_ res ∧ res.visited = st.visited) ∧
    (∃ n st, aLoop w end_ n (aInit start end_) = some st ∧
      (∀ x, ∃ m l, walkBack st.prev m x = some l) ∧
      ∃ res, AstarReturns w start end_ res ∧ res.visited = st.visited) := by
  have hso : IsOpen (openAt w start) start := (isOpen_openAt w hs start).2 (Or.inr rfl)
  constructor
  · obtain ⟨st, hloop, d, pending, hinv, _⟩ :=
      dLoop_spec end_ 401 (dInit start) 0 (dInit_inv (openAt w start) start hso) (by simp)
    rw [dLoop_openAt w hs end_ 401 _ (by simp [dInit, setAt])] at hloop
    have hwalk : ∀ x, ∃ m l, walkBack st.prev m x = some l := by
      intro x
      obtain ⟨m, l, hl, _⟩ := hinv.1.walkBack_total x
      exact ⟨m, l, hl⟩
    obtain ⟨m, l, hl⟩ := hwalk end_
    refine ⟨st, hloop, hwalk, { visited := st.visited, path := (l ++ [start]).reverse },
      ⟨401 + m, ?_⟩, rfl⟩
    intro fuel hf
    have h1 := dLoop_mono w end_ 401 _ _ hloop fuel (by omega)
    have h2 := walkBack_mono st.prev m end_ l hl fuel (by omega)
    simp [dijkstra, h1, buildPath, h2]
  · obtain ⟨st, l, ⟨pending, hinv, _⟩, ⟨n, hloop⟩, _, _, _⟩ :=
      astar_run (openAt w start) start end_ hso
    rw [aLoop_openAt w hs end_ n _ (by simp [aInit, setAt])] at hloop
    have hwalk : ∀ x, ∃ m l, walkBack st.prev m x = some l := by
      intro x
      obtain ⟨m, l, hl, _⟩ := SearchInv.walkBack_total hinv x
      exact ⟨m, l, hl⟩
    obtain ⟨m, l', hl'⟩ := hwalk end_
    refine ⟨n, st, hloop, hwalk,
      { visited := st.visited, path := (l' ++ [start]).reverse, gEnd := st.gScore end_ },
      ⟨n + m, ?_⟩, rfl⟩
    intro fuel hf
    have h1 := aLoop_mono w end_ n _ _ hloop fuel (by omega)
    have h2 := walkBack_mono st.prev m end_ l' hl' fuel (by omega)
    simp [astar, h1, buildPath, h2]

theorem searches_terminate_witness :
    InBounds ⟨0, 0⟩ ∧ InBounds ⟨19, 19⟩ ∧
    (∃ st, dLoop wallsStart ⟨19, 19⟩ 401 (dInit ⟨0, 0⟩) = some st ∧
      (∀ x, ∃ m l, walkBack st.prev m x = some l) ∧
      ∃ res, DijkstraReturns wallsStart ⟨0, 0⟩ ⟨19, 19⟩ res ∧ res.visited = st.visited) ∧
    (∃ n st, aLoop wallsStart ⟨19, 19⟩ n (aInit ⟨0, 0⟩ ⟨19, 19⟩) = some st ∧
      (∀ x, ∃ m l, walkBack st.prev m x = some l) ∧
      ∃ res, AstarReturns wallsStart ⟨0, 0⟩ ⟨19, 19⟩ res ∧ res.visited = st.visited) :=
  have h1 : InBounds ⟨0, 0⟩ := by decide
  have h2 : InBounds ⟨19, 19⟩ := by decide
  ⟨h1, h2, searches_terminate wallsStart ⟨0, 0⟩ ⟨19, 19⟩ h1 h2⟩

/-! ## All indices are in bounds -/

theorem dijkstra_openAt (w : Walls) {start : Coord} (hs : InBounds start) (end_ : Coord)
    (fuel : Nat) : dijkstra (openAt w start) fuel start end_ = dijkstra w fuel start end_ := by
  unfold dijkstra
  rw [dLoop_openAt w hs end_ fuel _ (by simp [dInit, setAt])]

theorem astar_openAt (w : Walls) {start : Coord} (hs : InBounds start) (end_ : Coord)
    (fuel : Nat) : astar (openAt w start) fuel start end_ = astar w fuel start end_ := by
  unfold astar
  rw [aLoop_openAt w hs end_ fuel _ (by simp [aInit, setAt])]

/-- For an in-bounds `start`, wall or not, `dijkstra(start, end)` returns. -/
theorem dijkstra_total (w : Walls) (start end_ : Coord) (hs : InBounds start) :
    ∃ res, DijkstraReturns w start end_ res := by
  obtain ⟨st, l, _, ⟨n, hn⟩, _⟩ :=
    dijkstra_run (openAt w start) start end_ ((isOpen_openAt w hs start).2 (Or.inr rfl))
  exact ⟨_, n, fun fuel hf => by rw [← dijkstra_openAt w hs end_ fuel]; exact hn fuel hf⟩

/-- For an in-bounds `start`, wall or not, `astar(start, end)` returns. -/
theorem astar_total (w : Walls) (start end_ : Coord) (hs : InBounds start) :
    ∃ res, AstarReturns w start end_ res := by
  obtain ⟨st, l, _, _, ⟨n, hn⟩, _⟩ :=
    astar_run (openAt w start) start end_ ((isOpen_openAt w hs start).2 (Or.inr rfl))
  exact ⟨_, n, fun fuel hf => by rw [← astar_openAt w hs end_ fuel]; exact hn fuel hf⟩

theorem getNeighbors_inBounds (w : Walls) (node c : Coord) (h : c ∈ getNeighbors w node) :
    InBounds c := ((mem_getNeighbors w node c).1 h).1.1

/-- The result of `getNeighbors` depends on the grid only at in-bounds indices. -/
theorem getNeighbors_congr (w w' : Walls) (node : Coord)
    (h : ∀ r c : Int, InBounds ⟨r, c⟩ → w' r c = w r c) :
    getNeighbors w' node = getNeighbors w node := by
  rw [getNeighbors_eq_filter, getNeighbors_eq_filter]
  apply List.filter_congr
  intro c _
  by_cases hb : InBounds c
  · simp [IsOpen, hb, h c.row c.col hb]
  · simp [IsOpen, hb]

theorem dRelax_bounds (w : Walls) (cur : Coord) (st : DState) (y : Coord) (h : DBounds st)
    (hc : InBounds cur) (hy : y ∈ getNeighbors w cur) : DBounds (dRelax cur st y) := by
  have hyb := getNeighbors_inBounds w cur y hy
  obtain ⟨h1, h2, h3, h4⟩ := h
  unfold dRelax
  cases st.dist cur with
  | none => exact ⟨h1, h2, h3, h4⟩
  | some d =>
    dsimp only
    split_ifs
    · refine ⟨?_, h2, ?_, ?_⟩
      · intro e he
        rcases List.mem_append.1 he with h' | h'
        · exact h1 e h'
        · simp only [List.mem_singleton] at h'; subst h'; exact hyb
      · intro x hx
        by_cases e : x = y
        · subst e; exact hyb
        · exact h3 x (by simpa [setAt, e] using hx)
      · intro x p hp
        by_cases e : x = y
        · subst e
          simp only [setAt, if_true, Option.some.injEq] at hp
          subst hp
          exact ⟨hyb, hc⟩
        · exact h4 x p (by simpa [setAt, e] using hp)
    · exact ⟨h1, h2, h3, h4⟩

theorem dFold_bounds (w : Walls) (cur : Coord) (hc : InBounds cur) (l : List Coord)
    (hl : ∀ y ∈ l, y ∈ getNeighbors w cur) :
    ∀ st : DState, DBounds st → DBounds (l.foldl (dRelax cur) st) := by
  induction l with
  | nil => intro st h; exact h
  | cons y l ih =>
    intro st h
    rw [List.foldl_cons]
    exact ih (fun z hz => hl z (List.mem_cons_of_mem _ hz)) _
      (dRelax_bounds w cur st y h hc (hl y (by simp)))

theorem dStep_bounds (w : Walls) (end_ : Coord) (st : DState) (cur : PqEntry)
    (rest : List PqEntry) (h : DBounds st) (hs : sortPq st.pq = cur :: rest) :
    DBounds (dStep w end_ st cur rest).1 := by
  have hperm : (cur :: rest).Perm st.pq := by
    rw [← hs]; exact List.perm_insertionSort _ _
  obtain ⟨h1, h2, h3, h4⟩ := h
  have hcur : InBounds cur.coord := h1 cur (hperm.subset (by simp))
  have hpop : DBounds { st with visited := st.visited ++ [cur], pq := rest } := by
    refine ⟨fun e he => h1 e (hperm.subset (List.mem_cons_of_mem _ he)), ?_, h3, h4⟩
    intro e he
    rcases List.mem_append.1 he with h' | h'
    · exact h2 e h'
    · simp only [List.mem_singleton] at h'; subst h'; exact hcur
  unfold dStep
  dsimp only
  split_ifs
  · exact hpop
  · exact dFold_bounds w cur.coord hcur _ (fun _ hy => hy) _ hpop

theorem aRelax_bounds (w : Walls) (end_ cur : Coord) (st : AState) (y : Coord)
    (h : ABounds st) (hc : InBounds cur) (hy : y ∈ getNeighbors w cur) :
    ABounds (aRelax end_ cur st y) := by
  have hyb := getNeighbors_inBounds w cur y hy
  obtain ⟨h1, h2, h3, h3', h4⟩ := h
  cases hg : st.gScore cur with
  | none => unfold aRelax; rw [hg]; exact ⟨h1, h2, h3, h3', h4⟩
  | some c =>
    by_cases hlt : ltInf (some (c + 1)) (st.gScore y) = true
    · rw [aRelax_update hg hlt]
      refine ⟨?_, h2, ?_, ?_, ?_⟩
      · intro e he
        dsimp only at he
        split_ifs at he
        · exact h1 e he
        · rcases List.mem_append.1 he with h' | h'
          · exact h1 e h'
          · simp only [List.mem_singleton] at h'; subst h'; exact hyb
      · intro x hx
        by_cases e : x = y
        · subst e; exact hyb
        · exact h3 x (by simpa [setAt, e] using hx)
      · intro x hx
        by_cases e : x = y
        · subst e; exact hyb
        · exact h3' x (by simpa [setAt, e] using hx)
      · intro x p hp
        by_cases e : x = y
        · subst e
          simp only [setAt, if_true, Option.some.injEq] at hp
          subst hp
          exact ⟨hyb, hc⟩
        · exact h4 x p (by simpa [setAt, e] using hp)
    · rw [aRelax_skip hg (by simpa using hlt)]; exact ⟨h1, h2, h3, h3', h4⟩

theorem aFold_bounds (w : Walls) (end_ cur : Coord) (hc : InBounds cur) (l : List Coord)
    (hl : ∀ y ∈ l, y ∈ getNeighbors w cur) :
    ∀ st : AState, ABounds st → ABounds (l.foldl (aRelax end_ cur) st) := by
  induction l with
  | nil => intro st h; exact h
  | cons y l ih =>
    intro st h
    rw [List.foldl_cons]
    exact ih (fun z hz => hl z (List.mem_cons_of_mem _ hz)) _
      (aRelax_bounds w end_ cur st y h hc (hl y (by simp)))

theorem aStep_bounds (w : Walls) (end_ : Coord) (st : AState) (cur : OpenEntry)
    (rest : List OpenEntry) (h : ABounds st) (hs : sortOpen st.openSet = cur :: rest) :
    ABounds (aStep w end_ st cur rest).1 := by
  have hperm : (cur :: rest).Perm st.openSet := by
    rw [← hs]; exact List.perm_insertionSort _ _
  obtain ⟨h1, h2, h3, h3', h4⟩ := h
  have hcur : InBounds cur.coord := h1 cur (hperm.subset (by simp))
  have hpop : ABounds { st with visited := st.visited ++ [cur], openSet := rest } := by
    refine ⟨fun e he => h1 e (hperm.subset (List.mem_cons_of_mem _ he)), ?_, h3, h3', h4⟩
    intro e he
    rcases List.mem_append.1 he with h' | h'
    · exact h2 e h'
    · simp only [List.mem_singleton] at h'; subst h'; exact hcur
  unfold aStep
  dsimp only
  split_ifs
  · exact hpop
  · exact aFold_bounds w end_ cur.coord hcur _ (fun _ hy => hy) _ hpop

theorem dInit_bounds {start : Coord} (hs : InBounds start) : DBounds (dInit start) := by
  refine ⟨?_, by simp [dInit], ?_, by simp [dInit]⟩
  · intro e he
    simp only [dInit, List.mem_singleton] at he
    subst he; exact hs
  · intro x hx
    by_cases e : x = start
    · subst e; exact hs
    · simp [dInit, setAt, e] at hx

theorem aInit_bounds {start : Coord} (end_ : Coord) (hs : InBounds start) :
    ABounds (aInit start end_) := by
  refine ⟨?_, by simp [aInit], ?_, ?_, by simp [aInit]⟩
  · intro e he
    simp only [aInit, List.mem_singleton] at he
    subst he; exact hs
  · intro x hx
    by_cases e : x = start
    · subst e; exact hs
    · simp [aInit, setAt, e] at hx
  · intro x hx
    by_cases e : x = start
    · subst e; exact hs
    · simp [aInit, setAt, e] at hx

theorem walkBack_bounds (prev : Coord → Option Coord)
    (hp : ∀ x p, prev x = some p → InBounds x ∧ InBounds p) :
    ∀ (n : Nat) (x : Coord) (l : List Coord), walkBack prev n x = some l →
      ∀ c ∈ l, InBounds c := by
  intro n
  induction n with
  | zero => intro x l h; simp [walkBack] at h
  | succ n ih =>
    intro x l h
    rw [walkBack] at h
    cases hpx : prev x with
    | none =>
      simp only [hpx, Option.some.injEq] at h
      subst h; simp
    | some p =>
      simp only [hpx, Option.map_eq_some'] at h
      obtain ⟨l', hl', rfl⟩ := h
      intro c hc
      rcases List.mem_cons.1 hc with e | e
      · subst e; exact (hp c p hpx).1
      · exact ih p l' hl' c e

theorem dLoop_bounds (w : Walls) (end_ : Coord) (fuel : Nat) (st st' : DState)
    (h : DBounds st) (hl : dLoop w end_ fuel st = some st') : DBounds st' := by
  obtain ⟨n, stn, hn, hfin⟩ := dLoop_iterate w end_ fuel st st' hl
  have hb := dIterate_invariant w end_ DBounds
    (fun s cur rest hp hs => dStep_bounds w end_ s cur rest hp hs) n st stn h hn
  rcases hfin with ⟨_, rfl⟩ | ⟨cur, rest, hs, hstep⟩
  · exact hb
  · have := dStep_bounds w end_ stn cur rest hb hs
    rw [hstep] at this
    exact this

theorem aLoop_bounds (w : Walls) (end_ : Coord) (fuel : Nat) (st st' : AState)
    (h : ABounds st) (hl : aLoop w end_ fuel st = some st') : ABounds st' := by
  obtain ⟨n, stn, hn, hfin⟩ := aLoop_iterate w end_ fuel st st' hl
  have hb := aIterate_invariant w end_ ABounds
    (fun s cur rest hp hs => aStep_bounds w end_ s cur rest hp hs) n st stn h hn
  rcases hfin with ⟨_, rfl⟩ | ⟨cur, rest, hs, hstep⟩
  · exact hb
  · have := aStep_bounds w end_ stn cur rest hb hs
    rw [hstep] at this
    exact this

/-- C18: for in-bounds `start` and `end`, every index used by `dijkstra` and `astar` is in
bounds. `getNeighbors` returns in-bounds cells only and reads the grid at in-bounds indices
only; at the head of every iteration and after every iteration, every coordinate in the
frontier, in `visited`, written in `dist`/`gScore`/`fScore`/`prev` or stored in `prev` satisfies
`0 <= row < 20` and `0 <= col < 20`; and so does every entry of the returned `visited` and
`path`. -/
theorem indices_in_bounds (w : Walls) (start end_ : Coord) (hs : InBounds start)
    (_he : InBounds end_) :
    (∀ c : Coord, InBounds c ↔ (0 ≤ c.row ∧ c.row < 20 ∧ 0 ≤ c.col ∧ c.col < 20)) ∧
    (∀ node c, c ∈ getNeighbors w node → InBounds c) ∧
    (∀ (w' : Walls) node, (∀ r c : Int, InBounds ⟨r, c⟩ → w' r c = w r c) →
      getNeighbors w' node = getNeighbors w node) ∧
    (∀ n st, dIterate w end_ n (dInit start) = some st →
      DBounds st ∧ ∀ cur rest, sortPq st.pq = cur :: rest →
        InBounds cur.coord ∧ DBounds (dStep w end_ st cur rest).1) ∧
    (∀ n st, aIterate w end_ n (aInit start end_) = some st →
      ABounds st ∧ ∀ cur rest, sortOpen st.openSet = cur :: rest →
        InBounds cur.coord ∧ ABounds (aStep w end_ st cur rest).1) ∧
    (∃ res, DijkstraReturns w start end_ res ∧
      (∀ e ∈ res.visited, InBounds e.coord) ∧ ∀ c ∈ res.path, InBounds c) ∧
    (∃ res, AstarReturns w start end_ res ∧
      (∀ e ∈ res.visited, InBounds e.coord) ∧ ∀ c ∈ res.path, InBounds c) := by
  refine ⟨fun c => Iff.rfl, getNeighbors_inBounds w, getNeighbors_congr w, ?_, ?_, ?_, ?_⟩
  · intro n st h
    have hb := dIterate_invariant w end_ DBounds
      (fun s cur rest hp hs => dStep_bounds w end_ s cur rest hp hs) n _ st
      (dInit_bounds hs) h
    refine ⟨hb, fun cur rest hsort => ⟨?_, dStep_bounds w end_ st cur rest hb hsort⟩⟩
    have hperm : (cur :: rest).Perm st.pq := by
      rw [← hsort]; exact List.perm_insertionSort _ _
    exact hb.1 cur (hperm.subset (by simp))
  · intro n st h
    have hb := aIterate_invariant w end_ ABounds
      (fun s cur rest hp hs => aStep_bounds w end_ s cur rest hp hs) n _ st
      (aInit_bounds end_ hs) h
    refine ⟨hb, fun cur rest hsort => ⟨?_, aStep_bounds w end_ st cur rest hb hsort⟩⟩
    have hperm : (cur :: rest).Perm st.openSet := by
      rw [← hsort]; exact List.perm_insertionSort _ _
    exact hb.1 cur (hperm.subset (by simp))
  · obtain ⟨res, n, hn⟩ := dijkstra_total w start end_ hs
    refine ⟨res, ⟨n, hn⟩, ?_⟩
    obtain ⟨st, l, hl, hw, hv, hp⟩ := dijkstra_some (hn n (le_refl _))
    have hb := dLoop_bounds w end_ n _ st (dInit_bounds hs) hl
    rw [hv, hp]
    refine ⟨hb.2.1, ?_⟩
    intro c hc
    simp only [List.mem_reverse, List.mem_append, List.mem_singleton] at hc
    rcases hc with hc | hc
    · exact walkBack_bounds st.prev hb.2.2.2 n end_ l hw c hc
    · subst hc; exact hs
  · obtain ⟨res, n, hn⟩ := astar_total w start end_ hs
    refine ⟨res, ⟨n, hn⟩, ?_⟩
    obtain ⟨st, l, hl, hw, hv, hp, _⟩ := astar_some (hn n (le_refl _))
    have hb := aLoop_bounds w end_ n _ st (aInit_bounds end_ hs) hl
    rw [hv, hp]
    refine ⟨hb.2.1, ?_⟩
    intro c hc
    simp only [List.mem_reverse, List.mem_append, List.mem_singleton] at hc
    rcases hc with hc | hc
    · exact walkBack_bounds st.prev hb.2.2.2.2 n end_ l hw c hc
    · subst hc; exact hs

theorem indices_in_bounds_witness :
    InBounds ⟨0, 0⟩ ∧ InBounds ⟨19, 19⟩ ∧
    (∀ c : Coord, InBounds c ↔ (0 ≤ c.row ∧ c.row < 20 ∧ 0 ≤ c.col ∧ c.col < 20)) ∧
    (∀ node c, c ∈ getNeighbors wallsStart node → InBounds c) ∧
    (∀ (w' : Walls) node, (∀ r c : Int, InBounds ⟨r, c⟩ → w' r c = wallsStart r c) →
      getNeighbors w' node = getNeighbors wallsStart node) ∧
    (∀ n st, dIterate wallsStart ⟨19, 19⟩ n (dInit ⟨0, 0⟩) = some st →
      DBounds st ∧ ∀ cur rest, sortPq st.pq = cur :: rest →
        InBounds cur.coord ∧ DBounds (dStep wallsStart ⟨19, 19⟩ st cur rest).1) ∧
    (∀ n st, aIterate wallsStart ⟨19, 19⟩ n (aInit ⟨0, 0⟩ ⟨19, 19⟩) = some st →
      ABounds st ∧ ∀ cur rest, sortOpen st.openSet = cur :: rest →
        InBounds cur.coord ∧ ABounds (aStep wallsStart ⟨19, 19⟩ st cur rest).1) ∧
    (∃ res, DijkstraReturns wallsStart ⟨0, 0⟩ ⟨19, 19⟩ res ∧
      (∀ e ∈ res.visited, InBounds e.coord) ∧ ∀ c ∈ res.path, InBounds c) ∧
    (∃ res, AstarReturns wallsStart ⟨0, 0⟩ ⟨19, 19⟩ res ∧
      (∀ e ∈ res.visited, InBounds e.coord) ∧ ∀ c ∈ res.path, InBounds c) :=
  have h1 : InBounds ⟨0, 0⟩ := by decide
  have h2 : InBounds ⟨19, 19⟩ := by decide
  ⟨h1, h2, indices_in_bounds wallsStart ⟨0, 0⟩ ⟨19, 19⟩ h1 h2⟩

/-! ## Adjacent `start` and `end` in the grid without walls -/

theorem heuristic_eq_zero {a b : Coord} (h : heuristic a b = 0) : a = b := by
  obtain ⟨ar, ac⟩ := a
  obtain ⟨br, bc⟩ := b
  simp only [heuristic] at h
  simp only [Coord.mk.injEq]
  omega

theorem rect_of_adjacent {s e z : Coord} (h1 : heuristic s e = 1) (hz : Rect s e z) :
    z = s ∨ z = e := by
  unfold Rect at hz
  have : heuristic s z = 0 ∨ heuristic z e = 0 := by omega
  rcases this with h | h
  · exact Or.inl (heuristic_eq_zero h).symm
  · exact Or.inr (heuristic_eq_zero h)

theorem route_of_length_two {w : Walls} {s e : Coord} {p : List Coord} (h : IsRoute w s e p)
    (hl : p.length = 2) : p = [s, e] := by
  obtain ⟨hh, hlast, _, _⟩ := h
  match p, hl with
  | [a, b], _ =>
    simp only [List.head?_cons, Option.some.injEq] at hh
    simp only [List.getLast?_cons_cons, List.getLast?_singleton, Option.some.injEq] at hlast
    rw [hh, hlast]

theorem aRelax_open_ne_start (end_ cur start : Coord) (st : AState) (y : Coord)
    (hg : st.gScore start = some 0) (h : ∀ x ∈ st.openSet, x.coord ≠ start) :
    ∀ x ∈ (aRelax end_ cur st y).openSet, x.coord ≠ start := by
  cases hc : st.gScore cur with
  | none => unfold aRelax; rw [hc]; exact h
  | some c =>
    by_cases hlt : ltInf (some (c + 1)) (st.gScore y) = true
    · rw [aRelax_update hc hlt]
      have hy : y ≠ start := by
        intro e; subst e
        have := (ltInf_some_iff _ _).1 hlt 0 hg
        omega
      intro x hx
      dsimp only at hx
      split_ifs at hx
      · exact h x hx
      · rcases List.mem_append.1 hx with h' | h'
        · exact h x h'
        · simp only [List.mem_singleton] at h'; subst h'; exact hy
    · rw [aRelax_skip hc (by simpa using hlt)]; exact h

theorem aFold_open_ne_start (end_ cur start : Coord) (l : List Coord) :
    ∀ st : AState, st.gScore start = some 0 → (∀ x ∈ st.openSet, x.coord ≠ start) →
      ∀ x ∈ (l.foldl (aRelax end_ cur) st).openSet, x.coord ≠ start := by
  induction l with
  | nil => intro st _ h; exact h
  | cons y l ih =>
    intro st hg h
    rw [List.foldl_cons]
    exact ih _ (aRelax_gScore_start end_ cur start st y hg)
      (aRelax_open_ne_start end_ cur start st y hg h)

/-- On the grid without walls with adjacent `start` and `end`, once `start` has left the open
set for good the next iteration pops `end` and leaves the loop. -/
theorem astar_pops_end {start end_ : Coord} (hs : InBounds start) (he : InBounds end_)
    (hadj : heuristic start end_ = 1) (st2 : AState) (hinv : AInv noWalls start none st2)
    (hog : OGInv start end_ st2) (hns : ∀ x ∈ st2.openSet, x.coord ≠ start) (fuel : Nat)
    (st' : AState) (hl : aLoop noWalls end_ fuel st2 = some st') :
    st'.visited.map OpenEntry.coord = st2.visited.map OpenEntry.coord ++ [end_] := by
  cases fuel with
  | zero => simp [aLoop] at hl
  | succ m =>
    rw [aLoop] at hl
    cases hsort : sortOpen st2.openSet with
    | nil =>
      exfalso
      obtain ⟨e, hemem, _⟩ := og_exists_F hs he hinv hog
      have hperm := List.perm_insertionSort (fun a b : OpenEntry => a.f ≤ b.f) st2.openSet
      unfold sortOpen at hsort
      rw [hsort] at hperm
      have := hperm.symm.subset hemem
      simp at this
    | cons cur rest =>
      simp only [hsort, aStep] at hl
      have hperm : (cur :: rest).Perm st2.openSet := by
        rw [← hsort]; exact List.perm_insertionSort _ _
      by_cases hce2 : cur.row = end_.row ∧ cur.col = end_.col
      · simp only [hce2, and_self, if_true, Option.some.injEq] at hl
        subst hl
        have hcc := (openEntry_coord_eq_iff cur end_).1 hce2
        simp [hcc]
      · exfalso
        obtain ⟨c2, hc2⟩ := (aPop_inv hinv hsort).2.1
        have hne2 : cur.coord ≠ end_ :=
          fun h => hce2 ((openEntry_coord_eq_iff cur end_).2 h)
        have hmid2 := ogPop hs he hinv hog hsort hc2 hne2
        rcases rect_of_adjacent hadj hmid2.2.2.2.1 with h | h
        · exact hns cur (hperm.subset (by simp)) h
        · exact hne2 h

theorem row_col_ne {a b : Coord} (h : a ≠ b) : ¬ (a.row = b.row ∧ a.col = b.col) := by
  intro h'
  apply h
  obtain ⟨ar, ac⟩ := a
  obtain ⟨br, bc⟩ := b
  simp only at h'
  simp [h'.1, h'.2]

/-- With adjacent `start` and `end` in the grid without walls, `astar` pops `start`, then
`end`, and leaves its loop. -/
theorem astar_adjacent_visited {start end_ : Coord} (hs : InBounds start) (he : InBounds end_)
    (hadj : heuristic start end_ = 1) (fuel : Nat) (st' : AState)
    (hl : aLoop noWalls end_ fuel (aInit start end_) = some st') :
    st'.visited.map OpenEntry.coord = [start, end_] := by
  have hne : start ≠ end_ := by
    intro e; subst e; simp [heuristic] at hadj
  have hinit := aInit_inv noWalls start end_ (isOpen_noWalls hs)
  have hsort0 : sortOpen (aInit start end_).openSet
      = [{ row := start.row, col := start.col, f := heuristic start end_ }] := by
    simp [sortOpen, aInit]
  obtain ⟨hpop, ⟨k, hk⟩, _⟩ := aPop_inv hinit hsort0
  have hc0 : ({ row := start.row, col := start.col, f := heuristic start end_ } : OpenEntry).coord
      = start := rfl
  have hmid := ogPop hs he hinit (ogInit start end_) hsort0 hk (by rw [hc0]; exact hne)
  rw [hc0] at hpop hk hmid
  have hfold := aFold_inv end_ hpop hk
  have hog2 := ogFold hpop hk hmid
  have hns := aFold_open_ne_start end_ start start (getNeighbors noWalls start)
    { visited := (aInit start end_).visited ++
        [{ row := start.row, col := start.col, f := heuristic start end_ }]
      prev := (aInit start end_).prev
      gScore := (aInit start end_).gScore
      fScore := (aInit start end_).fScore
      openSet := [] }
    (by simp [aInit, setAt]) (by simp)
  cases fuel with
  | zero => simp [aLoop] at hl
  | succ n =>
    rw [aLoop] at hl
    simp only [hsort0, aStep, row_col_ne hne, if_false, Bool.false_eq_true] at hl
    rw [hc0] at hl
    have := astar_pops_end hs he hadj _ hfold.1 hog2 hns n st' hl
    rw [this, hfold.2.1]
    simp [aInit, OpenEntry.coord]

theorem dFold_pq_append (cur : Coord) (l : List Coord) :
    ∀ st : DState, ∃ q, (l.foldl (dRelax cur) st).pq = st.pq ++ q := by
  induction l with
  | nil => intro st; exact ⟨[], by simp⟩
  | cons y l ih =>
    intro st
    rw [List.foldl_cons]
    obtain ⟨q, hq⟩ := ih (dRelax cur st y)
    have h1 : ∃ q1, (dRelax cur st y).pq = st.pq ++ q1 := by
      unfold dRelax
      cases st.dist cur with
      | none => exact ⟨[], by simp⟩
      | some d =>
        dsimp only
        split_ifs
        · exact ⟨_, rfl⟩
        · exact ⟨[], by simp⟩
    obtain ⟨q1, hq1⟩ := h1
    exact ⟨q1 ++ q, by rw [hq, hq1, List.append_assoc]⟩

/-- Relaxing a list of distinct undiscovered cells pushes them all, in order. -/
theorem dFold_fresh (cur : Coord) (d : Nat) (l : List Coord) :
    ∀ st : DState, l.Nodup → st.dist cur = some d → (∀ y ∈ l, st.dist y = none) →
      (l.foldl (dRelax cur) st).pq
        = st.pq ++ l.map (fun y => { row := y.row, col := y.col, cost := d + 1 }) := by
  induction l with
  | nil => intro st _ _ _; simp
  | cons y l ih =>
    intro st hn hc hfresh
    rw [List.foldl_cons, dRelax_none hc (hfresh y (by simp))]
    have hn' := List.nodup_cons.1 hn
    have hcy : cur ≠ y := by
      intro e; subst e
      rw [hfresh cur (by simp)] at hc; cases hc
    rw [ih _ hn'.2 (by dsimp only; rw [setAt_other _ _ _ _ hcy]; exact hc)
      (by
        intro z hz
        dsimp only
        have : z ≠ y := fun e => hn'.1 (e ▸ hz)
        rw [setAt_other _ _ _ _ this]
        exact hfresh z (List.mem_cons_of_mem _ hz))]
    simp

theorem dropWhile_ne_of_mem {e : Coord} :
    ∀ l : List Coord, e ∈ l → ∃ post, l.dropWhile (fun y => decide (y ≠ e)) = e :: post := by
  intro l
  induction l with
  | nil => intro h; simp at h
  | cons a l ih =>
    intro h
    by_cases hae : a = e
    · subst hae
      exact ⟨l, List.dropWhile_cons_of_neg (by simp)⟩
    · rcases List.mem_cons.1 h with h' | h'
      · exact absurd h'.symm hae
      · obtain ⟨post, hp⟩ := ih h'
        exact ⟨post, by rw [List.dropWhile_cons_of_pos (by simp [hae])]; exact hp⟩

/-- When the queue of `dijkstra` starts with entries of one cost for the cells
`pre ++ [end]`, the loop pops exactly these, in order, and is left. -/
theorem dLoop_visited_run (w : Walls) (start end_ : Coord) (c : Nat) :
    ∀ (pre post : List Coord) (q : List PqEntry) (fuel : Nat) (st st' : DState) (d : Nat),
      DInv w start d none st →
      st.pq = (pre ++ end_ :: post).map (fun y => { row := y.row, col := y.col, cost := c }) ++ q →
      end_ ∉ pre → dLoop w end_ fuel st = some st' →
      st'.visited = st.visited ++
        (pre ++ [end_]).map (fun y => ({ row := y.row, col := y.col, cost := c } : PqEntry)) := by
  intro pre
  induction pre with
  | nil =>
    intro post q fuel st st' d hinv hpq _ hl
    cases fuel with
    | zero => simp [dLoop] at hl
    | succ n =>
      have hsorted : sortPq st.pq = st.pq := List.Sorted.insertionSort_eq hinv.2.sorted
      rw [dLoop, hsorted] at hl
      simp only [List.nil_append, List.map_cons, List.cons_append] at hpq
      simp only [hpq, dStep, and_self, if_true, Option.some.injEq] at hl
      rw [← hl]
      simp
  | cons x pre ih =>
    intro post q fuel st st' d hinv hpq hnot hl
    have hxe : x ≠ end_ := fun e => hnot (by simp [e])
    have hnot' : end_ ∉ pre := fun h => hnot (List.mem_cons_of_mem _ h)
    cases fuel with
    | zero => simp [dLoop] at hl
    | succ n =>
      have hsorted : sortPq st.pq = st.pq := List.Sorted.insertionSort_eq hinv.2.sorted
      rw [dLoop, hsorted] at hl
      simp only [List.cons_append, List.map_cons] at hpq
      obtain ⟨hpop, hdc⟩ := dPop_inv hinv hpq
      obtain ⟨hfold, hvis⟩ := dFold_inv hpop hdc
      obtain ⟨q', hq'⟩ := dFold_pq_append
        ({ row := x.row, col := x.col, cost := c } : PqEntry).coord
        (getNeighbors w ({ row := x.row, col := x.col, cost := c } : PqEntry).coord)
        { st with
          visited := st.visited ++ [{ row := x.row, col := x.col, cost := c }]
          pq := (pre ++ end_ :: post).map
            (fun y => ({ row := y.row, col := y.col, cost := c } : PqEntry)) ++ q }
      have hce : ¬ (x.row = end_.row ∧ x.col = end_.col) := row_col_ne hxe
      simp only [hpq, dStep, hce, if_false, Bool.false_eq_true] at hl
      have := ih post (q ++ q') n _ st' _ hfold
        (by rw [hq']; simp) hnot' hl
      rw [this, hvis]
      simp

/-- With adjacent `start` and `end` in the grid without walls, `dijkstra` pops `start`, then
the neighbours of `start` that `getNeighbors` lists before `end`, then `end`. -/
theorem dijkstra_adjacent_visited {start end_ : Coord} (hs : InBounds start)
    (he : InBounds end_) (hadj : heuristic start end_ = 1) (fuel : Nat) (st' : DState)
    (hl : dLoop noWalls end_ fuel (dInit start) = some st') :
    st'.visited.map PqEntry.coord
      = start :: ((getNeighbors noWalls start).takeWhile (fun y => decide (y ≠ end_))
          ++ [end_]) := by
  have hne : start ≠ end_ := by
    intro e; subst e; simp [heuristic] at hadj
  have hinit := dInit_inv noWalls start (isOpen_noWalls hs)
  have hpq0 : (dInit start).pq = { row := start.row, col := start.col, cost := 0 } :: [] := rfl
  obtain ⟨hpop, hdc⟩ := dPop_inv hinit hpq0
  have hc0 : ({ row := start.row, col := start.col, cost := 0 } : PqEntry).coord = start := rfl
  rw [hc0] at hpop hdc
  obtain ⟨hfold, hvis⟩ := dFold_inv hpop hdc
  have hfresh := dFold_fresh start 0 (getNeighbors noWalls start)
    { dInit start with
      visited := (dInit start).visited ++ [{ row := start.row, col := start.col, cost := 0 }]
      pq := [] }
    (getNeighbors_nodup noWalls start) hdc
    (by
      intro y hy
      have hy' := ((mem_getNeighbors noWalls start y).1 hy).2
      have : y ≠ start := by
        intro e; subst e; simp [Adjacent] at hy'
      simp [dInit, setAt, this])
  have hmem : end_ ∈ getNeighbors noWalls start :=
    (mem_getNeighbors noWalls start end_).2 ⟨isOpen_noWalls he, by
      unfold Adjacent; unfold heuristic at hadj; omega⟩
  obtain ⟨post, hpost⟩ := dropWhile_ne_of_mem (getNeighbors noWalls start) hmem
  have hsplit : getNeighbors noWalls start
      = (getNeighbors noWalls start).takeWhile (fun y => decide (y ≠ end_)) ++ end_ :: post := by
    rw [← hpost, List.takeWhile_append_dropWhile]
  have hnot : end_ ∉ (getNeighbors noWalls start).takeWhile (fun y => decide (y ≠ end_)) := by
    intro h
    have := List.mem_takeWhile_imp h
    simp at this
  cases fuel with
  | zero => simp [dLoop] at hl
  | succ n =>
    rw [dLoop] at hl
    have hsort0 : sortPq (dInit start).pq
        = [{ row := start.row, col := start.col, cost := 0 }] := by
      simp [sortPq, dInit]
    have hce : ¬ (start.row = end_.row ∧ start.col = end_.col) := row_col_ne hne
    simp only [hsort0, dStep, hce, if_false, Bool.false_eq_true] at hl
    rw [hc0] at hl
    have hrun := dLoop_visited_run noWalls start end_ (0 + 1) _ post [] n _ st' _ hfold
      (by rw [hfresh]; simp only [List.nil_append, List.append_nil]; rw [← hsplit]) hnot hl
    have hid : (PqEntry.coord ∘ fun y : Coord =>
        ({ row := y.row, col := y.col, cost := 0 + 1 } : PqEntry)) = id :=
      funext fun _ => rfl
    rw [hrun, hvis, List.map_append, List.map_map, hid, List.map_id]
    rfl

theorem takeWhile_ne_eq_nil {e : Coord} {l : List Coord} (hmem : e ∈ l) :
    l.takeWhile (fun y => decide (y ≠ e)) = [] ↔ l.head? = some e := by
  cases l with
  | nil => simp at hmem
  | cons a l =>
    by_cases hae : a = e
    · subst hae
      simp [List.takeWhile]
    · have h1 : decide (a ≠ e) = true := by simpa using hae
      have h2 : List.takeWhile (fun y => decide (y ≠ e)) (a :: l)
          = a :: List.takeWhile (fun y => decide (y ≠ e)) l :=
        List.takeWhile_cons_of_pos h1
      rw [h2]
      simp [hae]

set_option maxRecDepth 1000000 in
theorem dijkstra_adjacent_eval :
    (dijkstra noWalls 10 ⟨0, 0⟩ ⟨1, 0⟩).map
        (fun r => (r.visited.map (fun e => (e.row, e.col)), r.path.map (fun c => (c.row, c.col))))
      = some ([(0, 0), (0, 1), (1, 0)], [(0, 0), (1, 0)]) := by
  decide

/-- C14 (counterexample): in the grid without walls, with `start = (0, 0)` and the adjacent
`end = (1, 0)`, the `visited` sequence produced by `dijkstra` is `(0,0), (0,1), (1,0)`: it
has three entries and is not `[start, end]`. -/
theorem dijkstra_adjacent_visited_three :
    InBounds ⟨0, 0⟩ ∧ InBounds ⟨1, 0⟩ ∧ Adjacent ⟨0, 0⟩ ⟨1, 0⟩ ∧
      ∃ res, DijkstraReturns noWalls ⟨0, 0⟩ ⟨1, 0⟩ res ∧
        res.visited.map (fun e => (e.row, e.col)) = [(0, 0), (0, 1), (1, 0)] ∧
        res.visited.map (fun e => (e.row, e.col)) ≠ [(0, 0), (1, 0)] ∧
        res.path.map (fun c => (c.row, c.col)) = [(0, 0), (1, 0)] := by
  have h := dijkstra_adjacent_eval
  refine ⟨by decide, by decide, by decide, ?_⟩
  cases hr : dijkstra noWalls 10 ⟨0, 0⟩ ⟨1, 0⟩ with
  | none => rw [hr] at h; simp at h
  | some res =>
    rw [hr] at h
    simp only [Option.map_some', Option.some.injEq, Prod.mk.injEq] at h
    refine ⟨res, dijkstra_mono _ _ _ _ _ hr, h.1, ?_, h.2⟩
    rw [h.1]; decide

/-- C14 (amended): in the grid without walls, for in-bounds orthogonally adjacent `start` and
`end`, `dijkstra(start, end)` and `astar(start, end)` both return and both build
`path = [start, end]`; the `visited` sequence of `astar` is `[start, end]`; the `visited`
sequence of `dijkstra` is `start`, then the neighbours of `start` that `getNeighbors(start)`
lists before `end`, then `end`, and it is `[start, end]` exactly when `end` is the first entry
of `getNeighbors(start)`. -/
theorem adjacent_search_result (start end_ : Coord) (hs : InBounds start)
    (he : InBounds end_) (hadj : Adjacent start end_) :
    ∃ rd ra, DijkstraReturns noWalls start end_ rd ∧ AstarReturns noWalls start end_ ra ∧
      rd.path = [start, end_] ∧ ra.path = [start, end_] ∧
      ra.visited.map OpenEntry.coord = [start, end_] ∧
      rd.visited.map PqEntry.coord
        = start :: ((getNeighbors noWalls start).takeWhile (fun y => decide (y ≠ end_))
            ++ [end_]) ∧
      (rd.visited.map PqEntry.coord = [start, end_]
        ↔ (getNeighbors noWalls start).head? = some end_) := by
  have hh : heuristic start end_ = 1 := hadj
  have hmem : end_ ∈ getNeighbors noWalls start :=
    (mem_getNeighbors noWalls start end_).2 ⟨isOpen_noWalls he, by
      unfold Adjacent at hadj ⊢; omega⟩
  obtain ⟨p, hp, hlen, _⟩ := exists_monotone_route _ start end_ rfl hs he
  obtain ⟨st, l, hexit, hret, _, hsome⟩ := dijkstra_run noWalls start end_ (isOpen_noWalls hs)
  obtain ⟨ge, hge, hle⟩ := hexit.dist_end_le ⟨p, hp⟩
  obtain ⟨hl, hr⟩ := hsome ge hge
  obtain ⟨st', l', _, ⟨n, hloop⟩, hret', _, hsome'⟩ :=
    astar_run noWalls start end_ (isOpen_noWalls hs)
  have hg := ogLoop hs he n _ st' (aInit_inv noWalls start end_ (isOpen_noWalls hs))
    (ogInit start end_) hloop
  obtain ⟨hl', hr'⟩ := hsome' _ hg
  have hpd : (l ++ [start]).reverse = [start, end_] := by
    apply route_of_length_two hr
    have h1 := hr.heuristic_lt_length
    have h2 := hle p hp
    simp only [List.length_reverse, List.length_append, List.length_singleton] at h1 ⊢
    omega
  have hpa : (l' ++ [start]).reverse = [start, end_] := by
    apply route_of_length_two hr'
    have h1 := hr'.heuristic_lt_length
    simp only [List.length_reverse, List.length_append, List.length_singleton] at h1 ⊢
    omega
  obtain ⟨nd, hnd⟩ := hret
  obtain ⟨std, _, hdl, _, hdv, _⟩ := dijkstra_some (hnd nd (le_refl _))
  have hvd := dijkstra_adjacent_visited hs he hh nd std hdl
  have hva := astar_adjacent_visited hs he hh n st' hloop
  refine ⟨_, _, ⟨nd, hnd⟩, hret', hpd, hpa, hva, ?_, ?_⟩
  · show st.visited.map PqEntry.coord = _
    rw [show st.visited = std.visited from hdv]
    exact hvd
  · show st.visited.map PqEntry.coord = _ ↔ _
    rw [show st.visited = std.visited from hdv, hvd, ← takeWhile_ne_eq_nil hmem]
    constructor
    · intro h
      simp only [List.cons.injEq, true_and] at h
      cases ht : (getNeighbors noWalls start).takeWhile (fun y => decide (y ≠ end_)) with
      | nil => rfl
      | cons a t =>
        rw [ht] at h
        cases t <;> simp at h
    · intro h
      rw [h]
      rfl

theorem adjacent_search_result_witness :
    InBounds ⟨0, 0⟩ ∧ InBounds ⟨1, 0⟩ ∧ Adjacent ⟨0, 0⟩ ⟨1, 0⟩ ∧
      ∃ rd ra, DijkstraReturns noWalls ⟨0, 0⟩ ⟨1, 0⟩ rd ∧
        AstarReturns noWalls ⟨0, 0⟩ ⟨1, 0⟩ ra ∧
        rd.path = [⟨0, 0⟩, ⟨1, 0⟩] ∧ ra.path = [⟨0, 0⟩, ⟨1, 0⟩] ∧
        ra.visited.map OpenEntry.coord = [⟨0, 0⟩, ⟨1, 0⟩] ∧
        rd.visited.map PqEntry.coord
          = ⟨0, 0⟩ :: ((getNeighbors noWalls ⟨0, 0⟩).takeWhile
              (fun y => decide (y ≠ (⟨1, 0⟩ : Coord))) ++ [⟨1, 0⟩]) ∧
        (rd.visited.map PqEntry.coord = [⟨0, 0⟩, ⟨1, 0⟩]
          ↔ (getNeighbors noWalls ⟨0, 0⟩).head? = some ⟨1, 0⟩) :=
  have h1 : InBounds ⟨0, 0⟩ := by decide
  have h2 : InBounds ⟨1, 0⟩ := by decide
  have h3 : Adjacent ⟨0, 0⟩ ⟨1, 0⟩ := by decide
  ⟨h1, h2, h3, adjacent_search_result ⟨0, 0⟩ ⟨1, 0⟩ h1 h2 h3⟩

end Pathfinder
